import Mathlib

/-!
# Snowman decompiler: extended-precision integers

A shallow embedding of `nc/common/ExtendedInteger.h` (the two-word 128-bit integer
`IntegerBase128`, its signed and unsigned instances, and the division helper
`UnsignedDivide128Impl`).

Conventions of the embedding.

* A native 64-bit word is a natural number below `2^64`; every native operation
  that can wrap is followed by an explicit `% W64`.
* The signed instance stores `hi_` as `int64_t`.  The embedding keeps its
  two's-complement bit pattern, so that `hi_ < 0` reads `2^63 ≤ hi`; signed
  negation and increment wrap modulo `2^64`.
* The template parameter that selects the signed or the unsigned instance is a
  `Bool` argument (`true` for `SignedInteger128`) of the operations whose code
  depends on the type of `hi_`.
* `a += b` is embedded for `b` an object distinct from `a`, which is how every
  caller in the header uses it.
* Division by zero is undefined behaviour in the source; the embedding is total
  and every statement about division assumes a non-zero divisor.
-/

namespace Snowman

/-- The number of values of a native 64-bit word, `2^64`. -/
abbrev W64 : Nat := 18446744073709551616

/-- The number of values of a 32-bit half word, `2^32`. -/
abbrev W32 : Nat := 4294967296

/-- The number of values of a 128-bit integer, `2^128`. -/
abbrev W128 : Nat := 340282366920938463463374607431768211456

/-- The fields `hi_` and `lo_` of `IntegerBase128<T>`. -/
structure IntegerBase128 where
  hi : Nat
  lo : Nat
deriving DecidableEq

namespace IntegerBase128

/-- Both words are native 64-bit words. -/
def WF (a : IntegerBase128) : Prop := a.hi < W64 ∧ a.lo < W64

instance (a : IntegerBase128) : Decidable (WF a) := by
  unfold WF; infer_instance

/-- The unsigned value `hi * 2^64 + lo`. -/
def val (a : IntegerBase128) : Nat := a.hi * W64 + a.lo

/-- A 64-bit pattern read as `int64_t`. -/
def toInt64 (x : Nat) : Int := if x < 9223372036854775808 then (x : Int) else (x : Int) - 18446744073709551616

/-- The signed value: `hi` read as a signed 64-bit number, `lo` unsigned. -/
def sval (a : IntegerBase128) : Int := toInt64 a.hi * 18446744073709551616 + (a.lo : Int)

/-- Native `~x` on a 64-bit word. -/
def not64 (x : Nat) : Nat := W64 - 1 - x

/-- Native `-x` on a 64-bit word (wrapping). -/
def neg64 (x : Nat) : Nat := (W64 - x) % W64

/-- The test `hi_ < 0`: never true for the unsigned instance. -/
def hiNegative (signed : Bool) (hi : Nat) : Bool := signed && decide (9223372036854775808 ≤ hi)

/-- The comparison `hi_ < rhs.hi_` at the type `hi_data_t`. -/
def hiLess (signed : Bool) (x y : Nat) : Bool :=
  if signed then decide (toInt64 x < toInt64 y) else decide (x < y)

/-- Native `hi_ >> k` at the type `hi_data_t` (arithmetic for `int64_t`), `k < 64`. -/
def hiShiftRight (signed : Bool) (x k : Nat) : Nat :=
  if hiNegative signed x then (x >>> k) + (W64 - 2 ^ (64 - k)) else x >>> k

/-- The constructor `IntegerBase128(unsigned_data_t lo)`. -/
def ofUnsigned (lo : Nat) : IntegerBase128 := ⟨0, lo⟩

/-- The constructor `IntegerBase128(signed_data_t lo)`, `lo` given as a bit pattern. -/
def ofSigned (lo : Nat) : IntegerBase128 :=
  ⟨if 9223372036854775808 ≤ lo then W64 - 1 else 0, lo⟩

/-- The member `operator <`. -/
def opLt (signed : Bool) (a rhs : IntegerBase128) : Bool :=
  if a.hi = rhs.hi then decide (a.lo < rhs.lo) else hiLess signed a.hi rhs.hi

/-- The member `operator ==`. -/
def opEq (a rhs : IntegerBase128) : Bool :=
  decide (a.hi = rhs.hi) && decide (a.lo = rhs.lo)

/-- The member `operator +=` (for `rhs` an object distinct from `*this`). -/
def opAddAssign (a rhs : IntegerBase128) : IntegerBase128 :=
  let hi := (a.hi + rhs.hi) % W64
  let lo := (a.lo + rhs.lo) % W64
  if lo < rhs.lo then ⟨(hi + 1) % W64, lo⟩ else ⟨hi, lo⟩

/-- The unary member `operator -`. -/
def opNeg (a : IntegerBase128) : IntegerBase128 :=
  if a.lo = 0 then ⟨neg64 a.hi, 0⟩ else ⟨not64 a.hi, neg64 a.lo⟩

/-- The member `negate()`. -/
def negate (a : IntegerBase128) : IntegerBase128 :=
  if a.lo = 0 then { a with hi := neg64 a.hi }
  else { hi := not64 a.hi, lo := neg64 a.lo }

/-- The member `operator -=`: `*this += -rhs`. -/
def opSubAssign (a rhs : IntegerBase128) : IntegerBase128 :=
  opAddAssign a (opNeg rhs)

/-- The member `operator ~`. -/
def opNot (a : IntegerBase128) : IntegerBase128 := ⟨not64 a.hi, not64 a.lo⟩

/-- The member `operator <<=`. -/
def opShlAssign (a : IntegerBase128) (rhs : Nat) : IntegerBase128 :=
  let rhs := rhs &&& (128 - 1)
  if rhs = 0 then a
  else if rhs > 63 then ⟨(a.lo <<< (rhs - 64)) % W64, 0⟩
  else
    let hi := (a.hi <<< rhs) % W64
    let hi := hi ||| (a.lo >>> (64 - rhs))
    ⟨hi, (a.lo <<< rhs) % W64⟩

/-- The member `operator >>=`. -/
def opShrAssign (signed : Bool) (a : IntegerBase128) (rhs : Nat) : IntegerBase128 :=
  let rhs := rhs &&& (128 - 1)
  if rhs = 0 then a
  else if rhs > 63 then
    ⟨if hiNegative signed a.hi then W64 - 1 else 0, hiShiftRight signed a.hi (rhs - 64)⟩
  else
    let lo := a.lo >>> rhs
    let lo := lo ||| ((a.hi <<< (64 - rhs)) % W64)
    ⟨hiShiftRight signed a.hi rhs, lo⟩

/-- The member `operator *=`. -/
def opMulAssign (a rhs : IntegerBase128) : IntegerBase128 :=
  let this_lo_lo := a.lo &&& 0xFFFFFFFF
  let this_lo_hi := a.lo >>> 32
  let rhs_lo_lo := rhs.lo &&& 0xFFFFFFFF
  let rhs_lo_hi := rhs.lo >>> 32
  let hi := ((a.lo * rhs.hi) % W64 + (a.hi * rhs.lo) % W64) % W64
  let hi := (hi + (this_lo_hi * rhs_lo_hi) % W64) % W64
  let part_hi_a := (this_lo_lo * rhs_lo_hi) % W64
  let part_hi_b := (this_lo_hi * rhs_lo_lo) % W64
  let hi := (hi + ((part_hi_a >>> 32) + (part_hi_b >>> 32)) % W64) % W64
  let lo := ((part_hi_a &&& 0xFFFFFFFF) + (part_hi_b &&& 0xFFFFFFFF)) % W64
  let hi := if lo > 0xFFFFFFFF then (hi + 1) % W64 else hi
  let lo := (lo <<< 32) % W64
  let part_lo := (this_lo_lo * rhs_lo_lo) % W64
  let lo := (lo + part_lo) % W64
  let hi := if lo < part_lo then (hi + 1) % W64 else hi
  ⟨hi, lo⟩

end IntegerBase128

open IntegerBase128

/-- The template `ilog2_impl<T, size>::calc`, indexed by `k` with `size = 2^k`;
`k = 0` is the specialisation `ilog2_impl<T, 1>`. -/
def ilog2_impl : Nat → Nat → Nat
  | 0, value => value >>> 1
  | k + 1, value =>
    let size := 2 ^ (k + 1)
    let larger_than_size := decide (value >>> size ≠ 0)
    let value := if larger_than_size then value >>> size else value
    let partial_result := if larger_than_size then size else 0
    partial_result ||| ilog2_impl k value

/-- The function `ilog2<uint32_t>`; the result is an `unsigned int`. -/
def ilog2_u32 (value : Nat) : Nat :=
  if value = 0 then 4294967295 else ilog2_impl 4 value

/-- The function `ilog2<uint64_t>`; the result is an `unsigned int`. -/
def ilog2_u64 (value : Nat) : Nat :=
  if value = 0 then 4294967295 else ilog2_impl 5 value

namespace UnsignedInteger128

/-- The static member `UnsignedInteger128::extendMul`. -/
def extendMul (lhs rhs : Nat) : IntegerBase128 :=
  let lhsHi := lhs >>> 32
  let lhsLo := lhs &&& 0xFFFFFFFF
  let rhsHi := rhs >>> 32
  let rhsLo := rhs &&& 0xFFFFFFFF
  let a := (lhsHi * rhsHi) % W64
  let b := (lhsHi * rhsLo) % W64
  let c := (lhsLo * rhsHi) % W64
  let hi := (a + (b >>> 32) + (c >>> 32)) % W64
  let b := (b <<< 32) % W64
  let c := (c <<< 32) % W64
  let lo := ((lhsLo * rhsLo) % W64 + b) % W64
  let hi := if lo < b then (hi + 1) % W64 else hi
  let lo := (lo + c) % W64
  let hi := if lo < c then (hi + 1) % W64 else hi
  ⟨hi, lo⟩

end UnsignedInteger128

namespace SignedInteger128

/-- The static member `SignedInteger128::extendMul`; the operands and the words
of the result are 64-bit two's-complement patterns. -/
def extendMul (lhs rhs : Nat) : IntegerBase128 :=
  let negate := hiNegative true lhs != hiNegative true rhs
  let lhs := if hiNegative true lhs then neg64 lhs else lhs
  let int1Hi := lhs >>> 32
  let int1Lo := lhs &&& 0xFFFFFFFF
  let rhs := if hiNegative true rhs then neg64 rhs else rhs
  let int2Hi := rhs >>> 32
  let int2Lo := rhs &&& 0xFFFFFFFF
  let a := (int1Hi * int2Hi) % W64
  let b := (int1Lo * int2Lo) % W64
  let c := ((int1Hi * int2Lo) % W64 + (int1Lo * int2Hi) % W64) % W64
  let hi := (a + (c >>> 32)) % W64
  let lo := (c <<< 32) % W64
  let lo := (lo + b) % W64
  let hi := if lo < b then (hi + 1) % W64 else hi
  let result : IntegerBase128 := ⟨hi, lo⟩
  if negate then opNeg result else result

end SignedInteger128

namespace UnsignedDivide128Impl

/-- The private static member `impl_multiply`. -/
def impl_multiply (lhs rhs : Nat) : IntegerBase128 :=
  let lhsHi := lhs >>> 32
  let lhsLo := lhs &&& 0xFFFFFFFF
  let rhsHi := rhs >>> 32
  let rhsLo := rhs &&& 0xFFFFFFFF
  let a := (lhsHi * rhsHi) % W64
  let b := (lhsHi * rhsLo) % W64
  let c := (lhsLo * rhsHi) % W64
  let hi := (a + (b >>> 32) + (c >>> 32)) % W64
  let b := (b <<< 32) % W64
  let c := (c <<< 32) % W64
  let lo := ((lhsLo * rhsLo) % W64 + b) % W64
  let hi := if lo < b then (hi + 1) % W64 else hi
  let lo := (lo + c) % W64
  let hi := if lo < c then (hi + 1) % W64 else hi
  ⟨hi, lo⟩

/-- The private static member `impl_multiply_high_part`. -/
def impl_multiply_high_part (lhs rhs : IntegerBase128) : IntegerBase128 :=
  let result := impl_multiply lhs.lo rhs.lo
  let result : IntegerBase128 := ⟨0, result.hi⟩
  let result := opAddAssign result (impl_multiply lhs.hi rhs.lo)
  let a := impl_multiply lhs.lo rhs.hi
  let result := opAddAssign result a
  let result_overflow := opLt false result a
  let result : IntegerBase128 := ⟨if result_overflow then 1 else 0, result.hi⟩
  opAddAssign result (impl_multiply lhs.hi rhs.hi)

/-- The overload `impl_divide(dividend, const uint32_t& divisor)`. -/
def impl_divide_u32 (dividend : IntegerBase128) (divisor : Nat) : IntegerBase128 :=
  if dividend.hi = 0 then
    if dividend.lo < divisor then ⟨0, 0⟩ else ⟨0, dividend.lo / divisor⟩
  else
    let base_max := W64 - 1
    let base_quot := base_max / divisor
    let base_rem := (base_max % divisor + 1) % W64
    let base_quot := if base_rem = divisor then (base_quot + 1) % W64 else base_quot
    let base_rem := if base_rem = divisor then 0 else base_rem
    let hi_rem := dividend.hi
    let result_hi := if hi_rem ≥ divisor then hi_rem / divisor else 0
    let hi_rem := if hi_rem ≥ divisor then hi_rem % divisor else hi_rem
    let M : IntegerBase128 := ⟨0, (base_rem * hi_rem) % W64⟩
    let M := opAddAssign M (ofUnsigned dividend.lo)
    let result : IntegerBase128 := ⟨result_hi, (hi_rem * base_quot) % W64⟩
    let result := if M.hi ≠ 0 then opAddAssign result (ofUnsigned base_quot) else result
    let M : IntegerBase128 := if M.hi ≠ 0 then ⟨M.hi, (M.lo + base_rem) % W64⟩ else M
    opAddAssign result (ofUnsigned (M.lo / divisor))

/-- One Newton-Raphson correction of `reciprocal_divisor` by the residual `tmpa`
(the `if`/`else` that closes each of the two refinement blocks of `impl_divide`). -/
def refine (reciprocal_divisor tmpa : IntegerBase128) : IntegerBase128 :=
  if hiNegative true tmpa.hi then
    opAddAssign reciprocal_divisor (impl_multiply_high_part reciprocal_divisor (opNeg tmpa))
  else
    opSubAssign reciprocal_divisor (impl_multiply_high_part reciprocal_divisor tmpa)

/-- The value of `reciprocal_divisor` after the two refinement blocks of
`impl_divide`, from `divisor_normalized`. -/
def reciprocal (divisor_normalized : Nat) : IntegerBase128 :=
  let divisor_normalized_hi32 := divisor_normalized >>> 32
  let base_max := W64 - 1
  let reciprocal_divisor : IntegerBase128 :=
    ⟨((base_max / divisor_normalized_hi32) <<< 31) % W64, 0⟩
  let tmpa := impl_multiply divisor_normalized reciprocal_divisor.hi
  let tmpa := opShlAssign tmpa 1
  let reciprocal_divisor := refine reciprocal_divisor tmpa
  let tmpa := impl_multiply divisor_normalized reciprocal_divisor.hi
  let tmpa := opAddAssign tmpa (ofUnsigned (impl_multiply divisor_normalized reciprocal_divisor.lo).hi)
  let tmpa := opShlAssign tmpa 1
  refine reciprocal_divisor tmpa

/-- The overload `impl_divide(dividend, const unsigned_data_t& divisor)`. -/
def impl_divide (dividend : IntegerBase128) (divisor : Nat) : IntegerBase128 :=
  if dividend.hi = 0 then
    if dividend.lo < divisor then ⟨0, 0⟩ else ⟨0, dividend.lo / divisor⟩
  else if divisor >>> 32 = 0 then
    impl_divide_u32 dividend (divisor % W32)
  else
    let initial_shift := (1 + ilog2_u32 ((divisor >>> 32) % W32)) % W32
    let divisor_normalized := (divisor <<< (32 - initial_shift)) % W64
    let reciprocal_divisor := reciprocal divisor_normalized
    let result := impl_multiply_high_part dividend reciprocal_divisor
    opShrAssign false result (31 + initial_shift)

/-- The local variables of the `do ... while` loop of `unsigned_divide`. -/
structure LoopState where
  divisor_normalized : IntegerBase128
  remainder : IntegerBase128
  quotient : Nat
  current_power : Nat
deriving DecidableEq

/-- One pass through the body of the loop, followed by the `current_power >>= 1`
of its condition. -/
def loop_body (s : LoopState) : LoopState :=
  let fits := !(opLt false s.remainder s.divisor_normalized)
  { divisor_normalized := opShrAssign false s.divisor_normalized 1
    remainder := if fits then opSubAssign s.remainder s.divisor_normalized else s.remainder
    quotient := if fits then (s.quotient + s.current_power) % W64 else s.quotient
    current_power := s.current_power >>> 1 }

/-- The loop condition `(current_power >>= 1) != 0 && remainder != 0`, read after
the shift has been done by `loop_body`. -/
def loop_cond (s : LoopState) : Bool :=
  decide (s.current_power ≠ 0) && !(opEq s.remainder (ofUnsigned 0))

/-- The `do ... while` loop of `unsigned_divide`: the final state and the number
of passes through the body. -/
def do_while (s : LoopState) : LoopState × Nat :=
  let s1 := loop_body s
  if h : loop_cond s1 = true then
    let r := do_while s1
    (r.1, r.2 + 1)
  else (s1, 1)
termination_by s.current_power
decreasing_by
  have h1 : s.current_power >>> 1 ≠ 0 := by
    simp only [loop_cond, loop_body, Bool.and_eq_true, decide_eq_true_eq] at h
    exact h.1
  rw [Nat.shiftRight_eq_div_pow] at h1
  show s.current_power >>> 1 < s.current_power
  rw [Nat.shiftRight_eq_div_pow]
  omega

/-- The public static member `unsigned_divide`. -/
def unsigned_divide (dividend divisor : IntegerBase128) : IntegerBase128 :=
  if divisor.hi = 0 then impl_divide dividend divisor.lo
  else if opLt false dividend divisor then ⟨0, 0⟩
  else
    let divisor_magnitude := (1 + ilog2_u64 divisor.hi) % W32
    let dividend_magnitude := (1 + ilog2_u64 dividend.hi) % W32
    let shift := (dividend_magnitude + W32 - divisor_magnitude) % W32
    let divisor_normalized := opShlAssign divisor shift
    let current_power := (1 <<< shift) % W64
    let final := (do_while ⟨divisor_normalized, dividend, 0, current_power⟩).1
    ofUnsigned final.quotient

end UnsignedDivide128Impl

open UnsignedDivide128Impl

namespace IntegerBase128

/-- The member `operator /=`. -/
def opDivAssign (signed : Bool) (a rhs : IntegerBase128) : IntegerBase128 :=
  let negate_result := hiNegative signed a.hi != hiNegative signed rhs.hi
  let dividend := if hiNegative signed a.hi then opNeg a else a
  let divisor := if hiNegative signed rhs.hi then opNeg rhs else rhs
  let unsigned_result := unsigned_divide dividend divisor
  if negate_result then opNeg unsigned_result else unsigned_result

/-- The member `operator %=`. -/
def opModAssign (signed : Bool) (a rhs : IntegerBase128) : IntegerBase128 :=
  let division_result := opDivAssign signed a rhs
  opSubAssign a (opMulAssign division_result rhs)

end IntegerBase128

/-!
# Abstract values of the dataflow analysis

A shallow embedding of `nc/core/ir/dflow/ArchAbstractValue.h`.

Conventions of the embedding.

* A mask of the type `ArchExtendedConstantValue` is a natural number below `2^w`, where
  the width `w` of that type is a parameter of every operation that depends on it; the
  argument `-1` of the shifts by an unknown amount is the word `2^w - 1`.
* A `SmallBitSize` is a natural number: the constructors assert `size >= 0`.
* The helpers of `nc/common/BitTwiddling.h` and the class of `nc/common/SizedValue.h`
  are not among the sources at hand and are modelled from the specification.
* An `assert` does not change what an operation returns.  The two assertions of the
  exact constructor are the predicate `truncated`; `asConcrete`, whose result is only
  defined for a concrete value, returns an `Option`.
-/

/-- Modelled from the spec: `bitMask<T>(nbits)` of `nc/common/BitTwiddling.h`, the mask of
the `nbits` low bits of a word of `w` bits. -/
def bitMask (w nbits : Nat) : Nat := 2 ^ (min nbits w) - 1

/-- Modelled from the spec: `bitTruncate(value, nbits)` of `nc/common/BitTwiddling.h`, the
masks "truncated to the given size": the `nbits` low bits of `value`. -/
def bitTruncate (w value nbits : Nat) : Nat := value &&& bitMask w nbits

/-- Modelled from the spec: `shiftLeft(value, nbits)` of `nc/common/BitTwiddling.h`, the
zero-filling left shift of a word of `w` bits. -/
def shiftLeft (w value nbits : Nat) : Nat :=
  if nbits < w then (value <<< nbits) % 2 ^ w else 0

/-- Modelled from the spec: `shiftRight(value, nbits)` of `nc/common/BitTwiddling.h`, the
zero-filling right shift of a word of `w` bits. -/
def shiftRight (w value nbits : Nat) : Nat :=
  if nbits < w then value >>> nbits else 0

/-- Modelled from the spec: `SizedValue` of `nc/common/SizedValue.h`, a width and
magnitude pair. -/
structure SizedValue where
  size : Nat
  value : Nat
deriving DecidableEq

/-- The fields `size_`, `zeroBits_` and `oneBits_` of `ArchAbstractValue`. -/
structure ArchAbstractValue where
  size : Nat
  zeroBits : Nat
  oneBits : Nat
deriving DecidableEq

namespace ArchAbstractValue

/-- Both masks are words of `w` bits. -/
def InWord (w : Nat) (a : ArchAbstractValue) : Prop := a.zeroBits < 2 ^ w ∧ a.oneBits < 2 ^ w

instance (w : Nat) (a : ArchAbstractValue) : Decidable (InWord w a) := by
  unfold InWord; infer_instance

/-- The two mask assertions of the exact constructor,
`bitTruncate(zeroBits, size) == zeroBits` and `bitTruncate(oneBits, size) == oneBits`:
the masks have no bit at a position `>= size`. -/
def truncated (w : Nat) (a : ArchAbstractValue) : Prop :=
  bitTruncate w a.zeroBits a.size = a.zeroBits ∧ bitTruncate w a.oneBits a.size = a.oneBits

instance (w : Nat) (a : ArchAbstractValue) : Decidable (truncated w a) := by
  unfold truncated; infer_instance

/-- The default constructor `ArchAbstractValue()`. -/
def zeroSized : ArchAbstractValue := ⟨0, 0, 0⟩

/-- The constructor `ArchAbstractValue(size, zeroBits, oneBits)`, which truncates the
masks to the size. -/
def construct (w size zeroBits oneBits : Nat) : ArchAbstractValue :=
  ⟨size, bitTruncate w zeroBits size, bitTruncate w oneBits size⟩

/-- The constructor `ArchAbstractValue(size, zeroBits, oneBits, exact)`, which stores the
masks as they are (its assertions are `truncated`). -/
def constructExact (size zeroBits oneBits : Nat) : ArchAbstractValue :=
  ⟨size, zeroBits, oneBits⟩

/-- The constructor `ArchAbstractValue(const SizedValue &x)`. -/
def ofSizedValue (w : Nat) (x : SizedValue) : ArchAbstractValue :=
  ⟨x.size, x.value ^^^ bitMask w x.size, x.value⟩

/-- The member `resize`. -/
def resize (w : Nat) (a : ArchAbstractValue) (size : Nat) : ArchAbstractValue :=
  if size < a.size then
    ⟨size, bitTruncate w a.zeroBits size, bitTruncate w a.oneBits size⟩
  else
    ⟨size, a.zeroBits, a.oneBits⟩

/-- The member `isConcrete`. -/
def isConcrete (w : Nat) (a : ArchAbstractValue) : Bool :=
  decide (a.size > 0) && decide (a.zeroBits ^^^ a.oneBits = bitMask w a.size)

/-- The member `isNondeterministic`. -/
def isNondeterministic (a : ArchAbstractValue) : Bool :=
  decide (a.zeroBits &&& a.oneBits ≠ 0)

/-- The member `asConcrete`: `SizedValue(size_, oneBits_, SizedValue::exact)` when the
assertion `isConcrete()` holds, undefined otherwise. -/
def asConcrete (w : Nat) (a : ArchAbstractValue) : Option SizedValue :=
  if isConcrete w a = true then some ⟨a.size, a.oneBits⟩ else none

/-- The operator `a & b`. -/
def opAnd (a b : ArchAbstractValue) : ArchAbstractValue :=
  constructExact a.size (a.zeroBits ||| b.zeroBits) (a.oneBits &&& b.oneBits)

/-- The operator `a | b`. -/
def opOr (a b : ArchAbstractValue) : ArchAbstractValue :=
  constructExact a.size (a.zeroBits &&& b.zeroBits) (a.oneBits ||| b.oneBits)

/-- The operator `a ^ b`. -/
def opXor (a b : ArchAbstractValue) : ArchAbstractValue :=
  constructExact a.size
    ((a.zeroBits &&& b.zeroBits) ||| (a.oneBits &&& b.oneBits))
    ((a.oneBits &&& b.zeroBits) ||| (a.zeroBits &&& b.oneBits))

/-- The operator `a << b`; in the first branch `nbits` is `b.asConcrete().value()`, that
is `b.oneBits_`. -/
def opShl (w : Nat) (a b : ArchAbstractValue) : ArchAbstractValue :=
  if isConcrete w b = true then
    let nbits := b.oneBits
    construct w a.size (shiftLeft w a.zeroBits nbits ||| bitMask w nbits)
      (shiftLeft w a.oneBits nbits)
  else
    construct w a.size (2 ^ w - 1) (2 ^ w - 1)

/-- The operator `a >> b`; in the first branch `nbits` is `b.asConcrete().value()`, that
is `b.oneBits_`.  The difference `a.size() - nbits` is the one of the natural numbers:
it is the source's for `nbits <= a.size()`.  For larger `nbits` the source's difference
wraps in an integer type declared outside these sources, and the zero mask of the
embedding is not the source's there; what is proved of such shifts is proved for every
word in the place of `shiftLeft(bitMask(nbits), a.size() - nbits)`. -/
def opShr (w : Nat) (a b : ArchAbstractValue) : ArchAbstractValue :=
  if isConcrete w b = true then
    let nbits := b.oneBits
    construct w a.size
      (shiftRight w a.zeroBits nbits ||| shiftLeft w (bitMask w nbits) (a.size - nbits))
      (shiftRight w a.oneBits nbits)
  else
    construct w a.size (2 ^ w - 1) (2 ^ w - 1)

/-- The operator `a == b`; the two `bool` arguments of the constructor convert to the
words `1` and `0`. -/
def opEq (w : Nat) (a b : ArchAbstractValue) : ArchAbstractValue :=
  constructExact 1
    (if a.zeroBits &&& b.oneBits ≠ 0 ∨ a.oneBits &&& b.zeroBits ≠ 0 then 1 else 0)
    (if (a.zeroBits &&& b.zeroBits) ||| (a.oneBits &&& b.oneBits) = bitMask w a.size
      then 1 else 0)

/-- The consistency relation of the soundness property: the concrete value `x` has `0`
at every position where only the zero-bit of `a` is set and `1` at every position where
only the one-bit of `a` is set. -/
def consistentWith (x : Nat) (a : ArchAbstractValue) : Prop :=
  x &&& (a.zeroBits &&& (a.zeroBits ^^^ a.oneBits)) = 0 ∧
  (a.oneBits &&& (a.zeroBits ^^^ a.oneBits)) &&& x = a.oneBits &&& (a.zeroBits ^^^ a.oneBits)

instance (x : Nat) (a : ArchAbstractValue) : Decidable (consistentWith x a) := by
  unfold consistentWith; infer_instance

end ArchAbstractValue


/-- Modelled from the spec: `bitShift(value, nbits)` of `nc/common/BitTwiddling.h`, the
shift of a word "positive = left, negative = right". -/
def bitShift (w value : Nat) (nbits : Int) : Nat :=
  if 0 ≤ nbits then shiftLeft w value nbits.toNat else shiftRight w value (-nbits).toNat

namespace ArchAbstractValue

/-- The member `shift`; the `int` sum `size_ + nbits` is the one of the integers. -/
def shift (w : Nat) (a : ArchAbstractValue) (nbits : Int) : ArchAbstractValue :=
  ⟨(max ((a.size : Int) + nbits) 0).toNat, bitShift w a.zeroBits nbits,
    bitShift w a.oneBits nbits⟩

/-- The member `project`. -/
def project (a : ArchAbstractValue) (mask : Nat) : ArchAbstractValue :=
  ⟨a.size, a.zeroBits &&& mask, a.oneBits &&& mask⟩

/-- The member `zeroExtend`; its assertion is `size > size_`, under which the difference
`size - size_` is the one of the natural numbers. -/
def zeroExtend (w : Nat) (a : ArchAbstractValue) (size : Nat) : ArchAbstractValue :=
  ⟨size, a.zeroBits ||| shiftLeft w (bitMask w (size - a.size)) a.size, a.oneBits⟩

/-- The member `signExtend`; its assertion is `size > size_`.  The difference
`size_ - 1` is the one of the natural numbers, which is the source's for a positive
size. -/
def signExtend (w : Nat) (a : ArchAbstractValue) (size : Nat) : ArchAbstractValue :=
  let signBitMask := shiftLeft w 1 (a.size - 1)
  let zeroBits :=
    if a.zeroBits &&& signBitMask ≠ 0 then
      a.zeroBits ||| shiftLeft w (bitMask w (size - a.size)) a.size
    else a.zeroBits
  let oneBits :=
    if a.oneBits &&& signBitMask ≠ 0 then
      a.oneBits ||| shiftLeft w (bitMask w (size - a.size)) a.size
    else a.oneBits
  ⟨size, zeroBits, oneBits⟩

/-- The operator `~a`, built by the truncating constructor. -/
def opNot (w : Nat) (a : ArchAbstractValue) : ArchAbstractValue :=
  construct w a.size a.oneBits a.zeroBits

end ArchAbstractValue

/-!
# Dataflow information about a term

A shallow embedding of `nc/core/ir/dflow/ArchValue.h`.
-/

/-- The field `abstractValue_` of `ArchValue`. -/
structure ArchValue where
  abstractValue : ArchAbstractValue
deriving DecidableEq

namespace ArchValue

/-- The member `setAbstractValue`: `abstractValue_ = value.resize(abstractValue_.size())`. -/
def setAbstractValue (w : Nat) (self : ArchValue) (value : ArchAbstractValue) : ArchValue :=
  ⟨ArchAbstractValue.resize w value self.abstractValue.size⟩

end ArchValue

/-!
# Generic bit container

A shallow embedding of `nc/common/BitStorage.h`.  The array `data_` of `data_chunks`
words is a list of that length; the loops `for (int i = 0; i < data_chunks; ++i)` of the
compound assignments combine the two arrays word by word.  The functions `ilog2_impl`
and `ilog2` of this header are, letter for letter, those of
`nc/common/ExtendedInteger.h`, embedded above.
-/

/-- The field `data_` of `BitStorage<T, storage_size>`. -/
structure BitStorage where
  data : List Nat
deriving DecidableEq

namespace BitStorage

/-- The array has `data_chunks` words of `chunk_size` bits. -/
def wellFormed (chunk_size data_chunks : Nat) (x : BitStorage) : Prop :=
  x.data.length = data_chunks ∧ ∀ v ∈ x.data, v < 2 ^ chunk_size

/-- The default constructor `BitStorage()`, `data_{0}`. -/
def zero (data_chunks : Nat) : BitStorage := ⟨List.replicate data_chunks 0⟩

/-- The operator `==`. -/
def opEq (a rhs : BitStorage) : Bool := decide (a.data = rhs.data)

/-- The operator `~`: `BitStorage value{*this}; return value;`. -/
def opNot (a : BitStorage) : BitStorage := ⟨a.data⟩

/-- The operator `|=`. -/
def opOrAssign (a rhs : BitStorage) : BitStorage :=
  ⟨List.zipWith (fun x y => x ||| y) a.data rhs.data⟩

/-- The operator `&=`. -/
def opAndAssign (a rhs : BitStorage) : BitStorage :=
  ⟨List.zipWith (fun x y => x &&& y) a.data rhs.data⟩

/-- The operator `^=`. -/
def opXorAssign (a rhs : BitStorage) : BitStorage :=
  ⟨List.zipWith (fun x y => x ^^^ y) a.data rhs.data⟩

end BitStorage

/-!
# Local variables of the division helpers

The values that the assertions and comments of `impl_divide` speak about, as functions
of the arguments.  `impl_divide_u32` and `impl_divide` above compute the same values in
their `let` chains.
-/

namespace UnsignedDivide128Impl

/-- The local `base_quot` of `impl_divide(dividend, const uint32_t&)`, after the
`if (base_rem == divisor)`. -/
def base_quot (divisor : Nat) : Nat :=
  let base_max := W64 - 1
  let base_quot := base_max / divisor
  let base_rem := (base_max % divisor + 1) % W64
  if base_rem = divisor then (base_quot + 1) % W64 else base_quot

/-- The local `base_rem` of `impl_divide(dividend, const uint32_t&)`, after the
`if (base_rem == divisor)`. -/
def base_rem (divisor : Nat) : Nat :=
  let base_max := W64 - 1
  let base_rem := (base_max % divisor + 1) % W64
  if base_rem = divisor then 0 else base_rem

/-- The local `hi_rem` of `impl_divide(dividend, const uint32_t&)`, after the
`if (hi_rem >= divisor)`. -/
def hi_rem (dividend : IntegerBase128) (divisor : Nat) : Nat :=
  let hi_rem := dividend.hi
  if hi_rem ≥ divisor then hi_rem % divisor else hi_rem

/-- The local `M` of `impl_divide(dividend, const uint32_t&)` at its assertion, that is
after `M += dividend.lo_`; the native product wraps modulo `2^64`. -/
def M_sum (dividend : IntegerBase128) (divisor : Nat) : IntegerBase128 :=
  let M : IntegerBase128 := ⟨0, (base_rem divisor * hi_rem dividend divisor) % W64⟩
  opAddAssign M (ofUnsigned dividend.lo)

/-- The local `initial_shift` of `impl_divide(dividend, const unsigned_data_t&)`. -/
def initial_shift (divisor : Nat) : Nat := (1 + ilog2_u32 ((divisor >>> 32) % W32)) % W32

/-- The local `divisor_normalized` of `impl_divide(dividend, const unsigned_data_t&)`. -/
def divisor_normalized (divisor : Nat) : Nat :=
  (divisor <<< (32 - initial_shift divisor)) % W64

/-- The local `divisor_normalized_hi32` of
`impl_divide(dividend, const unsigned_data_t&)`. -/
def divisor_normalized_hi32 (divisor : Nat) : Nat := divisor_normalized divisor >>> 32

end UnsignedDivide128Impl


/-! ## Auxiliary lemmas -/

theorem val_lt {a : IntegerBase128} (h : WF a) : val a < W128 := by
  simp only [WF, val, W64, W128] at *; omega

theorem opAddAssign_spec {a b : IntegerBase128} (ha : WF a) (hb : WF b) :
    WF (opAddAssign a b) ∧ val (opAddAssign a b) = (val a + val b) % W128 := by
  simp only [WF, opAddAssign, val, W64, W128] at *
  split_ifs <;> simp only <;> omega

theorem opNeg_spec {a : IntegerBase128} (ha : WF a) :
    WF (opNeg a) ∧ val (opNeg a) = (W128 - val a) % W128 := by
  simp only [WF, opNeg, val, neg64, not64, W64, W128] at *
  split_ifs <;> simp only <;> omega

theorem opSubAssign_spec {a b : IntegerBase128} (ha : WF a) (hb : WF b) :
    WF (opSubAssign a b) ∧ val (opSubAssign a b) = (val a + W128 - val b) % W128 := by
  have hn := opNeg_spec hb
  have hs := opAddAssign_spec ha hn.1
  unfold opSubAssign
  refine ⟨hs.1, ?_⟩
  rw [hs.2, hn.2]
  have := val_lt ha
  have := val_lt hb
  simp only [W128] at *
  omega

theorem and_mask32 (x : Nat) : x &&& 0xFFFFFFFF = x % W32 := by
  have := Nat.and_pow_two_sub_one_eq_mod x 32
  simpa using this

theorem shr32 (x : Nat) : x >>> 32 = x / W32 := by
  rw [Nat.shiftRight_eq_div_pow]

theorem shl32 (x : Nat) : x <<< 32 = x * W32 := by
  rw [Nat.shiftLeft_eq]

theorem half_mul_le {x y : Nat} (hx : x < W32) (hy : y < W32) :
    x * y ≤ 18446744065119617025 := by
  have h1 : x ≤ 4294967295 := by simp only [W32] at hx; omega
  have h2 : y ≤ 4294967295 := by simp only [W32] at hy; omega
  calc x * y ≤ 4294967295 * 4294967295 := Nat.mul_le_mul h1 h2
    _ = 18446744065119617025 := by norm_num

theorem split_mul (x y : Nat) :
    x * y = (x / W32) * (y / W32) * W64 + ((x / W32) * (y % W32) + (x % W32) * (y / W32)) * W32
      + (x % W32) * (y % W32) := by
  have hx := Nat.div_add_mod x W32
  have hy := Nat.div_add_mod y W32
  have hW : W64 = W32 * W32 := by norm_num
  conv_lhs => rw [← hx, ← hy]
  rw [hW]
  ring

theorem word_mul_lt {x y : Nat} (hx : x < W64) (hy : y < W64) :
    x * y ≤ 340282366920938463426481119284349108225 := by
  have h1 : x ≤ 18446744073709551615 := by simp only [W64] at hx; omega
  have h2 : y ≤ 18446744073709551615 := by simp only [W64] at hy; omega
  calc x * y ≤ 18446744073709551615 * 18446744073709551615 := Nat.mul_le_mul h1 h2
    _ = 340282366920938463426481119284349108225 := by norm_num

theorem impl_multiply_spec {lhs rhs : Nat} (hl : lhs < W64) (hr : rhs < W64) :
    WF (impl_multiply lhs rhs) ∧ val (impl_multiply lhs rhs) = lhs * rhs := by
  have hP := word_mul_lt hl hr
  have hsplit := split_mul lhs rhs
  have hlh : lhs / W32 < W32 := by simp only [W32, W64] at *; omega
  have hrh : rhs / W32 < W32 := by simp only [W32, W64] at *; omega
  have hll : lhs % W32 < W32 := Nat.mod_lt _ (by norm_num)
  have hrl : rhs % W32 < W32 := Nat.mod_lt _ (by norm_num)
  have b1 := half_mul_le hlh hrh
  have b2 := half_mul_le hlh hrl
  have b3 := half_mul_le hll hrh
  have b4 := half_mul_le hll hrl
  simp only [impl_multiply, and_mask32, shr32, shl32, WF, val]
  generalize lhs * rhs = P at *
  generalize (lhs / W32) * (rhs / W32) = phh at *
  generalize (lhs / W32) * (rhs % W32) = phl at *
  generalize (lhs % W32) * (rhs / W32) = plh at *
  generalize (lhs % W32) * (rhs % W32) = pll at *
  simp only [W32, W64] at *
  split_ifs <;> omega

theorem unsigned_extendMul_spec {lhs rhs : Nat} (hl : lhs < W64) (hr : rhs < W64) :
    WF (UnsignedInteger128.extendMul lhs rhs) ∧
      val (UnsignedInteger128.extendMul lhs rhs) = lhs * rhs := by
  have hP := word_mul_lt hl hr
  have hsplit := split_mul lhs rhs
  have hlh : lhs / W32 < W32 := by simp only [W32, W64] at *; omega
  have hrh : rhs / W32 < W32 := by simp only [W32, W64] at *; omega
  have hll : lhs % W32 < W32 := Nat.mod_lt _ (by norm_num)
  have hrl : rhs % W32 < W32 := Nat.mod_lt _ (by norm_num)
  have b1 := half_mul_le hlh hrh
  have b2 := half_mul_le hlh hrl
  have b3 := half_mul_le hll hrh
  have b4 := half_mul_le hll hrl
  simp only [UnsignedInteger128.extendMul, and_mask32, shr32, shl32, WF, val]
  generalize lhs * rhs = P at *
  generalize (lhs / W32) * (rhs / W32) = phh at *
  generalize (lhs / W32) * (rhs % W32) = phl at *
  generalize (lhs % W32) * (rhs / W32) = plh at *
  generalize (lhs % W32) * (rhs % W32) = pll at *
  simp only [W32, W64] at *
  split_ifs <;> omega

theorem val_mul_val (a b : IntegerBase128) :
    val a * val b = a.hi * b.hi * (W64 * W64) + (a.lo * b.hi + a.hi * b.lo) * W64 + a.lo * b.lo := by
  unfold val; ring

theorem opMulAssign_spec {a b : IntegerBase128} (ha : WF a) (hb : WF b) :
    WF (opMulAssign a b) ∧ val (opMulAssign a b) = (val a * val b) % W128 := by
  obtain ⟨ha1, ha2⟩ := ha
  obtain ⟨hb1, hb2⟩ := hb
  have hvv := val_mul_val a b
  have hsplit := split_mul a.lo b.lo
  have hlh : a.lo / W32 < W32 := by simp only [W32, W64] at *; omega
  have hrh : b.lo / W32 < W32 := by simp only [W32, W64] at *; omega
  have hll : a.lo % W32 < W32 := Nat.mod_lt _ (by norm_num)
  have hrl : b.lo % W32 < W32 := Nat.mod_lt _ (by norm_num)
  have b1 := half_mul_le hlh hrh
  have b2 := half_mul_le hlh hrl
  have b3 := half_mul_le hll hrh
  have b4 := half_mul_le hll hrl
  simp only [opMulAssign, and_mask32, shr32, shl32, WF]
  rw [show ∀ x y : Nat, val ⟨x, y⟩ = x * W64 + y from fun _ _ => rfl, hvv]
  generalize a.hi * b.hi = Y at *
  generalize a.lo * b.hi = X1 at *
  generalize a.hi * b.lo = X2 at *
  generalize a.lo * b.lo = L at *
  generalize (a.lo / W32) * (b.lo / W32) = phh at *
  generalize (a.lo / W32) * (b.lo % W32) = phl at *
  generalize (a.lo % W32) * (b.lo / W32) = plh at *
  generalize (a.lo % W32) * (b.lo % W32) = pll at *
  simp only [W32, W64, W128] at *
  split_ifs <;> omega

theorem sval_eq (a : IntegerBase128) :
    sval a = if a.hi < 9223372036854775808 then (val a : Int)
      else (val a : Int) - 340282366920938463463374607431768211456 := by
  simp only [sval, toInt64, val, W64]
  split_ifs <;> push_cast <;> ring

/-- The magnitude that `SignedInteger128::extendMul` takes of an operand. -/
theorem magnitude_spec {x : Nat} (hx : x < W64) :
    (if hiNegative true x = true then neg64 x else x) ≤ 9223372036854775808 ∧
    toInt64 x = (if hiNegative true x = true then -1 else 1) *
      ((if hiNegative true x = true then neg64 x else x : Nat) : Int) := by
  simp only [hiNegative, neg64, toInt64, W64, Bool.true_and, decide_eq_true_eq] at *
  split_ifs <;> omega

theorem mag_mul_le {x y : Nat} (hx : x ≤ 9223372036854775808) (hy : y ≤ 9223372036854775808) :
    x * y ≤ 85070591730234615865843651857942052864 := by
  calc x * y ≤ 9223372036854775808 * 9223372036854775808 := Nat.mul_le_mul hx hy
    _ = 85070591730234615865843651857942052864 := by norm_num

theorem mag_half_mul_le {x y : Nat} (hx : x ≤ 2147483648) (hy : y < W32) :
    x * y ≤ 9223372034707292160 := by
  have h2 : y ≤ 4294967295 := by simp only [W32] at hy; omega
  calc x * y ≤ 2147483648 * 4294967295 := Nat.mul_le_mul hx h2
    _ = 9223372034707292160 := by norm_num

theorem mag_hi_mul_le {x y : Nat} (hx : x ≤ 2147483648) (hy : y ≤ 2147483648) :
    x * y ≤ 4611686018427387904 := by
  calc x * y ≤ 2147483648 * 2147483648 := Nat.mul_le_mul hx hy
    _ = 4611686018427387904 := by norm_num

theorem signed_extendMul_spec {lhs rhs : Nat} (hl : lhs < W64) (hr : rhs < W64) :
    WF (SignedInteger128.extendMul lhs rhs) ∧
      sval (SignedInteger128.extendMul lhs rhs) = toInt64 lhs * toInt64 rhs := by
  obtain ⟨hm1, hs1⟩ := magnitude_spec hl
  obtain ⟨hm2, hs2⟩ := magnitude_spec hr
  rw [hs1, hs2]
  simp only [SignedInteger128.extendMul]
  generalize (if hiNegative true lhs = true then neg64 lhs else lhs) = m1 at *
  generalize (if hiNegative true rhs = true then neg64 rhs else rhs) = m2 at *
  generalize hr0 : IntegerBase128.mk _ _ = r0
  have hcore : WF r0 ∧ val r0 = m1 * m2 ∧ r0.hi < 9223372036854775808 := by
    have hP := mag_mul_le hm1 hm2
    have hsplit := split_mul m1 m2
    have hlh : m1 / W32 ≤ 2147483648 := by simp only [W32] at *; omega
    have hrh : m2 / W32 ≤ 2147483648 := by simp only [W32] at *; omega
    have hll : m1 % W32 < W32 := Nat.mod_lt _ (by norm_num)
    have hrl : m2 % W32 < W32 := Nat.mod_lt _ (by norm_num)
    have b1 := mag_hi_mul_le hlh hrh
    have b2 := mag_half_mul_le hlh hrl
    have b3 := mag_half_mul_le hrh hll
    have b4 := half_mul_le hll hrl
    rw [← hr0]
    simp only [and_mask32, shr32, shl32, WF, val]
    rw [Nat.mul_comm (m2 / W32) (m1 % W32)] at b3
    generalize m1 * m2 = P at *
    generalize (m1 / W32) * (m2 / W32) = phh at *
    generalize (m1 / W32) * (m2 % W32) = phl at *
    generalize (m1 % W32) * (m2 / W32) = plh at *
    generalize (m1 % W32) * (m2 % W32) = pll at *
    simp only [W32, W64] at *
    split_ifs <;> omega
  obtain ⟨hwf, hval, hhi⟩ := hcore
  have hneg := opNeg_spec hwf
  have hP := mag_mul_le hm1 hm2
  have hs0 := sval_eq r0
  have hsn := sval_eq (opNeg r0)
  have hnv : val (opNeg r0) = (opNeg r0).hi * W64 + (opNeg r0).lo := rfl
  have hnwf := hneg.1
  have hn2 := hneg.2
  rw [hval] at hn2 hs0
  rw [hn2] at hsn hnv
  simp only [WF] at hnwf
  have hcast : ((m1 : Int)) * (m2 : Int) = ((m1 * m2 : Nat) : Int) := by push_cast; ring
  generalize m1 * m2 = P at *
  cases h1 : hiNegative true lhs <;> cases h2 : hiNegative true rhs <;>
    simp only [bne_self_eq_false, Bool.false_eq_true, if_false, if_true, Bool.bne_true,
      Bool.not_false, Bool.not_true, Bool.bne_false, reduceIte] <;>
    refine ⟨by assumption, ?_⟩
  · rw [hs0, if_pos hhi, ← hcast]; ring
  · rw [hsn, show (1 : Int) * (m1 : Int) * (-1 * (m2 : Int)) = -(P : Int) by rw [← hcast]; ring]
    simp only [W64, W128] at *
    split_ifs <;> omega
  · rw [hsn, show (-1 : Int) * (m1 : Int) * (1 * (m2 : Int)) = -(P : Int) by rw [← hcast]; ring]
    simp only [W64, W128] at *
    split_ifs <;> omega
  · rw [hs0, if_pos hhi, ← hcast]; ring

/-- The pair `base_quot`, `base_rem` of `impl_divide` for a 32-bit divisor is the
quotient and remainder of `2^64` by the divisor, the quotient wrapped to 64 bits. -/
theorem base_quot_spec {d : Nat} (hd1 : 1 ≤ d) (hd : d < W32) :
    let base_quot0 := (W64 - 1) / d
    let base_rem0 := ((W64 - 1) % d + 1) % W64
    let base_quot := if base_rem0 = d then (base_quot0 + 1) % W64 else base_quot0
    let base_rem := if base_rem0 = d then 0 else base_rem0
    base_rem < d ∧ base_quot < W64 ∧
      (base_quot * d + base_rem = W64 ∨ (d = 1 ∧ base_quot = 0 ∧ base_rem = 0)) := by
  intro base_quot0 base_rem0 base_quot base_rem
  have hdm : d * base_quot0 + (W64 - 1) % d = W64 - 1 := Nat.div_add_mod (W64 - 1) d
  have hml : (W64 - 1) % d < d := Nat.mod_lt _ hd1
  have hq0 : base_quot0 ≤ d * base_quot0 := Nat.le_mul_of_pos_left _ hd1
  have hr0 : base_rem0 = (W64 - 1) % d + 1 := by
    show ((W64 - 1) % d + 1) % W64 = _
    simp only [W64, W32] at *
    omega
  have hcomm : base_quot0 * d = d * base_quot0 := Nat.mul_comm _ _
  by_cases hc : base_rem0 = d
  · have e1 : base_quot = (base_quot0 + 1) % W64 := if_pos hc
    have e2 : base_rem = 0 := if_pos hc
    rw [e1, e2]
    by_cases h1 : d = 1
    · subst h1
      simp only [W64, W32] at *
      refine ⟨by omega, by omega, Or.inr ⟨trivial, by omega, trivial⟩⟩
    · have h2 : 2 * base_quot0 ≤ d * base_quot0 := Nat.mul_le_mul_right _ (by omega)
      have h3 : (base_quot0 + 1) * d = d * base_quot0 + d := by ring
      have h4 : (base_quot0 + 1) % W64 = base_quot0 + 1 := by
        apply Nat.mod_eq_of_lt
        simp only [W64, W32] at *
        omega
      rw [h4, h3]
      simp only [W64, W32] at *
      refine ⟨by omega, by omega, Or.inl (by omega)⟩
  · have e1 : base_quot = base_quot0 := if_neg hc
    have e2 : base_rem = base_rem0 := if_neg hc
    rw [e1, e2, hcomm]
    simp only [W64, W32] at *
    refine ⟨by omega, by omega, Or.inl (by omega)⟩

/-- Long division of `hr * 2^64 + lo` by `d` through the quotient and remainder of `2^64`. -/
theorem long_div_identity {hr lo d bq br Mhi Mlo : Nat} (hd : 0 < d)
    (h1 : bq * d + br = W64) (h2 : Mhi * W64 + Mlo = br * hr + lo) :
    hr * bq * d ≤ hr * W64 + lo ∧
    (hr * W64 + lo) / d = hr * bq + Mhi * bq + (Mlo + Mhi * br) / d := by
  have key : hr * W64 + lo = (Mlo + Mhi * br) + (hr * bq + Mhi * bq) * d := by
    calc hr * W64 + lo = hr * (bq * d + br) + lo := by rw [h1]
      _ = hr * bq * d + (br * hr + lo) := by ring
      _ = hr * bq * d + (Mhi * W64 + Mlo) := by rw [h2]
      _ = hr * bq * d + (Mhi * (bq * d + br) + Mlo) := by rw [h1]
      _ = (Mlo + Mhi * br) + (hr * bq + Mhi * bq) * d := by ring
  constructor
  · rw [key]
    have : hr * bq * d ≤ (hr * bq + Mhi * bq) * d := Nat.mul_le_mul_right _ (Nat.le_add_right _ _)
    omega
  · rw [key, Nat.add_mul_div_right _ _ hd]
    omega

theorem impl_divide_u32_spec {a : IntegerBase128} (ha : WF a) (hhi : a.hi ≠ 0) {d : Nat}
    (hd1 : 1 ≤ d) (hd : d < W32) :
    WF (impl_divide_u32 a d) ∧ val (impl_divide_u32 a d) = val a / d := by
  obtain ⟨hah, hal⟩ := ha
  unfold impl_divide_u32
  rw [if_neg hhi]
  lift_lets
  intro base_max base_quot0 base_rem0 base_quot base_rem hi_rem0 result_hi hi_rem M0 M1
    result0 result1 M2
  obtain ⟨hbr, hbq, hbase⟩ := base_quot_spec hd1 hd
  change base_rem < d at hbr
  change base_quot < W64 at hbq
  change (base_quot * d + base_rem = W64 ∨ (d = 1 ∧ base_quot = 0 ∧ base_rem = 0)) at hbase
  clear_value base_quot base_rem
  clear base_quot0 base_rem0 base_max
  -- the division of the high word
  have hq : a.hi = d * result_hi + hi_rem ∧ hi_rem < d ∧ result_hi < W64 := by
    by_cases hge : a.hi ≥ d
    · have e1 : result_hi = a.hi / d := if_pos hge
      have e2 : hi_rem = a.hi % d := if_pos hge
      rw [e1, e2]
      exact ⟨(Nat.div_add_mod _ _).symm, Nat.mod_lt _ hd1,
        lt_of_le_of_lt (Nat.div_le_self _ _) hah⟩
    · have e1 : result_hi = 0 := if_neg hge
      have e2 : hi_rem = a.hi := if_neg hge
      rw [e1, e2]
      simp only [W64]
      omega
  obtain ⟨hqe, hhr, hrh⟩ := hq
  clear_value result_hi hi_rem
  clear hi_rem0
  -- M
  have hbm : base_rem * hi_rem ≤ 18446744056529682436 := by
    have h1 : base_rem ≤ 4294967294 := by simp only [W32] at hd; omega
    have h2 : hi_rem ≤ 4294967294 := by simp only [W32] at hd; omega
    calc base_rem * hi_rem ≤ 4294967294 * 4294967294 := Nat.mul_le_mul h1 h2
      _ = 18446744056529682436 := by norm_num
  have hM0 : WF M0 ∧ val M0 = base_rem * hi_rem := by
    have : base_rem * hi_rem % W64 = base_rem * hi_rem :=
      Nat.mod_eq_of_lt (by simp only [W64]; omega)
    show WF ⟨0, _⟩ ∧ val ⟨0, _⟩ = _
    rw [this]
    simp only [WF, val, W64]
    omega
  have hlo : WF (ofUnsigned a.lo) ∧ val (ofUnsigned a.lo) = a.lo := by
    simp only [WF, val, ofUnsigned, W64] at *
    omega
  have hM1 := opAddAssign_spec hM0.1 hlo.1
  rw [hM0.2, hlo.2] at hM1
  change WF M1 ∧ val M1 = _ at hM1
  obtain ⟨hM1wf, hM1v⟩ := hM1
  have hM1v2 : M1.hi * W64 + M1.lo = base_rem * hi_rem + a.lo := by
    rw [← Nat.mod_eq_of_lt (show base_rem * hi_rem + a.lo < W128 by
      simp only [W64, W128] at *; omega)]
    exact hM1v
  have hM1hi : M1.hi ≤ 1 := by
    simp only [WF, W64] at *
    omega
  clear hM1v hM0
  clear_value M1
  clear M0
  -- the value of the dividend
  have hT : val a / d = result_hi * W64 + (hi_rem * W64 + a.lo) / d := by
    have : val a = (hi_rem * W64 + a.lo) + (result_hi * W64) * d := by
      unfold val; rw [hqe]; ring
    rw [this, Nat.add_mul_div_right _ _ hd1]
    omega
  have hTlt : (hi_rem * W64 + a.lo) / d < W64 := by
    apply Nat.div_lt_of_lt_mul
    have : (hi_rem + 1) * W64 ≤ d * W64 := Nat.mul_le_mul_right _ hhr
    simp only [W64] at *
    omega
  rw [hT]
  -- adding the last summand
  have hfin : ∀ r x : IntegerBase128, WF r → WF x →
      val r + val x = result_hi * W64 + (hi_rem * W64 + a.lo) / d →
      WF (opAddAssign r x) ∧
        val (opAddAssign r x) = result_hi * W64 + (hi_rem * W64 + a.lo) / d := by
    intro r x hr hx hv
    have h := opAddAssign_spec hr hx
    refine ⟨h.1, ?_⟩
    rw [h.2, hv]
    apply Nat.mod_eq_of_lt
    simp only [W64, W128] at *
    omega
  have hwfu : ∀ x, x < W64 → WF (ofUnsigned x) ∧ val (ofUnsigned x) = x := by
    intro x hx
    simp only [WF, val, ofUnsigned, W64] at *
    omega
  have hMq : M1.lo / d < W64 := lt_of_le_of_lt (Nat.div_le_self _ _) hM1wf.2
  rcases hbase with hA | ⟨hd1', hbq0, hbr0⟩
  · obtain ⟨hL1, hL2⟩ := long_div_identity hd1 hA hM1v2
    have hle1 : hi_rem * base_quot + M1.hi * base_quot ≤ (hi_rem * W64 + a.lo) / d := by
      rw [hL2]; exact Nat.le_add_right _ _
    have hlt : hi_rem * base_quot < W64 :=
      lt_of_le_of_lt (le_trans (Nat.le_add_right _ _) hle1) hTlt
    have hr0 : WF result0 ∧ val result0 = result_hi * W64 + hi_rem * base_quot := by
      show WF ⟨_, _⟩ ∧ val ⟨_, _⟩ = _
      rw [Nat.mod_eq_of_lt hlt]
      exact ⟨⟨hrh, hlt⟩, rfl⟩
    by_cases hm : M1.hi = 0
    · have e1 : result1 = result0 := if_neg (not_not.mpr hm)
      have e2 : M2 = M1 := if_neg (not_not.mpr hm)
      rw [e1, e2]
      apply hfin _ _ hr0.1 (hwfu _ hMq).1
      rw [hr0.2, (hwfu _ hMq).2, hL2, hm]
      simp only [Nat.zero_mul, Nat.add_zero]
      ring
    · have hm1 : M1.hi = 1 := by omega
      have e1 : result1 = opAddAssign result0 (ofUnsigned base_quot) := if_pos hm
      have e2 : M2 = ⟨M1.hi, (M1.lo + base_rem) % W64⟩ := if_pos hm
      rw [hm1] at hL2 hle1
      simp only [one_mul] at hL2 hle1
      have hr1 := opAddAssign_spec hr0.1 (hwfu _ hbq).1
      rw [hr0.2, (hwfu _ hbq).2, Nat.mod_eq_of_lt (by simp only [W64, W128] at *; omega)] at hr1
      have hM2 : M2.lo = M1.lo + base_rem := by
        rw [e2]
        show (M1.lo + base_rem) % W64 = _
        apply Nat.mod_eq_of_lt
        simp only [WF, W64, W32] at *
        omega
      have hM2q : M2.lo / d < W64 := by
        rw [hM2]
        have : (M1.lo + base_rem) / d ≤ M1.lo + base_rem := Nat.div_le_self _ _
        simp only [WF, W64, W32] at *
        omega
      rw [e1]
      apply hfin _ _ hr1.1 (hwfu _ hM2q).1
      rw [hr1.2, (hwfu _ hM2q).2, hL2, hM2]
      ring
  · subst hd1'
    have hh0 : hi_rem = 0 := by omega
    subst hh0
    subst hbq0
    subst hbr0
    have hm : M1.hi = 0 := by
      simp only [WF, W64] at *
      omega
    have e1 : result1 = result0 := if_neg (not_not.mpr hm)
    have e2 : M2 = M1 := if_neg (not_not.mpr hm)
    have hr0 : WF result0 ∧ val result0 = result_hi * W64 := by
      show WF ⟨_, _⟩ ∧ val ⟨_, _⟩ = _
      simp only [WF, val, W64] at *
      omega
    rw [e1, e2]
    apply hfin _ _ hr0.1 (hwfu _ hMq).1
    rw [hr0.2, (hwfu _ hMq).2]
    rw [hm] at hM1v2
    simp only [Nat.div_one, Nat.zero_mul, Nat.zero_add, Nat.mul_zero] at hM1v2 ⊢
    rw [hM1v2]

theorem impl_divide_hi_zero {a : IntegerBase128} (ha : WF a) (hhi : a.hi = 0) (d : Nat) :
    WF (impl_divide a d) ∧ val (impl_divide a d) = val a / d := by
  have hv : val a = a.lo := by simp [val, hhi]
  have hq : a.lo / d < W64 := lt_of_le_of_lt (Nat.div_le_self _ _) ha.2
  unfold impl_divide
  rw [if_pos hhi, hv]
  by_cases hlt : a.lo < d
  · rw [if_pos hlt, Nat.div_eq_of_lt hlt]
    simp [WF, val]
  · rw [if_neg hlt]
    simp only [WF, val, W64] at *
    omega

theorem words_of_val {r : IntegerBase128} (hr : WF r) {v : Nat} (hv : val r = v) :
    r = ⟨v / W64, v % W64⟩ := by
  obtain ⟨h, l⟩ := r
  simp only [WF, val, W64] at *
  subst hv
  congr 1 <;> omega

theorem or_eq_add_of_lt {y r : Nat} (x : Nat) (hy : y < 2 ^ r) : x * 2 ^ r ||| y = x * 2 ^ r + y := by
  rw [Nat.mul_comm]
  exact (Nat.mul_add_lt_is_or hy x).symm

theorem ilog2_impl_spec : ∀ (k v : Nat), 0 < v → v < 2 ^ 2 ^ (k + 1) →
    2 ^ ilog2_impl k v ≤ v ∧ v < 2 ^ (ilog2_impl k v + 1) ∧ ilog2_impl k v < 2 ^ (k + 1) := by
  intro k
  induction k with
  | zero =>
    intro v h0 h1
    simp only [ilog2_impl, Nat.shiftRight_eq_div_pow]
    norm_num at h1
    interval_cases v <;> simp
  | succ k ih =>
    intro v h0 h1
    have hpp : (2 : Nat) ^ 2 ^ (k + 1 + 1) = 2 ^ 2 ^ (k + 1) * 2 ^ 2 ^ (k + 1) := by
      rw [← pow_add]; congr 1; rw [pow_succ]; omega
    have hpos : 0 < (2 : Nat) ^ 2 ^ (k + 1) := Nat.pow_pos (by decide)
    have hsz : (2 : Nat) ^ (k + 1 + 1) = 2 ^ (k + 1) + 2 ^ (k + 1) := by rw [pow_succ]; omega
    simp only [ilog2_impl, Nat.shiftRight_eq_div_pow, decide_eq_true_eq]
    by_cases hl : v / 2 ^ 2 ^ (k + 1) ≠ 0
    · simp only [hl, if_true, ne_eq, not_false_eq_true]
      have hv0 : 0 < v / 2 ^ 2 ^ (k + 1) := Nat.pos_of_ne_zero hl
      have hv1 : v / 2 ^ 2 ^ (k + 1) < 2 ^ 2 ^ (k + 1) := by
        apply Nat.div_lt_of_lt_mul
        rw [← hpp]; exact h1
      obtain ⟨i1, i2, i3⟩ := ih _ hv0 hv1
      generalize ilog2_impl k (v / 2 ^ 2 ^ (k + 1)) = r at *
      have hor : 2 ^ (k + 1) ||| r = 2 ^ (k + 1) + r := by
        have := or_eq_add_of_lt 1 i3
        simpa using this
      rw [hor]
      have hdm := Nat.div_add_mod v (2 ^ 2 ^ (k + 1))
      have hml := Nat.mod_lt v hpos
      generalize v / 2 ^ 2 ^ (k + 1) = w at *
      generalize v % 2 ^ 2 ^ (k + 1) = u at *
      refine ⟨?_, ?_, by omega⟩
      · rw [pow_add]
        calc 2 ^ 2 ^ (k + 1) * 2 ^ r ≤ 2 ^ 2 ^ (k + 1) * w := Nat.mul_le_mul_left _ i1
          _ ≤ v := by omega
      · rw [Nat.add_assoc, pow_add]
        have : 2 ^ 2 ^ (k + 1) * (w + 1) ≤ 2 ^ 2 ^ (k + 1) * 2 ^ (r + 1) :=
          Nat.mul_le_mul_left _ i2
        have e : 2 ^ 2 ^ (k + 1) * (w + 1) = 2 ^ 2 ^ (k + 1) * w + 2 ^ 2 ^ (k + 1) := by ring
        omega
    · have hl0 : v / 2 ^ 2 ^ (k + 1) = 0 := not_not.mp hl
      simp only [hl0, ne_eq, not_true_eq_false, if_false, Nat.zero_or]
      have hv1 : v < 2 ^ 2 ^ (k + 1) := by
        exact (Nat.div_eq_zero_iff hpos).mp hl0
      obtain ⟨i1, i2, i3⟩ := ih _ h0 hv1
      exact ⟨i1, i2, by omega⟩

theorem and_127 (n : Nat) : n &&& (128 - 1) = n % 128 := by
  have := Nat.and_pow_two_sub_one_eq_mod n 7
  simpa using this

theorem pow_split {r : Nat} (hr : r ≤ 64) : (2 : Nat) ^ (64 - r) * 2 ^ r = W64 := by
  rw [← pow_add, Nat.sub_add_cancel hr]; norm_num

theorem opShlAssign_spec {a : IntegerBase128} (ha : WF a) (n : Nat) :
    WF (opShlAssign a n) ∧ val (opShlAssign a n) = (val a * 2 ^ (n % 128)) % W128 := by
  obtain ⟨hah, hal⟩ := ha
  have hn : n % 128 < 128 := Nat.mod_lt _ (by decide)
  simp only [opShlAssign, and_127, Nat.shiftLeft_eq, Nat.shiftRight_eq_div_pow]
  generalize n % 128 = r at *
  by_cases h0 : r = 0
  · subst h0
    simp only [if_true, pow_zero, Nat.mul_one]
    refine ⟨⟨hah, hal⟩, ?_⟩
    have := val_lt (a := a) ⟨hah, hal⟩
    exact (Nat.mod_eq_of_lt this).symm
  · rw [if_neg h0]
    by_cases h63 : r > 63
    · rw [if_pos h63]
      have hW : W128 = W64 * W64 := by norm_num
      have hp : (2 : Nat) ^ r = 2 ^ (r - 64) * W64 := by
        rw [show W64 = 2 ^ 64 by norm_num, ← pow_add]; congr 1; omega
      have hml : a.lo * 2 ^ (r - 64) % W64 < W64 := Nat.mod_lt _ (by norm_num)
      refine ⟨⟨hml, by norm_num⟩, ?_⟩
      have e : val a * 2 ^ r = (a.lo * 2 ^ (r - 64)) * W64 + (a.hi * 2 ^ (r - 64)) * (W64 * W64) := by
        rw [hp]; unfold val; ring
      rw [e, hW, Nat.add_mul_mod_self_right, Nat.mul_mod_mul_right]
      simp [val]
    · rw [if_neg h63]
      have hr : r ≤ 64 := by omega
      have hpq := pow_split hr
      have hq0 : 0 < (2 : Nat) ^ (64 - r) := Nat.pow_pos (by decide)
      have hp0 : 0 < (2 : Nat) ^ r := Nat.pow_pos (by decide)
      have e1 : a.hi * 2 ^ r % W64 = (a.hi % 2 ^ (64 - r)) * 2 ^ r := by
        rw [← hpq, Nat.mul_mod_mul_right]
      have e2 : a.lo * 2 ^ r % W64 = (a.lo % 2 ^ (64 - r)) * 2 ^ r := by
        rw [← hpq, Nat.mul_mod_mul_right]
      have hlq : a.lo / 2 ^ (64 - r) < 2 ^ r := by
        apply Nat.div_lt_of_lt_mul
        rw [hpq]; exact hal
      rw [e1, e2, or_eq_add_of_lt _ hlq]
      have d1 := Nat.div_add_mod a.hi (2 ^ (64 - r))
      have d2 := Nat.div_add_mod a.lo (2 ^ (64 - r))
      have m1 := Nat.mod_lt a.hi hq0
      have m2 := Nat.mod_lt a.lo hq0
      generalize a.hi / 2 ^ (64 - r) = hq at *
      generalize a.hi % 2 ^ (64 - r) = hrm at *
      generalize a.lo / 2 ^ (64 - r) = lq at *
      generalize a.lo % 2 ^ (64 - r) = lr at *
      generalize (2 : Nat) ^ (64 - r) = q at *
      generalize (2 : Nat) ^ r = p at *
      have b1 : (hrm + 1) * p ≤ q * p := Nat.mul_le_mul_right _ m1
      have b2 : (lr + 1) * p ≤ q * p := Nat.mul_le_mul_right _ m2
      have b1' : (hrm + 1) * p = hrm * p + p := by ring
      have b2' : (lr + 1) * p = lr * p + p := by ring
      have hwf1 : hrm * p + lq < W64 := by omega
      have hwf2 : lr * p < W64 := by omega
      refine ⟨⟨hwf1, hwf2⟩, ?_⟩
      have hW : W128 = W64 * W64 := by norm_num
      have e : val a * p = ((hrm * p + lq) * W64 + lr * p) + hq * (W64 * W64) := by
        unfold val
        rw [← d1, ← d2]
        clear e1 e2 hwf1 hwf2 hW hah hal
        generalize W64 = W at *
        subst hpq
        ring
      rw [e, hW, Nat.add_mul_mod_self_right]
      symm
      apply Nat.mod_eq_of_lt
      show (hrm * p + lq) * W64 + lr * p < W64 * W64
      have : (hrm * p + lq + 1) * W64 ≤ W64 * W64 := Nat.mul_le_mul_right _ hwf1
      have e3 : (hrm * p + lq + 1) * W64 = (hrm * p + lq) * W64 + W64 := by ring
      omega

theorem opShrAssign_unsigned_spec {a : IntegerBase128} (ha : WF a) (n : Nat) :
    WF (opShrAssign false a n) ∧ val (opShrAssign false a n) = val a / 2 ^ (n % 128) := by
  obtain ⟨hah, hal⟩ := ha
  have hn : n % 128 < 128 := Nat.mod_lt _ (by decide)
  simp only [opShrAssign, and_127, Nat.shiftLeft_eq, Nat.shiftRight_eq_div_pow, hiNegative,
    hiShiftRight, Bool.false_and, Bool.false_eq_true, if_false]
  generalize n % 128 = r at *
  by_cases h0 : r = 0
  · subst h0
    simp only [if_true, pow_zero, Nat.div_one]
    exact ⟨⟨hah, hal⟩, trivial⟩
  · rw [if_neg h0]
    by_cases h63 : r > 63
    · rw [if_pos h63]
      have hp : (2 : Nat) ^ r = W64 * 2 ^ (r - 64) := by
        rw [show W64 = 2 ^ 64 by norm_num, ← pow_add]; congr 1; omega
      have hlt : a.hi / 2 ^ (r - 64) < W64 := lt_of_le_of_lt (Nat.div_le_self _ _) hah
      refine ⟨⟨by norm_num, hlt⟩, ?_⟩
      rw [hp, ← Nat.div_div_eq_div_mul]
      have : val a / W64 = a.hi := by
        unfold val
        rw [Nat.add_comm, Nat.add_mul_div_right _ _ (by norm_num), Nat.div_eq_of_lt hal]
        simp
      rw [this]
      simp [val]
    · rw [if_neg h63]
      have hr : r ≤ 64 := by omega
      have hpq := pow_split hr
      have hq0 : 0 < (2 : Nat) ^ (64 - r) := Nat.pow_pos (by decide)
      have hp0 : 0 < (2 : Nat) ^ r := Nat.pow_pos (by decide)
      have e1 : a.hi * 2 ^ (64 - r) % W64 = (a.hi % 2 ^ r) * 2 ^ (64 - r) := by
        rw [← hpq, Nat.mul_comm (2 ^ (64 - r)) (2 ^ r), Nat.mul_mod_mul_right]
      have hlq : a.lo / 2 ^ r < 2 ^ (64 - r) := by
        apply Nat.div_lt_of_lt_mul
        rw [Nat.mul_comm, hpq]; exact hal
      rw [e1, Nat.lor_comm, or_eq_add_of_lt _ hlq]
      have d1 := Nat.div_add_mod a.hi (2 ^ r)
      have m1 := Nat.mod_lt a.hi hp0
      have hhq : a.hi / 2 ^ r < W64 := lt_of_le_of_lt (Nat.div_le_self _ _) hah
      have hv : val a / 2 ^ r
          = a.lo / 2 ^ r + (a.hi / 2 ^ r * W64 + a.hi % 2 ^ r * 2 ^ (64 - r)) := by
        have e : val a
            = a.lo + (a.hi / 2 ^ r * W64 + a.hi % 2 ^ r * 2 ^ (64 - r)) * 2 ^ r := by
          unfold val
          conv_lhs => rw [← d1]
          rw [← hpq]
          ring
        rw [e, Nat.add_mul_div_right _ _ hp0]
      rw [hv]
      generalize a.hi / 2 ^ r = hq at *
      generalize a.hi % 2 ^ r = hrm at *
      generalize a.lo / 2 ^ r = lq at *
      generalize (2 : Nat) ^ (64 - r) = q at *
      generalize (2 : Nat) ^ r = p at *
      have b1 : (hrm + 1) * q ≤ p * q := Nat.mul_le_mul_right _ m1
      have b1' : (hrm + 1) * q = hrm * q + q := by ring
      have hc : p * q = q * p := Nat.mul_comm _ _
      have hwf : hrm * q + lq < W64 := by omega
      refine ⟨⟨hhq, hwf⟩, ?_⟩
      unfold val
      ring

theorem opLt_unsigned_spec (a b : IntegerBase128) (ha : WF a) (hb : WF b) :
    opLt false a b = true ↔ val a < val b := by
  simp only [opLt, hiLess, WF, val, W64, Bool.false_eq_true, if_false] at *
  split_ifs <;> simp only [decide_eq_true_eq] <;> omega

theorem opEq_zero_spec (a : IntegerBase128) :
    opEq a (ofUnsigned 0) = true ↔ val a = 0 := by
  simp only [opEq, ofUnsigned, val, W64, Bool.and_eq_true, decide_eq_true_eq]
  omega

/-- One pass of the shift-subtract loop keeps `dividend = quotient * divisor + remainder`
and brings the remainder below the trial divisor. -/
theorem loop_body_spec {A D : Nat} (hD : W64 ≤ D) (hA : A < W128) (s : LoopState)
    (hdn : WF s.divisor_normalized) (hrem : WF s.remainder)
    (hcp : val s.divisor_normalized = D * s.current_power)
    (hinv : A = s.quotient * D + val s.remainder)
    (hrlt : val s.remainder < 2 * val s.divisor_normalized) :
    WF (loop_body s).divisor_normalized ∧ WF (loop_body s).remainder ∧
    val (loop_body s).divisor_normalized = val s.divisor_normalized / 2 ∧
    (loop_body s).current_power = s.current_power / 2 ∧
    A = (loop_body s).quotient * D + val (loop_body s).remainder ∧
    val (loop_body s).remainder < val s.divisor_normalized := by
  have hshr := opShrAssign_unsigned_spec hdn 1
  have hlt := opLt_unsigned_spec s.remainder s.divisor_normalized hrem hdn
  simp only [loop_body, Nat.shiftRight_eq_div_pow, pow_one]
  refine ⟨hshr.1, ?_, by simpa using hshr.2, trivial, ?_⟩
  · by_cases hf : opLt false s.remainder s.divisor_normalized = true
    · simp only [hf, Bool.not_true, Bool.false_eq_true, if_false]; exact hrem
    · simp only [hf, Bool.not_false, if_true]
      exact (opSubAssign_spec hrem hdn).1
  · by_cases hf : opLt false s.remainder s.divisor_normalized = true
    · simp only [hf, Bool.not_true, Bool.false_eq_true, if_false]
      exact ⟨hinv, hlt.mp hf⟩
    · have hge : val s.divisor_normalized ≤ val s.remainder := by
        rw [hlt] at hf; omega
      simp only [hf, Bool.not_false, if_true]
      have hsub := (opSubAssign_spec hrem hdn).2
      have h1 := val_lt hrem
      have h2 := val_lt hdn
      have hsv : val (opSubAssign s.remainder s.divisor_normalized)
          = val s.remainder - val s.divisor_normalized := by
        rw [hsub]; simp only [W128] at *; omega
      rw [hsv]
      have hmul : (s.quotient + s.current_power) * D
          = s.quotient * D + val s.divisor_normalized := by rw [hcp]; ring
      have hle : (s.quotient + s.current_power) * D ≤ A := by rw [hmul, hinv]; omega
      have hq : s.quotient + s.current_power < W64 := by
        by_contra hcon
        have h3 : W64 * W64 ≤ (s.quotient + s.current_power) * D :=
          Nat.mul_le_mul (by omega) hD
        have : W64 * W64 = W128 := by norm_num
        omega
      rw [Nat.mod_eq_of_lt hq, hmul]
      constructor
      · omega
      · simp only [W128] at *; omega



theorem do_while_spec {A D : Nat} (hD : W64 ≤ D) (hA : A < W128) :
    ∀ (k : Nat) (s : LoopState), WF s.divisor_normalized → WF s.remainder →
      val s.divisor_normalized = D * 2 ^ k → s.current_power = 2 ^ k →
      A = s.quotient * D + val s.remainder →
      val s.remainder < 2 * val s.divisor_normalized →
      (do_while s).1.quotient = A / D ∧ (do_while s).2 ≤ k + 1 := by
  have hD0 : 0 < D := lt_of_lt_of_le (by norm_num) hD
  have hquot : ∀ q r : Nat, A = q * D + r → r < D → q = A / D := by
    intro q r h1 h2
    rw [h1, Nat.add_comm, Nat.add_mul_div_right _ _ hD0, Nat.div_eq_of_lt h2]
    simp
  intro k
  induction k with
  | zero =>
    intro s hdn hrem hv hcp hinv hrlt
    have hb := loop_body_spec hD hA s hdn hrem (by rw [hv, hcp]) hinv hrlt
    obtain ⟨b1, b2, b3, b4, b5, b6⟩ := hb
    have hc : ¬ loop_cond (loop_body s) = true := by
      simp only [loop_cond, b4, hcp]
      simp
    rw [do_while, dif_neg hc]
    refine ⟨hquot _ _ b5 ?_, by simp⟩
    rw [hv] at b6
    simpa using b6
  | succ k ih =>
    intro s hdn hrem hv hcp hinv hrlt
    have hb := loop_body_spec hD hA s hdn hrem (by rw [hv, hcp]) hinv hrlt
    obtain ⟨b1, b2, b3, b4, b5, b6⟩ := hb
    have hhalf : (2 : Nat) ^ (k + 1) / 2 = 2 ^ k := by
      rw [pow_succ]; simp
    have hdn1 : val (loop_body s).divisor_normalized = D * 2 ^ k := by
      rw [b3, hv, pow_succ, ← Nat.mul_assoc]; simp
    by_cases hc : loop_cond (loop_body s) = true
    · rw [do_while, dif_pos hc]
      have := ih (loop_body s) b1 b2 hdn1 (by rw [b4, hcp, hhalf]) b5 (by
        rw [hdn1]; rw [hv, pow_succ] at b6; linarith)
      exact ⟨this.1, by simp only; omega⟩
    · rw [do_while, dif_neg hc]
      have hz : val (loop_body s).remainder = 0 := by
        simp only [loop_cond, b4, hcp, hhalf, Bool.and_eq_true, decide_eq_true_eq,
          Bool.not_eq_true', not_and, Bool.not_eq_false] at hc
        have hp : (2 : Nat) ^ k ≠ 0 := by positivity
        exact (opEq_zero_spec _).mp (hc hp)
      refine ⟨hquot _ _ b5 (by rw [hz]; exact hD0), by simp⟩

theorem ilog2_u64_spec {x : Nat} (h0 : x ≠ 0) (hx : x < W64) :
    2 ^ ilog2_u64 x ≤ x ∧ x < 2 ^ (ilog2_u64 x + 1) ∧ ilog2_u64 x < 64 := by
  unfold ilog2_u64
  rw [if_neg h0]
  exact ilog2_impl_spec 5 x (Nat.pos_of_ne_zero h0) (by simpa [W64] using hx)

theorem ilog2_u32_spec {x : Nat} (h0 : x ≠ 0) (hx : x < W32) :
    2 ^ ilog2_u32 x ≤ x ∧ x < 2 ^ (ilog2_u32 x + 1) ∧ ilog2_u32 x < 32 := by
  unfold ilog2_u32
  rw [if_neg h0]
  exact ilog2_impl_spec 4 x (Nat.pos_of_ne_zero h0) (by simpa [W32] using hx)

/-- The set-up of the shift-subtract loop of `unsigned_divide`. -/
theorem normalize_spec {a b : IntegerBase128} (ha : WF a) (hb : WF b) (hb0 : b.hi ≠ 0)
    (hge : val b ≤ val a) :
    let shift := ((1 + ilog2_u64 a.hi) % W32 + W32 - (1 + ilog2_u64 b.hi) % W32) % W32
    shift < 64 ∧ WF (opShlAssign b shift) ∧ val (opShlAssign b shift) = val b * 2 ^ shift ∧
      (1 <<< shift) % W64 = 2 ^ shift ∧ val a < 2 * (val b * 2 ^ shift) := by
  intro shift
  have hhi : b.hi ≤ a.hi := by
    simp only [WF, val, W64] at *
    omega
  have ha0 : a.hi ≠ 0 := by omega
  obtain ⟨a1, a2, a3⟩ := ilog2_u64_spec ha0 ha.1
  obtain ⟨b1, b2, b3⟩ := ilog2_u64_spec hb0 hb.1
  have hll : ilog2_u64 b.hi ≤ ilog2_u64 a.hi := by
    have : 2 ^ ilog2_u64 b.hi < 2 ^ (ilog2_u64 a.hi + 1) :=
      lt_of_le_of_lt b1 (lt_of_le_of_lt hhi a2)
    have := (Nat.pow_lt_pow_iff_right (by decide : 1 < 2)).mp this
    omega
  have hs : shift = ilog2_u64 a.hi - ilog2_u64 b.hi := by
    show ((1 + ilog2_u64 a.hi) % W32 + W32 - (1 + ilog2_u64 b.hi) % W32) % W32 = _
    simp only [W32]
    omega
  have hs64 : shift < 64 := by omega
  have hla : ilog2_u64 a.hi = ilog2_u64 b.hi + shift := by omega
  clear_value shift
  generalize ilog2_u64 a.hi = la at *
  generalize ilog2_u64 b.hi = lb at *
  subst hla
  have hpw : (2 : Nat) ^ (lb + shift + 1) ≤ W64 := by
    rw [show W64 = 2 ^ 64 by norm_num]
    exact Nat.pow_le_pow_right (by decide) (by omega)
  have hpw2 : (2 : Nat) ^ (lb + shift + 1) = 2 ^ (lb + 1) * 2 ^ shift := by
    rw [← pow_add]; congr 1; omega
  have hpw3 : (2 : Nat) ^ (lb + shift + 1) = 2 * (2 ^ lb * 2 ^ shift) := by
    rw [← pow_add, ← pow_succ']
  have hvb : val b * 2 ^ shift < W128 := by
    have h1 : val b < 2 ^ (lb + 1) * W64 := by
      have : (b.hi + 1) * W64 ≤ 2 ^ (lb + 1) * W64 := Nat.mul_le_mul_right _ b2
      simp only [WF, val, W64] at *
      omega
    have h2 : val b * 2 ^ shift < 2 ^ (lb + 1) * W64 * 2 ^ shift :=
      Nat.mul_lt_mul_of_pos_right h1 (Nat.pow_pos (by decide))
    have h3 : 2 ^ (lb + 1) * W64 * 2 ^ shift = 2 ^ (lb + shift + 1) * W64 := by
      rw [hpw2]; ring
    have h4 : 2 ^ (lb + shift + 1) * W64 ≤ W64 * W64 := Nat.mul_le_mul_right _ hpw
    have : W64 * W64 = W128 := by norm_num
    omega
  have hshl := opShlAssign_spec hb shift
  rw [Nat.mod_eq_of_lt (show shift < 128 by omega), Nat.mod_eq_of_lt hvb] at hshl
  refine ⟨hs64, hshl.1, hshl.2, ?_, ?_⟩
  · rw [Nat.shiftLeft_eq, Nat.one_mul]
    apply Nat.mod_eq_of_lt
    rw [show W64 = 2 ^ 64 by norm_num]
    exact Nat.pow_lt_pow_right (by decide) hs64
  · have h1 : val a < 2 ^ (lb + shift + 1) * W64 := by
      have : (a.hi + 1) * W64 ≤ 2 ^ (lb + shift + 1) * W64 := Nat.mul_le_mul_right _ a2
      simp only [WF, val, W64] at *
      omega
    have h2 : 2 ^ lb * W64 ≤ val b := by
      have : 2 ^ lb * W64 ≤ b.hi * W64 := Nat.mul_le_mul_right _ b1
      simp only [WF, val, W64] at *
      omega
    have h3 : 2 ^ lb * W64 * 2 ^ shift ≤ val b * 2 ^ shift := Nat.mul_le_mul_right _ h2
    have h4 : 2 ^ (lb + shift + 1) * W64 = 2 * (2 ^ lb * W64 * 2 ^ shift) := by
      rw [hpw3]; ring
    omega

theorem unsigned_divide_large_spec {a b : IntegerBase128} (ha : WF a) (hb : WF b)
    (hb0 : b.hi ≠ 0) :
    unsigned_divide a b = ⟨0, val a / val b⟩ ∧ val a / val b < W64 := by
  have hD : W64 ≤ val b := by
    simp only [WF, val, W64] at *
    omega
  have hq : val a / val b < W64 := by
    apply Nat.div_lt_of_lt_mul
    have h1 := val_lt ha
    have h2 : W64 * W64 ≤ val b * W64 := Nat.mul_le_mul_right _ hD
    have : W64 * W64 = W128 := by norm_num
    omega
  refine ⟨?_, hq⟩
  unfold unsigned_divide
  rw [if_neg hb0]
  by_cases hlt : opLt false a b = true
  · rw [if_pos hlt]
    rw [opLt_unsigned_spec a b ha hb] at hlt
    rw [Nat.div_eq_of_lt hlt]
  · rw [if_neg hlt]
    rw [opLt_unsigned_spec a b ha hb] at hlt
    obtain ⟨n1, n2, n3, n4, n5⟩ := normalize_spec ha hb hb0 (by omega)
    simp only
    have := do_while_spec hD (val_lt ha) _
      ⟨opShlAssign b _, a, 0, (1 <<< _) % W64⟩ n2 ha n3 n4 (by simp) (by rw [n3]; exact n5)
    rw [this.1]
    rfl

theorem impl_multiply_high_part_spec {a b : IntegerBase128} (ha : WF a) (hb : WF b) :
    WF (impl_multiply_high_part a b) ∧
      val (impl_multiply_high_part a b) = val a * val b / W128 := by
  obtain ⟨hah, hal⟩ := ha
  obtain ⟨hbh, hbl⟩ := hb
  obtain ⟨w1, v1⟩ := impl_multiply_spec hal hbl
  obtain ⟨w2, v2⟩ := impl_multiply_spec hah hbl
  obtain ⟨w3, v3⟩ := impl_multiply_spec hal hbh
  obtain ⟨w4, v4⟩ := impl_multiply_spec hah hbh
  have p1 := word_mul_lt hal hbl
  have p2 := word_mul_lt hah hbl
  have p3 := word_mul_lt hal hbh
  have p4 := word_mul_lt hah hbh
  unfold impl_multiply_high_part
  lift_lets
  intro r0 r1 r2 a' r3 ovf r4
  have e0 : impl_multiply a.lo b.lo = r0 := rfl
  have e3 : impl_multiply a.lo b.hi = a' := rfl
  rw [e0] at w1 v1
  rw [e3] at w3 v3
  clear_value r0 a'
  have hr1 : WF r1 ∧ val r1 = (a.lo * b.lo) / W64 := by
    show WF ⟨0, r0.hi⟩ ∧ val ⟨0, r0.hi⟩ = _
    rw [← v1]
    simp only [WF, val, W64] at *
    omega
  clear_value r1
  have hr2 := opAddAssign_spec hr1.1 w2
  rw [hr1.2, v2] at hr2
  change WF r2 ∧ val r2 = _ at hr2
  clear_value r2
  have hr3 := opAddAssign_spec hr2.1 w3
  rw [hr2.2, v3] at hr3
  change WF r3 ∧ val r3 = _ at hr3
  clear_value r3
  have hovf : ovf = true ↔ val r3 < a.lo * b.hi := by
    rw [← v3]
    exact opLt_unsigned_spec r3 a' hr3.1 w3
  have hr4 : WF r4 ∧ val r4 =
      ((a.lo * b.lo) / W64 + a.hi * b.lo + a.lo * b.hi) / W64 := by
    show WF ⟨if ovf = true then 1 else 0, r3.hi⟩ ∧ val ⟨if ovf = true then 1 else 0, r3.hi⟩ = _
    have h3 := hr3.2
    have h3w := hr3.1
    have hv3 : val r3 = r3.hi * W64 + r3.lo := rfl
    rw [hv3] at h3 hovf
    generalize a.lo * b.lo = P1 at *
    generalize a.hi * b.lo = P2 at *
    generalize a.lo * b.hi = P3 at *
    by_cases ho : ovf = true
    · rw [if_pos ho]
      have := hovf.mp ho
      simp only [WF, val, W64, W128] at *
      omega
    · rw [if_neg ho]
      have := mt hovf.mpr ho
      simp only [WF, val, W64, W128] at *
      omega
  clear_value r4 ovf
  have hr5 := opAddAssign_spec hr4.1 w4
  rw [hr4.2, v4] at hr5
  refine ⟨hr5.1, ?_⟩
  rw [hr5.2, val_mul_val]
  generalize a.lo * b.lo = P1 at *
  generalize a.hi * b.lo = P2 at *
  generalize a.lo * b.hi = P3 at *
  generalize a.hi * b.hi = P4 at *
  simp only [W64, W128] at *
  omega

/-- A Newton-Raphson correction with a negative residual keeps `dn * x` below
`2^191 + 2^64` (integer form). -/
theorem nr_neg_bound_int (dn x tmpa y z x' : ℤ) (hdn : 0 ≤ dn) (hx : 0 ≤ x)
    (h1 : dn * x < 18446744073709551616 * tmpa + 18446744073709551616)
    (h2 : 2 * tmpa + y = 340282366920938463463374607431768211456)
    (ht : 2 * tmpa < 340282366920938463463374607431768211456)
    (h3 : 340282366920938463463374607431768211456 * z ≤ x * y)
    (h4 : x' ≤ x + z) :
    dn * x' < 2 ^ 191 + 2 ^ 64 := by
  have hv0 : 0 ≤ dn * x := mul_nonneg hdn hx
  have a1 := mul_le_mul_of_nonneg_left h4 hdn
  have b1 := mul_le_mul_of_nonneg_left h3 hdn
  have c1 : 18446744073709551616 * y ≤ 2 ^ 192 - 2 * (dn * x) + 2 * 18446744073709551616 - 2 := by
    norm_num; omega
  have d1 := mul_le_mul_of_nonneg_left c1 hv0
  have e1 : dn * x ≤ 2 ^ 191 - 1 := by norm_num; omega
  nlinarith [sq_nonneg (2 ^ 191 - dn * x)]

theorem nr_neg_bound (dn x tmpa y z x' : ℕ)
    (h1 : dn * x < W64 * tmpa + W64) (h2 : 2 * tmpa + y = W128) (ht : 2 * tmpa < W128)
    (h3 : W128 * z ≤ x * y) (h4 : x' ≤ x + z) :
    dn * x' < 2 ^ 191 + 2 ^ 64 := by
  have := nr_neg_bound_int dn x tmpa y z x' (by positivity) (by positivity)
    (by exact_mod_cast h1) (by exact_mod_cast h2) (by exact_mod_cast ht)
    (by exact_mod_cast h3) (by exact_mod_cast h4)
  exact_mod_cast this

/-- The first correction with a positive residual, from the estimate `m * 2^95`
(integer form). -/
theorem nr_pos_bound_int (dn m t z x1 : ℤ) (hdn : 0 ≤ dn) (hdn2 : dn < 18446744073709551616)
    (ht : t + 2 ^ 128 = dn * m * 2 ^ 32)
    (hz : (m * 2 ^ 95) * t < 2 ^ 128 * (z + 1))
    (hx1 : x1 + z = m * 2 ^ 95) :
    dn * x1 < 2 ^ 191 + 2 ^ 64 := by
  have a1 := mul_le_mul_of_nonneg_left (le_of_lt hz) hdn
  have ht' : t = dn * m * 2 ^ 32 - 2 ^ 128 := by linarith
  have hx' : x1 = m * 2 ^ 95 - z := by linarith
  subst ht' hx'
  nlinarith [sq_nonneg (dn * m - 2 ^ 96)]

theorem nr_pos_bound (dn m t z x1 : ℕ) (hdn2 : dn < W64)
    (ht : t + W128 = dn * m * 2 ^ 32)
    (hz : (m * 2 ^ 95) * t < W128 * (z + 1))
    (hx1 : x1 + z = m * 2 ^ 95) :
    dn * x1 < 2 ^ 191 + 2 ^ 64 := by
  have := nr_pos_bound_int dn m t z x1 (by positivity) (by exact_mod_cast hdn2)
    (by exact_mod_cast ht) (by exact_mod_cast hz) (by exact_mod_cast hx1)
  exact_mod_cast this

theorem hiNegative_iff {t : IntegerBase128} (ht : WF t) :
    hiNegative true t.hi = true ↔ 170141183460469231731687303715884105728 ≤ val t := by
  simp only [hiNegative, WF, val, W64, Bool.true_and, decide_eq_true_eq] at *
  omega

theorem refine_neg {x t : IntegerBase128} (hx : WF x) (ht : WF t)
    (hn : 170141183460469231731687303715884105728 ≤ val t) :
    WF (refine x t) ∧ val (refine x t) ≤ val x + val x * (W128 - val t) / W128 := by
  unfold refine
  rw [if_pos ((hiNegative_iff ht).mpr hn)]
  have hneg := opNeg_spec ht
  have hm := impl_multiply_high_part_spec hx hneg.1
  have ha := opAddAssign_spec hx hm.1
  refine ⟨ha.1, ?_⟩
  have htl := val_lt ht
  have : (W128 - val t) % W128 = W128 - val t := Nat.mod_eq_of_lt (by omega)
  rw [ha.2, hm.2, hneg.2, this]
  exact Nat.mod_le _ _

theorem refine_pos {x t : IntegerBase128} (hx : WF x) (ht : WF t)
    (hn : val t < 170141183460469231731687303715884105728) :
    WF (refine x t) ∧ val (refine x t) + val x * val t / W128 = val x := by
  unfold refine
  have hnn : ¬ hiNegative true t.hi = true := by
    rw [hiNegative_iff ht]; omega
  rw [if_neg hnn]
  have hm := impl_multiply_high_part_spec hx ht
  have hs := opSubAssign_spec hx hm.1
  refine ⟨hs.1, ?_⟩
  have hxl := val_lt hx
  have hz : val x * val t / W128 ≤ val x := by
    apply Nat.div_le_of_le_mul
    rw [Nat.mul_comm W128]
    exact Nat.mul_le_mul_left _ (le_of_lt (val_lt ht))
  rw [hs.2, hm.2]
  simp only [W128] at *
  omega

/-- The initial estimate `(2^64 - 1) / divisor_normalized_hi32`. -/
theorem estimate_spec {dn : Nat} (h63 : 9223372036854775808 ≤ dn) (hdn : dn < W64) :
    let m := (W64 - 1) / (dn >>> 32)
    ((m <<< 31) % W64 = m * 2147483648) ∧ m * 2147483648 < W64 ∧
      39614081257132168796771975168 ≤ dn * m ∧
      dn * m < 118842243771396506390315925504 := by
  intro m
  rw [Nat.shiftLeft_eq]
  have hh : dn >>> 32 = dn / W32 := shr32 dn
  have hm : m = (W64 - 1) / (dn / W32) := by rw [← hh]
  have h1 : 2147483648 ≤ dn / W32 := by simp only [W32, W64] at *; omega
  have h2 : dn / W32 < W32 := by simp only [W32, W64] at *; omega
  have hd := Nat.div_add_mod dn W32
  have hml := Nat.mod_lt dn (show 0 < W32 by norm_num)
  have hpos : 0 < dn / W32 := by omega
  have hdm := Nat.div_add_mod (W64 - 1) (dn / W32)
  have hmm := Nat.mod_lt (W64 - 1) hpos
  rw [← hm] at hdm
  clear_value m
  generalize dn / W32 = h at *
  generalize (W64 - 1) % h = r at *
  have hmu : m ≤ 8589934591 := by
    by_contra hc
    have : h * 8589934592 ≤ h * m := Nat.mul_le_mul_left _ (by omega)
    simp only [W32, W64] at *
    omega
  have hml2 : 4294967296 ≤ m := by
    by_contra hc
    have : h * (m + 1) ≤ h * 4294967296 := Nat.mul_le_mul_left _ (by omega)
    have e : h * (m + 1) = h * m + h := by ring
    simp only [W32, W64] at *
    omega
  have hlow : 9223372036854775808 * 4294967296 ≤ dn * m := Nat.mul_le_mul h63 hml2
  have hup : dn * m < (h + 1) * W32 * m := by
    apply Nat.mul_lt_mul_of_pos_right _ (by omega)
    simp only [W32, W64] at *
    omega
  have e2 : (h + 1) * W32 * m = (h * m + m) * W32 := by ring
  have hmod : m * 2 ^ 31 % W64 = m * 2147483648 := by
    rw [show (2 : Nat) ^ 31 = 2147483648 by norm_num]
    exact Nat.mod_eq_of_lt (by simp only [W64]; omega)
  refine ⟨hmod, by simp only [W64]; omega, by omega, ?_⟩
  rw [e2] at hup
  simp only [W32, W64] at *
  omega

theorem reciprocal_spec {dn : Nat} (h63 : 9223372036854775808 ≤ dn) (hdn : dn < W64) :
    WF (reciprocal dn) ∧ dn * val (reciprocal dn) < 2 ^ 191 + 2 ^ 64 := by
  obtain ⟨hm1, hm2, hu1, hu2⟩ := estimate_spec h63 hdn
  unfold reciprocal
  lift_lets
  intro h base_max rec0 tmpa0 tmpa1 rec1 tmpa2 tmpa3 tmpa4
  have e0 : rec0 = ⟨(W64 - 1) / (dn >>> 32) * 2147483648, 0⟩ :=
    congrArg (fun x => IntegerBase128.mk x 0) hm1
  clear_value rec0
  clear hm1 h base_max
  generalize (W64 - 1) / (dn >>> 32) = m at *
  -- the first correction
  have hrec0 : WF rec0 ∧ val rec0 = m * 2 ^ 95 := by
    rw [e0]
    refine ⟨⟨hm2, by norm_num⟩, ?_⟩
    simp only [val, W64]
    norm_num
    ring
  have ht0 : WF tmpa0 ∧ val tmpa0 = dn * (m * 2147483648) := by
    have := impl_multiply_spec hdn hm2
    have e : rec0.hi = m * 2147483648 := by rw [e0]
    show WF (impl_multiply dn rec0.hi) ∧ val (impl_multiply dn rec0.hi) = _
    rw [e]; exact this
  clear_value tmpa0
  have ht1 := opShlAssign_spec ht0.1 1
  rw [ht0.2] at ht1
  change WF tmpa1 ∧ val tmpa1 = _ at ht1
  clear_value tmpa1
  have ht1v : val tmpa1 = (dn * m * 4294967296) % W128 := by
    rw [ht1.2]; congr 1; norm_num; ring
  have hS1 : WF rec1 ∧ dn * val rec1 < 2 ^ 191 + 2 ^ 64 := by
    clear tmpa2 tmpa3 tmpa4
    by_cases hcase : dn * m < 79228162514264337593543950336
    · have hv : val tmpa1 = dn * m * 4294967296 := by
        rw [ht1v]; apply Nat.mod_eq_of_lt; simp only [W128]; omega
      have hr := refine_neg hrec0.1 ht1.1 (by rw [hv]; omega)
      refine ⟨hr.1, ?_⟩
      apply nr_neg_bound dn (val rec0) (dn * m * 2147483648) (W128 - val tmpa1)
        (val rec0 * (W128 - val tmpa1) / W128) _ _ _ _ _ hr.2
      · rw [hrec0.2]
        have : dn * (m * 2 ^ 95) = W64 * (dn * m * 2147483648) := by norm_num; ring
        omega
      · rw [hv]; simp only [W128]; omega
      · simp only [W128]; omega
      · exact Nat.mul_div_le _ _
    · have hv : val tmpa1 + W128 = dn * m * 2 ^ 32 := by
        rw [ht1v]; simp only [W128]; norm_num; omega
      have hr := refine_pos hrec0.1 ht1.1 (by simp only [W128] at hv; norm_num at hv; omega)
      refine ⟨hr.1, ?_⟩
      apply nr_pos_bound dn m (val tmpa1) (val rec0 * val tmpa1 / W128) _ hdn hv
      · rw [← hrec0.2]
        exact Nat.lt_mul_div_succ _ (by norm_num)
      · rw [← hrec0.2]; exact hr.2
  clear_value rec1
  clear ht1v ht1 ht0 hrec0 tmpa1 tmpa0 e0 rec0 hu1 hu2 hm2
  obtain ⟨hw1, hS1⟩ := hS1
  -- the second correction
  have ht2 := impl_multiply_spec hdn hw1.1
  change WF tmpa2 ∧ val tmpa2 = _ at ht2
  clear_value tmpa2
  have hlo := impl_multiply_spec hdn hw1.2
  have hlohi : (impl_multiply dn rec1.lo).hi = dn * rec1.lo / W64 := by
    rw [← hlo.2]
    have := hlo.1
    simp only [WF, val, W64] at *
    omega
  have hu : WF (ofUnsigned (impl_multiply dn rec1.lo).hi)
      ∧ val (ofUnsigned (impl_multiply dn rec1.lo).hi) = dn * rec1.lo / W64 := by
    rw [← hlohi]
    have := hlo.1
    simp only [WF, val, ofUnsigned, W64] at *
    omega
  have hquot : dn * val rec1 / W64 = dn * rec1.hi + dn * rec1.lo / W64 := by
    have : dn * val rec1 = dn * rec1.lo + dn * rec1.hi * W64 := by unfold val; ring
    rw [this, Nat.add_mul_div_right _ _ (by norm_num)]
    omega
  have ht3 := opAddAssign_spec ht2.1 hu.1
  rw [ht2.2, hu.2, ← hquot] at ht3
  change WF tmpa3 ∧ val tmpa3 = _ at ht3
  clear_value tmpa3
  clear hu hlohi hlo ht2 hquot tmpa2
  have hdm := Nat.div_add_mod (dn * val rec1) W64
  have hml := Nat.mod_lt (dn * val rec1) (show 0 < W64 by norm_num)
  have hT3 : val tmpa3 = dn * val rec1 / W64 := by
    rw [ht3.2]
    apply Nat.mod_eq_of_lt
    norm_num at hS1
    simp only [W64, W128] at *
    omega
  have ht4 := opShlAssign_spec ht3.1 1
  change WF tmpa4 ∧ val tmpa4 = _ at ht4
  clear_value tmpa4
  rw [hT3] at ht4
  have ht4v : val tmpa4 = (2 * (dn * val rec1 / W64)) % W128 := by
    rw [ht4.2]; congr 1; norm_num; ring
  generalize dn * val rec1 / W64 = T3 at *
  by_cases hcase : 170141183460469231731687303715884105728 ≤ val tmpa4
  · have hr := refine_neg hw1 ht4.1 hcase
    refine ⟨hr.1, ?_⟩
    have hT : 2 * T3 < W128 := by
      norm_num at hS1
      simp only [W64, W128] at *
      omega
    have hv : val tmpa4 = 2 * T3 := by
      rw [ht4v]; exact Nat.mod_eq_of_lt hT
    apply nr_neg_bound dn (val rec1) T3 (W128 - val tmpa4)
      (val rec1 * (W128 - val tmpa4) / W128) _ _ _ hT _ hr.2
    · omega
    · rw [hv]; omega
    · exact Nat.mul_div_le _ _
  · have hr := refine_pos hw1 ht4.1 (by omega)
    exact ⟨hr.1, lt_of_le_of_lt (Nat.mul_le_mul_left _ (Nat.le.intro hr.2)) hS1⟩

/-- The normalisation of a divisor that needs more than 32 bits. -/
theorem divisor_normalized_spec {d : Nat} (h32 : W32 ≤ d) (hd : d < W64) :
    let initial_shift := (1 + ilog2_u32 ((d >>> 32) % W32)) % W32
    let divisor_normalized := (d <<< (32 - initial_shift)) % W64
    1 ≤ initial_shift ∧ initial_shift ≤ 32 ∧
      divisor_normalized = d * 2 ^ (32 - initial_shift) ∧
      9223372036854775808 ≤ divisor_normalized ∧ divisor_normalized < W64 := by
  intro initial_shift divisor_normalized
  have hh : (d >>> 32) % W32 = d / W32 := by
    rw [shr32]; apply Nat.mod_eq_of_lt; simp only [W32, W64] at *; omega
  have h0 : d / W32 ≠ 0 := by simp only [W32] at *; omega
  have h1 : d / W32 < W32 := by simp only [W32, W64] at *; omega
  obtain ⟨l1, l2, l3⟩ := ilog2_u32_spec h0 h1
  have hs : initial_shift = ilog2_u32 (d / W32) + 1 := by
    show (1 + ilog2_u32 ((d >>> 32) % W32)) % W32 = _
    rw [hh]
    generalize ilog2_u32 (d / W32) = l at l3 ⊢
    simp only [W32]; omega
  have hdn : divisor_normalized = (d * 2 ^ (32 - initial_shift)) % W64 := by
    show (d <<< (32 - initial_shift)) % W64 = _
    rw [Nat.shiftLeft_eq]
  clear_value initial_shift divisor_normalized
  generalize ilog2_u32 (d / W32) = l at *
  subst hs
  have e1 : 32 - (l + 1) = 31 - l := by omega
  rw [e1] at hdn ⊢
  have hdm := Nat.div_add_mod d W32
  have hml := Nat.mod_lt d (show 0 < W32 by norm_num)
  have hp1 : (2 : Nat) ^ (l + 1) * W32 * 2 ^ (31 - l) = W64 := by
    rw [show W32 = 2 ^ 32 by norm_num, show W64 = 2 ^ 64 by norm_num, ← pow_add, ← pow_add]
    congr 1; omega
  have hp2 : (2 : Nat) ^ l * W32 * 2 ^ (31 - l) = 9223372036854775808 := by
    rw [show W32 = 2 ^ 32 by norm_num, show (9223372036854775808 : Nat) = 2 ^ 63 by norm_num,
      ← pow_add, ← pow_add]
    congr 1; omega
  have hpos : 0 < (2 : Nat) ^ (31 - l) := Nat.pow_pos (by decide)
  have hlt : d * 2 ^ (31 - l) < W64 := by
    have h2 : d < 2 ^ (l + 1) * W32 := by
      have : (d / W32 + 1) * W32 ≤ 2 ^ (l + 1) * W32 := Nat.mul_le_mul_right _ l2
      have e : (d / W32 + 1) * W32 = W32 * (d / W32) + W32 := by ring
      omega
    have := Nat.mul_lt_mul_of_pos_right h2 hpos
    rw [hp1] at this
    exact this
  have hge : 9223372036854775808 ≤ d * 2 ^ (31 - l) := by
    have h2 : 2 ^ l * W32 ≤ d := by
      have : 2 ^ l * W32 ≤ d / W32 * W32 := Nat.mul_le_mul_right _ l1
      have e : d / W32 * W32 = W32 * (d / W32) := Nat.mul_comm _ _
      omega
    have := Nat.mul_le_mul_right (2 ^ (31 - l)) h2
    rw [hp2] at this
    exact this
  rw [Nat.mod_eq_of_lt hlt] at hdn
  subst hdn
  exact ⟨by omega, by omega, rfl, hge, hlt⟩

/-- On the reciprocal path the computed quotient never exceeds the true one when the
dividend is at most `2^127`. -/
theorem impl_divide_reciprocal_le {a : IntegerBase128} (ha : WF a) (hhi : a.hi ≠ 0)
    {d : Nat} (h32 : W32 ≤ d) (hd : d < W64) :
    WF (impl_divide a d) ∧
      (val a ≤ 170141183460469231731687303715884105728 → val (impl_divide a d) * d ≤ val a) := by
  obtain ⟨s1, s2, s3, s4, s5⟩ := divisor_normalized_spec h32 hd
  have hne : ¬ d >>> 32 = 0 := by
    rw [shr32]; simp only [W32] at *; omega
  unfold impl_divide
  rw [if_neg hhi, if_neg hne]
  simp only
  generalize (1 + ilog2_u32 ((d >>> 32) % W32)) % W32 = ish at *
  generalize hdn : (d <<< (32 - ish)) % W64 = dn at *
  obtain ⟨r1, r2⟩ := reciprocal_spec s4 s5
  have hm := impl_multiply_high_part_spec ha r1
  have hs := opShrAssign_unsigned_spec hm.1 (31 + ish)
  rw [Nat.mod_eq_of_lt (show 31 + ish < 128 by omega), hm.2] at hs
  refine ⟨hs.1, ?_⟩
  intro hA
  rw [hs.2]
  generalize val (reciprocal dn) = X at *
  generalize val a = A at *
  have hpc : 2 ^ (32 - ish) * 2 ^ (31 + ish) = (2 : Nat) ^ 63 := by
    rw [← pow_add]; congr 1; omega
  have q1 : A * X / W128 / 2 ^ (31 + ish) * 2 ^ (31 + ish) ≤ A * X / W128 :=
    Nat.div_mul_le_self _ _
  have q2 : A * X / W128 * W128 ≤ A * X := Nat.div_mul_le_self _ _
  generalize A * X / W128 / 2 ^ (31 + ish) = Q at *
  generalize A * X / W128 = Y at *
  have q3 : Q * 2 ^ (31 + ish) * W128 ≤ A * X := le_trans (Nat.mul_le_mul_right _ q1) q2
  have q4 : Q * d * 2 ^ 191 ≤ A * (dn * X) := by
    have := Nat.mul_le_mul_right (d * 2 ^ (32 - ish)) q3
    have e1 : Q * 2 ^ (31 + ish) * W128 * (d * 2 ^ (32 - ish))
        = Q * d * (2 ^ (32 - ish) * 2 ^ (31 + ish)) * W128 := by ring
    have e2 : A * X * (d * 2 ^ (32 - ish)) = A * (dn * X) := by rw [s3]; ring
    rw [e1, e2, hpc] at this
    have e3 : Q * d * 2 ^ 63 * W128 = Q * d * 2 ^ 191 := by norm_num; ring
    rw [e3] at this
    exact this
  have q5 : A * (dn * X) ≤ A * (2 ^ 191 + 2 ^ 64 - 1) := Nat.mul_le_mul_left _ (by omega)
  have q6 : Q * d * 2 ^ 191 < (A + 1) * 2 ^ 191 := by
    have e : A * (2 ^ 191 + 2 ^ 64 - 1) = A * 2 ^ 191 + A * 18446744073709551615 := by
      norm_num; ring
    have e' : (A + 1) * 2 ^ 191 = A * 2 ^ 191 + 2 ^ 191 := by ring
    have hA2 : A * 18446744073709551615 < 2 ^ 191 := by norm_num; omega
    omega
  have := Nat.lt_of_mul_lt_mul_right q6
  omega

theorem val_inj {a b : IntegerBase128} (ha : WF a) (hb : WF b) (h : val a = val b) : a = b := by
  obtain ⟨ah, al⟩ := a
  obtain ⟨bh, bl⟩ := b
  simp only [WF, val, W64] at *
  congr 1 <;> omega

/-- The quotient of `unsigned_divide` never exceeds the true quotient when the dividend
is at most `2^127`. -/
theorem unsigned_divide_le {a b : IntegerBase128} (ha : WF a) (hb : WF b) (hb0 : val b ≠ 0) :
    WF (unsigned_divide a b) ∧
      (val a ≤ 170141183460469231731687303715884105728 →
        val (unsigned_divide a b) * val b ≤ val a) := by
  by_cases hbh : b.hi = 0
  · have hvb : val b = b.lo := by simp [val, hbh]
    have hun : unsigned_divide a b = impl_divide a b.lo := by
      unfold unsigned_divide; rw [if_pos hbh]
    rw [hun, hvb]
    by_cases hah : a.hi = 0
    · have h := impl_divide_hi_zero ha hah b.lo
      exact ⟨h.1, fun _ => by rw [h.2]; exact Nat.div_mul_le_self _ _⟩
    · by_cases h32 : b.lo < W32
      · have hsh : b.lo >>> 32 = 0 := by
          rw [shr32]; exact Nat.div_eq_of_lt h32
        have hi : impl_divide a b.lo = impl_divide_u32 a b.lo := by
          unfold impl_divide
          rw [if_neg hah, if_pos hsh, Nat.mod_eq_of_lt h32]
        have h := impl_divide_u32_spec ha hah (by omega : 1 ≤ b.lo) h32
        rw [hi]
        exact ⟨h.1, fun _ => by rw [h.2]; exact Nat.div_mul_le_self _ _⟩
      · exact impl_divide_reciprocal_le ha hah (by omega) hb.2
  · have h := unsigned_divide_large_spec ha hb hbh
    rw [h.1]
    refine ⟨⟨by norm_num, h.2⟩, fun _ => ?_⟩
    show (0 * W64 + val a / val b) * val b ≤ val a
    rw [Nat.zero_mul, Nat.zero_add]
    exact Nat.div_mul_le_self _ _

/-- The operand that `operator /=` hands to `unsigned_divide`: its magnitude. -/
theorem magnitude128_spec {a : IntegerBase128} (ha : WF a) (signed : Bool) :
    WF (if hiNegative signed a.hi = true then opNeg a else a) ∧
    (val (if hiNegative signed a.hi = true then opNeg a else a) = 0 ↔ val a = 0) ∧
    (signed = true →
      val (if hiNegative signed a.hi = true then opNeg a else a)
        ≤ 170141183460469231731687303715884105728 ∧
      sval a = (if hiNegative signed a.hi = true then -1 else 1) *
        (val (if hiNegative signed a.hi = true then opNeg a else a) : Int) ∧
      (hiNegative signed a.hi = false →
        val (if hiNegative signed a.hi = true then opNeg a else a)
          < 170141183460469231731687303715884105728) ∧
      (hiNegative signed a.hi = true →
        0 < val (if hiNegative signed a.hi = true then opNeg a else a))) := by
  have hn := opNeg_spec ha
  have hs := sval_eq a
  have hv : val a = a.hi * W64 + a.lo := rfl
  by_cases h : hiNegative signed a.hi = true
  · simp only [h, if_true]
    have h' : signed = true ∧ 9223372036854775808 ≤ a.hi := by
      simpa [hiNegative] using h
    refine ⟨hn.1, ?_, fun _ => ?_⟩
    · rw [hn.2]; simp only [WF, W64, W128] at *; omega
    · rw [hn.2, hs]
      simp only [WF, W64, W128] at *
      refine ⟨by omega, ?_, fun hc => absurd hc (by decide), fun _ => by omega⟩
      rw [if_neg (by omega)]
      omega
  · have hf : hiNegative signed a.hi = false := by simpa using h
    simp only [hf, Bool.false_eq_true, if_false]
    refine ⟨ha, trivial, fun hsg => ?_⟩
    have h' : a.hi < 9223372036854775808 := by
      subst hsg
      simpa [hiNegative] using h
    rw [hs, if_pos h']
    simp only [WF, W64, W128] at *
    refine ⟨by omega, by omega, fun _ => by omega, fun hc => absurd hc (by decide)⟩

theorem opDivAssign_wf {a b : IntegerBase128} (ha : WF a) (hb : WF b) (hb0 : val b ≠ 0)
    (signed : Bool) : WF (opDivAssign signed a b) := by
  obtain ⟨wa, _, _⟩ := magnitude128_spec ha signed
  obtain ⟨wb, zb, _⟩ := magnitude128_spec hb signed
  have hq := (unsigned_divide_le wa wb (fun h0 => hb0 (zb.mp h0))).1
  unfold opDivAssign
  simp only
  generalize unsigned_divide (if hiNegative signed a.hi = true then opNeg a else a)
    (if hiNegative signed b.hi = true then opNeg b else b) = uq at hq ⊢
  split_ifs
  · exact (opNeg_spec hq).1
  · exact hq

/-- The identity `(a / b) * b + a % b == a`, for both instances. -/
theorem div_mul_add_mod {a b : IntegerBase128} (ha : WF a) (hb : WF b) (hb0 : val b ≠ 0)
    (signed : Bool) :
    opAddAssign (opMulAssign (opDivAssign signed a b) b) (opModAssign signed a b) = a := by
  have hq := opDivAssign_wf ha hb hb0 signed
  have hp := opMulAssign_spec hq hb
  have hr := opSubAssign_spec ha hp.1
  have hs := opAddAssign_spec hp.1 hr.1
  apply val_inj hs.1 ha
  rw [hs.2, hr.2]
  have h1 := val_lt ha
  have h2 := val_lt hp.1
  simp only [W128] at *
  omega

theorem val_modEq_sval (x : IntegerBase128) :
    (val x : Int) ≡ sval x [ZMOD 340282366920938463463374607431768211456] := by
  rw [sval_eq]
  split_ifs
  · exact Int.ModEq.refl _
  · apply Int.ModEq.symm
    rw [Int.modEq_iff_dvd]
    exact ⟨1, by ring⟩

theorem cast_mod_modEq (x : Nat) :
    ((x % W128 : Nat) : Int) ≡ (x : Int) [ZMOD 340282366920938463463374607431768211456] := by
  rw [Int.natCast_mod]
  exact Int.mod_modEq _ _

theorem sval_range {x : IntegerBase128} (hx : WF x) :
    -170141183460469231731687303715884105728 ≤ sval x ∧
      sval x < 170141183460469231731687303715884105728 := by
  rw [sval_eq]
  have hv : val x = x.hi * W64 + x.lo := rfl
  simp only [WF, W64] at *
  split_ifs <;> omega

/-- The signed remainder is the remainder of the magnitudes carrying the sign of the
dividend. -/
theorem opModAssign_signed_sval {a b : IntegerBase128} (ha : WF a) (hb : WF b)
    (hb0 : val b ≠ 0) :
    ∃ R : Nat, (R : Int) ≤ |sval a| ∧
      sval (opModAssign true a b) = (if hiNegative true a.hi = true then -1 else 1) * (R : Int) := by
  obtain ⟨wa, _, ma⟩ := magnitude128_spec ha true
  obtain ⟨wb, zb, mb⟩ := magnitude128_spec hb true
  obtain ⟨a1, a2, a3, a4⟩ := ma rfl
  obtain ⟨b1, b2, b3, b4⟩ := mb rfl
  obtain ⟨wq, hq⟩ := unsigned_divide_le wa wb (fun h0 => hb0 (zb.mp h0))
  have hq := hq a1
  have hdiv : opDivAssign true a b =
      if (hiNegative true a.hi != hiNegative true b.hi) = true then
        opNeg (unsigned_divide (if hiNegative true a.hi = true then opNeg a else a)
          (if hiNegative true b.hi = true then opNeg b else b))
      else unsigned_divide (if hiNegative true a.hi = true then opNeg a else a)
          (if hiNegative true b.hi = true then opNeg b else b) := rfl
  have hwq := opDivAssign_wf ha hb hb0 true
  have hp := opMulAssign_spec hwq hb
  have hr := opSubAssign_spec ha hp.1
  have hmod : opModAssign true a b
      = opSubAssign a (opMulAssign (opDivAssign true a b) b) := rfl
  rw [← hmod] at hr
  generalize opModAssign true a b = r at *
  generalize opMulAssign (opDivAssign true a b) b = p at *
  generalize hA : val (if hiNegative true a.hi = true then opNeg a else a) = A at *
  generalize hB : val (if hiNegative true b.hi = true then opNeg b else b) = B at *
  generalize huq : unsigned_divide (if hiNegative true a.hi = true then opNeg a else a)
          (if hiNegative true b.hi = true then opNeg b else b) = uq at *
  -- congruences modulo 2^128
  have ca := val_modEq_sval a
  have cb := val_modEq_sval b
  rw [a2] at ca
  rw [b2] at cb
  have cq : (val (opDivAssign true a b) : Int) ≡
      (if hiNegative true a.hi = true then -1 else 1) *
        (if hiNegative true b.hi = true then -1 else 1) * (val uq : Int)
      [ZMOD 340282366920938463463374607431768211456] := by
    rw [hdiv]
    have hn := (opNeg_spec wq).2
    have hnc := cast_mod_modEq (W128 - val uq)
    rw [← hn] at hnc
    have hlt := val_lt wq
    have hsub : ((W128 - val uq : Nat) : Int) = 340282366920938463463374607431768211456 - (val uq : Int) := by
      rw [Nat.cast_sub (le_of_lt hlt)]; rfl
    rw [hsub] at hnc
    have hneg : (val (opNeg uq) : Int) ≡ -(val uq : Int) [ZMOD 340282366920938463463374607431768211456] := by
      apply hnc.trans
      rw [Int.modEq_iff_dvd]
      exact ⟨-1, by ring⟩
    cases h1 : hiNegative true a.hi <;> cases h2 : hiNegative true b.hi <;>
      simp only [bne_self_eq_false, Bool.false_eq_true, if_false, if_true, Bool.bne_true,
        Bool.not_false, Bool.not_true, Bool.bne_false, reduceIte]
    · simp
    · simpa using hneg
    · simpa using hneg
    · simp
  have cp : (val p : Int) ≡
      (if hiNegative true a.hi = true then -1 else 1) * ((val uq : Int) * (B : Int))
      [ZMOD 340282366920938463463374607431768211456] := by
    rw [hp.2]
    apply (cast_mod_modEq _).trans
    rw [Nat.cast_mul]
    apply (Int.ModEq.mul cq cb).trans
    have : ∀ s t : Int, (s = 1 ∨ s = -1) → (t = 1 ∨ t = -1) →
        s * t * (val uq : Int) * (t * (B : Int)) = s * ((val uq : Int) * (B : Int)) := by
      intro s t hs ht
      have : t * t = 1 := by rcases ht with h | h <;> rw [h] <;> norm_num
      calc s * t * (val uq : Int) * (t * (B : Int))
          = s * (t * t) * ((val uq : Int) * (B : Int)) := by ring
        _ = s * ((val uq : Int) * (B : Int)) := by rw [this]; ring
    rw [this _ _ (by split_ifs <;> simp) (by split_ifs <;> simp)]
  have cr : (val r : Int) ≡
      (if hiNegative true a.hi = true then -1 else 1) * ((A : Int) - (val uq : Int) * (B : Int))
      [ZMOD 340282366920938463463374607431768211456] := by
    rw [hr.2]
    apply (cast_mod_modEq _).trans
    have hpl := val_lt hp.1
    have hsub : ((val a + W128 - val p : Nat) : Int)
        = (val a : Int) + 340282366920938463463374607431768211456 - (val p : Int) := by
      rw [Nat.cast_sub (by omega)]; push_cast; rfl
    rw [hsub]
    have h1 : (val a : Int) + 340282366920938463463374607431768211456 - (val p : Int)
        ≡ (val a : Int) - (val p : Int) [ZMOD 340282366920938463463374607431768211456] := by
      rw [Int.modEq_iff_dvd]
      exact ⟨-1, by ring⟩
    apply h1.trans
    apply (Int.ModEq.sub ca cp).trans
    rw [mul_sub]
  have cs := (val_modEq_sval r).symm.trans cr
  rw [Int.modEq_iff_dvd] at cs
  have hrange := sval_range hr.1
  have hcast : ((A - val uq * B : Nat) : Int) = (A : Int) - (val uq : Int) * (B : Int) := by
    rw [Nat.cast_sub hq]; push_cast; rfl
  refine ⟨A - val uq * B, ?_, ?_⟩
  · have : |(if hiNegative true a.hi = true then (-1 : Int) else 1)| = 1 := by
      split_ifs <;> simp
    rw [a2, abs_mul, this, one_mul, abs_of_nonneg (Nat.cast_nonneg _)]
    exact_mod_cast Nat.sub_le _ _
  · rw [hcast]
    have hq' : (val uq : Int) * (B : Int) ≤ (A : Int) := by exact_mod_cast hq
    have hnn : (0 : Int) ≤ (val uq : Int) * (B : Int) :=
      mul_nonneg (Nat.cast_nonneg _) (Nat.cast_nonneg _)
    generalize (val uq : Int) * (B : Int) = QB at *
    cases h1 : hiNegative true a.hi
    · have := a3 h1
      simp only [h1, Bool.false_eq_true, if_false, one_mul] at cs ⊢
      omega
    · simp only [h1, if_true] at cs ⊢
      omega


/-! ## The claims -/

/-- C1 (fails on the code): for the unsigned dividend `2^64` and the divisor `2^32`,
`operator /=` returns `2^32 - 1` and `operator %=` leaves `2^32`, which is not below the
divisor: the comparison `a % b < b` is false. -/
theorem C1_unsigned_remainder_not_below_divisor :
    opDivAssign false ⟨1, 0⟩ ⟨0, 4294967296⟩ = ⟨0, 4294967295⟩ ∧
    opModAssign false ⟨1, 0⟩ ⟨0, 4294967296⟩ = ⟨0, 4294967296⟩ ∧
    opLt false (opModAssign false ⟨1, 0⟩ ⟨0, 4294967296⟩) ⟨0, 4294967296⟩ = false := by
  decide

/-- C2 (fails on the code): on the reciprocal path `unsigned_divide` misses the reference
quotient in both directions.  For `2^64 / 2^32` it returns `2^32 - 1` instead of `2^32`;
for `0xa9f5082ec31d2969dd601aad9f65a92a / 0x19a984f15` it returns the reference quotient
plus one. -/
theorem C2_reciprocal_path_misses_quotient :
    unsigned_divide ⟨1, 0⟩ ⟨0, 4294967296⟩ = ⟨0, 4294967295⟩ ∧
    val ⟨1, 0⟩ / val ⟨0, 4294967296⟩ = 4294967296 ∧
    val (unsigned_divide ⟨12246703758638917993, 15951779213152201002⟩ ⟨0, 6888640277⟩) =
      val ⟨12246703758638917993, 15951779213152201002⟩ / val ⟨0, 6888640277⟩ + 1 := by
  decide

/-- C3: for every 128-bit dividend `a` and every divisor `1 ≤ b < 2^32`, `unsigned_divide`
returns `floor(a / b)`, both words of the quotient being correct; and `(hi=0, lo=100)`
divided by `7` gives quotient `14` and remainder `2`. -/
theorem C3_unsigned_divide_small_divisor (a : IntegerBase128) (b : Nat) (ha : WF a)
    (hb1 : 1 ≤ b) (hb : b < 4294967296) :
    val (unsigned_divide a ⟨0, b⟩) = val a / b ∧
    unsigned_divide a ⟨0, b⟩ = ⟨val a / b / W64, val a / b % W64⟩ ∧
    unsigned_divide ⟨0, 100⟩ ⟨0, 7⟩ = ⟨0, 14⟩ ∧
    opModAssign false ⟨0, 100⟩ ⟨0, 7⟩ = ⟨0, 2⟩ := by
  have hun : unsigned_divide a ⟨0, b⟩ = impl_divide a b := by
    unfold unsigned_divide; rw [if_pos rfl]
  have key : WF (impl_divide a b) ∧ val (impl_divide a b) = val a / b := by
    by_cases hah : a.hi = 0
    · exact impl_divide_hi_zero ha hah b
    · have hsh : b >>> 32 = 0 := by
        rw [shr32]; exact Nat.div_eq_of_lt hb
      have hi : impl_divide a b = impl_divide_u32 a b := by
        unfold impl_divide
        rw [if_neg hah, if_pos hsh, Nat.mod_eq_of_lt hb]
      rw [hi]
      exact impl_divide_u32_spec ha hah hb1 hb
  rw [hun]
  exact ⟨key.2, words_of_val key.1 key.2, by decide, by decide⟩

/-- Witness of C3: the dividend `(hi=7, lo=9)` and the divisor `1`. -/
theorem C3_unsigned_divide_small_divisor_witness :
    WF ⟨7, 9⟩ ∧ 1 ≤ 1 ∧ 1 < 4294967296 ∧
    (val (unsigned_divide ⟨7, 9⟩ ⟨0, 1⟩) = val ⟨7, 9⟩ / 1 ∧
     unsigned_divide ⟨7, 9⟩ ⟨0, 1⟩ = ⟨val ⟨7, 9⟩ / 1 / W64, val ⟨7, 9⟩ / 1 % W64⟩ ∧
     unsigned_divide ⟨0, 100⟩ ⟨0, 7⟩ = ⟨0, 14⟩ ∧
     opModAssign false ⟨0, 100⟩ ⟨0, 7⟩ = ⟨0, 2⟩) :=
  ⟨by decide, by decide, by decide,
    C3_unsigned_divide_small_divisor ⟨7, 9⟩ 1 (by decide) (by decide) (by decide)⟩

/-- C4: for every 128-bit dividend `a` and every divisor `b ≥ 2^64` (`b.hi ≠ 0`),
`unsigned_divide` returns `floor(a / b)`, which fits in one 64-bit word; it is `0` when
`a < b`, and otherwise the shift-subtract loop runs at most `shift + 1 ≤ 64` times. -/
theorem C4_unsigned_divide_large_divisor (a b : IntegerBase128) (ha : WF a) (hb : WF b)
    (hb0 : b.hi ≠ 0) :
    unsigned_divide a b = ⟨0, val a / val b⟩ ∧ val a / val b < W64 ∧
    (val a < val b → unsigned_divide a b = ⟨0, 0⟩) ∧
    (val b ≤ val a →
      (do_while ⟨opShlAssign b
          (((1 + ilog2_u64 a.hi) % W32 + W32 - (1 + ilog2_u64 b.hi) % W32) % W32), a, 0,
          (1 <<< (((1 + ilog2_u64 a.hi) % W32 + W32 - (1 + ilog2_u64 b.hi) % W32) % W32))
            % W64⟩).2
        ≤ ((1 + ilog2_u64 a.hi) % W32 + W32 - (1 + ilog2_u64 b.hi) % W32) % W32 + 1 ∧
      ((1 + ilog2_u64 a.hi) % W32 + W32 - (1 + ilog2_u64 b.hi) % W32) % W32 + 1 ≤ 64) := by
  have h := unsigned_divide_large_spec ha hb hb0
  refine ⟨h.1, h.2, ?_, ?_⟩
  · intro hlt
    rw [h.1, Nat.div_eq_of_lt hlt]
  · intro hge
    have hD : W64 ≤ val b := by
      simp only [WF, val, W64] at *
      omega
    obtain ⟨n1, n2, n3, n4, n5⟩ := normalize_spec ha hb hb0 hge
    have := do_while_spec hD (val_lt ha) _
      ⟨opShlAssign b _, a, 0, (1 <<< _) % W64⟩ n2 ha n3 n4 (by simp) (by rw [n3]; exact n5)
    exact ⟨this.2, by omega⟩

/-- Witness of C4: the dividend `(hi=5, lo=3)` and the divisor `(hi=2, lo=1)`. -/
theorem C4_unsigned_divide_large_divisor_witness :
    WF ⟨5, 3⟩ ∧ WF ⟨2, 1⟩ ∧ (2 : Nat) ≠ 0 ∧
    unsigned_divide ⟨5, 3⟩ ⟨2, 1⟩ = ⟨0, val ⟨5, 3⟩ / val ⟨2, 1⟩⟩ :=
  ⟨by decide, by decide, by decide,
    (C4_unsigned_divide_large_divisor ⟨5, 3⟩ ⟨2, 1⟩ (by decide) (by decide) (by decide)).1⟩

/-- The two properties of the signed `/` and `%` that hold for every input: for all
signed 128-bit `a` and `b ≠ 0`, `(a / b) * b + a % b == a`, and `a % b` is zero or has
the same sign as `a`.  They do not make the pair truncating: the quotient can be one too
small, and then the remainder is not below the divisor in magnitude. -/
theorem signed_div_mod_identity_and_sign (a b : IntegerBase128) (ha : WF a) (hb : WF b)
    (hb0 : val b ≠ 0) :
    opAddAssign (opMulAssign (opDivAssign true a b) b) (opModAssign true a b) = a ∧
    (sval (opModAssign true a b) = 0 ∨
      (0 < sval (opModAssign true a b) ∧ 0 < sval a) ∨
      (sval (opModAssign true a b) < 0 ∧ sval a < 0)) := by
  refine ⟨div_mul_add_mod ha hb hb0 true, ?_⟩
  obtain ⟨R, hR, hs⟩ := opModAssign_signed_sval ha hb hb0
  have hsa := sval_eq a
  have hv : val a = a.hi * W64 + a.lo := rfl
  have hwf := ha
  simp only [WF, W64] at hwf hv
  rw [hs]
  cases h1 : hiNegative true a.hi
  · have h' : a.hi < 9223372036854775808 := by simpa [hiNegative] using h1
    rw [if_pos h'] at hsa
    simp only [Bool.false_eq_true, if_false, one_mul]
    rw [hsa, abs_of_nonneg (Int.natCast_nonneg _)] at hR
    rw [hsa]
    omega
  · have h' : 9223372036854775808 ≤ a.hi := by simpa [hiNegative] using h1
    rw [if_neg (by omega)] at hsa
    simp only [if_true]
    rw [hsa]
    omega

/-- C5 (fails on the code): the signed `/` and `%` are not truncating.  For the signed
dividend `2^64` and the divisor `2^32`, `operator /=` returns `2^32 - 1` where the
quotient truncated toward zero is `2^32`, and `operator %=` leaves `2^32`, the divisor
itself, where the truncating remainder is `0`. -/
theorem C5_signed_division_not_truncating :
    WF ⟨1, 0⟩ ∧ WF ⟨0, 4294967296⟩ ∧
    sval ⟨1, 0⟩ = 18446744073709551616 ∧ sval ⟨0, 4294967296⟩ = 4294967296 ∧
    opDivAssign true ⟨1, 0⟩ ⟨0, 4294967296⟩ = ⟨0, 4294967295⟩ ∧
    opModAssign true ⟨1, 0⟩ ⟨0, 4294967296⟩ = ⟨0, 4294967296⟩ ∧
    sval (opDivAssign true ⟨1, 0⟩ ⟨0, 4294967296⟩)
      ≠ Int.tdiv (sval ⟨1, 0⟩) (sval ⟨0, 4294967296⟩) ∧
    sval (opModAssign true ⟨1, 0⟩ ⟨0, 4294967296⟩)
      ≠ Int.tmod (sval ⟨1, 0⟩) (sval ⟨0, 4294967296⟩) ∧
    ¬ (sval (opModAssign true ⟨1, 0⟩ ⟨0, 4294967296⟩) < sval ⟨0, 4294967296⟩) := by
  decide

/-- C6: for all 128-bit operands `a` and `b`, `operator *=` leaves `(hi, lo)` with
`hi * 2^64 + lo == (a * b) mod 2^128`. -/
theorem C6_multiply_truncated (a b : IntegerBase128) (ha : WF a) (hb : WF b) :
    WF (opMulAssign a b) ∧ val (opMulAssign a b) = (val a * val b) % 2 ^ 128 := by
  have h := opMulAssign_spec ha hb
  exact ⟨h.1, by rw [h.2]; norm_num⟩

/-- Witness of C6: both operands `2^128 - 1`, where the product overflows 128 bits. -/
theorem C6_multiply_truncated_witness :
    WF ⟨18446744073709551615, 18446744073709551615⟩ ∧
    val (opMulAssign ⟨18446744073709551615, 18446744073709551615⟩
      ⟨18446744073709551615, 18446744073709551615⟩)
      = (val ⟨18446744073709551615, 18446744073709551615⟩
          * val ⟨18446744073709551615, 18446744073709551615⟩) % 2 ^ 128 :=
  ⟨by decide, (C6_multiply_truncated ⟨18446744073709551615, 18446744073709551615⟩
    ⟨18446744073709551615, 18446744073709551615⟩ (by decide) (by decide)).2⟩

/-- C7: for all unsigned 64-bit `a` and `b`, `UnsignedInteger128::extendMul(a, b)` returns
`(hi, lo)` with `hi * 2^64 + lo == a * b` exactly; and
`extendMul(0xFFFFFFFFFFFFFFFF, 2) == (hi=1, lo=0xFFFFFFFFFFFFFFFE)`. -/
theorem C7_unsigned_extendMul_exact (a b : Nat) (ha : a < 2 ^ 64) (hb : b < 2 ^ 64) :
    WF (UnsignedInteger128.extendMul a b) ∧
    (UnsignedInteger128.extendMul a b).hi * 2 ^ 64 + (UnsignedInteger128.extendMul a b).lo
      = a * b ∧
    UnsignedInteger128.extendMul 0xFFFFFFFFFFFFFFFF 2 = ⟨1, 0xFFFFFFFFFFFFFFFE⟩ := by
  have h := unsigned_extendMul_spec (show a < W64 by simpa using ha)
    (show b < W64 by simpa using hb)
  refine ⟨h.1, ?_, by decide⟩
  rw [← h.2]
  simp [val]

/-- Witness of C7: `extendMul(0xFFFFFFFFFFFFFFFF, 0xFFFFFFFFFFFFFFFF)`. -/
theorem C7_unsigned_extendMul_exact_witness :
    18446744073709551615 < 2 ^ 64 ∧
    (UnsignedInteger128.extendMul 18446744073709551615 18446744073709551615).hi * 2 ^ 64
      + (UnsignedInteger128.extendMul 18446744073709551615 18446744073709551615).lo
      = 18446744073709551615 * 18446744073709551615 :=
  ⟨by decide, (C7_unsigned_extendMul_exact 18446744073709551615 18446744073709551615
    (by decide) (by decide)).2.1⟩

/-- C8: for all signed 64-bit `a` and `b` (given as two's-complement patterns, `-2^63`
included), `SignedInteger128::extendMul(a, b)` is the 128-bit two's-complement
representation of the exact product `a * b`, and the middle term
`int1Hi * int2Lo + int1Lo * int2Hi` of the magnitudes does not overflow 64 bits. -/
theorem C8_signed_extendMul_exact (a b : Nat) (ha : a < 2 ^ 64) (hb : b < 2 ^ 64) :
    WF (SignedInteger128.extendMul a b) ∧
    sval (SignedInteger128.extendMul a b) = toInt64 a * toInt64 b ∧
    ((if hiNegative true a = true then neg64 a else a) >>> 32)
        * ((if hiNegative true b = true then neg64 b else b) &&& 0xFFFFFFFF)
      + ((if hiNegative true a = true then neg64 a else a) &&& 0xFFFFFFFF)
        * ((if hiNegative true b = true then neg64 b else b) >>> 32) < 2 ^ 64 := by
  have ha' : a < W64 := by simpa using ha
  have hb' : b < W64 := by simpa using hb
  have h := signed_extendMul_spec ha' hb'
  refine ⟨h.1, h.2, ?_⟩
  obtain ⟨hm1, _⟩ := magnitude_spec ha'
  obtain ⟨hm2, _⟩ := magnitude_spec hb'
  generalize (if hiNegative true a = true then neg64 a else a) = m1 at *
  generalize (if hiNegative true b = true then neg64 b else b) = m2 at *
  rw [and_mask32, and_mask32, shr32, shr32]
  have hlh : m1 / W32 ≤ 2147483648 := by simp only [W32] at *; omega
  have hrh : m2 / W32 ≤ 2147483648 := by simp only [W32] at *; omega
  have hll : m1 % W32 < W32 := Nat.mod_lt _ (by norm_num)
  have hrl : m2 % W32 < W32 := Nat.mod_lt _ (by norm_num)
  have b2 := mag_half_mul_le hlh hrl
  have b3 := mag_half_mul_le hrh hll
  rw [Nat.mul_comm (m2 / W32) (m1 % W32)] at b3
  rw [show (2 : Nat) ^ 64 = 18446744073709551616 by norm_num]
  simp only [W32] at *
  omega

/-- Witness of C8: `a = b = -2^63`. -/
theorem C8_signed_extendMul_exact_witness :
    9223372036854775808 < 2 ^ 64 ∧
    sval (SignedInteger128.extendMul 9223372036854775808 9223372036854775808)
      = toInt64 9223372036854775808 * toInt64 9223372036854775808 :=
  ⟨by decide, (C8_signed_extendMul_exact 9223372036854775808 9223372036854775808
    (by decide) (by decide)).2.1⟩

/-- C9: for all 128-bit `a` and `b` held in distinct objects, `operator +=` yields
`(hi, lo)` with `hi * 2^64 + lo == (a + b) mod 2^128`; the test `lo_result < rhs.lo` is
true exactly when the low-word addition carried, and then exactly one is added to `hi`. -/
theorem C9_add_with_carry (a b : IntegerBase128) (ha : WF a) (hb : WF b) :
    WF (opAddAssign a b) ∧
    (opAddAssign a b).hi * 2 ^ 64 + (opAddAssign a b).lo = (val a + val b) % 2 ^ 128 ∧
    ((a.lo + b.lo) % 2 ^ 64 < b.lo ↔ 2 ^ 64 ≤ a.lo + b.lo) ∧
    (opAddAssign a b).lo = (a.lo + b.lo) % 2 ^ 64 ∧
    (opAddAssign a b).hi
      = (a.hi + b.hi + (if (a.lo + b.lo) % 2 ^ 64 < b.lo then 1 else 0)) % 2 ^ 64 := by
  have h := opAddAssign_spec ha hb
  have hv : val (opAddAssign a b) = (opAddAssign a b).hi * W64 + (opAddAssign a b).lo := rfl
  refine ⟨h.1, ?_, ?_, ?_, ?_⟩
  · rw [show (2 : Nat) ^ 64 = W64 by norm_num, show (2 : Nat) ^ 128 = W128 by norm_num,
      ← hv, h.2]
  · rw [show (2 : Nat) ^ 64 = 18446744073709551616 by norm_num]
    simp only [WF, W64] at *
    omega
  · rw [show (2 : Nat) ^ 64 = W64 by norm_num]
    simp only [opAddAssign]
    split_ifs <;> rfl
  · rw [show (2 : Nat) ^ 64 = W64 by norm_num]
    simp only [opAddAssign]
    split_ifs
    · simp only [W64]; omega
    · simp only [W64]; omega

/-- Witness of C9: `(hi=1, lo=2^64-1) + (hi=2, lo=1)`, where the low words carry. -/
theorem C9_add_with_carry_witness :
    WF ⟨1, 18446744073709551615⟩ ∧ WF ⟨2, 1⟩ ∧
    (opAddAssign ⟨1, 18446744073709551615⟩ ⟨2, 1⟩).hi * 2 ^ 64
      + (opAddAssign ⟨1, 18446744073709551615⟩ ⟨2, 1⟩).lo
      = (val ⟨1, 18446744073709551615⟩ + val ⟨2, 1⟩) % 2 ^ 128 :=
  ⟨by decide, by decide,
    (C9_add_with_carry ⟨1, 18446744073709551615⟩ ⟨2, 1⟩ (by decide) (by decide)).2.1⟩

/-- C10: for every 128-bit `x`, unary minus and `negate()` give `(2^128 - x) mod 2^128`,
so that `x + (-x) == 0` and `-(-x) == x`, with `-0 == 0` and `-(2^127) == 2^127`; and for
all `a`, `b`, `operator -=` gives `(a - b) mod 2^128`. -/
theorem C10_negate_and_subtract (x a b : IntegerBase128) (hx : WF x) (ha : WF a)
    (hb : WF b) :
    val (opNeg x) = (2 ^ 128 - val x) % 2 ^ 128 ∧
    negate x = opNeg x ∧
    opAddAssign x (opNeg x) = ⟨0, 0⟩ ∧
    opNeg (opNeg x) = x ∧
    opNeg ⟨0, 0⟩ = ⟨0, 0⟩ ∧
    opNeg ⟨9223372036854775808, 0⟩ = ⟨9223372036854775808, 0⟩ ∧
    WF (opSubAssign a b) ∧
    val (opSubAssign a b) = (val a + 2 ^ 128 - val b) % 2 ^ 128 := by
  have hn := opNeg_spec hx
  have hnn := opNeg_spec hn.1
  have hadd := opAddAssign_spec hx hn.1
  have hsub := opSubAssign_spec ha hb
  have hxl := val_lt hx
  refine ⟨by rw [hn.2]; norm_num, ?_, ?_, ?_, by decide, by decide, hsub.1,
    by rw [hsub.2]; norm_num⟩
  · unfold negate opNeg
    split_ifs with h0
    · obtain ⟨h, l⟩ := x
      simp only at h0
      subst h0
      rfl
    · rfl
  · apply val_inj hadd.1 (by decide)
    rw [hadd.2, hn.2]
    simp only [W128] at *
    show _ = 0 * W64 + 0
    omega
  · apply val_inj hnn.1 hx
    rw [hnn.2, hn.2]
    simp only [W128] at *
    omega

/-- Witness of C10: `x = 5`, `a = 3`, `b = 2^64 + 4`. -/
theorem C10_negate_and_subtract_witness :
    WF ⟨0, 5⟩ ∧ WF ⟨0, 3⟩ ∧ WF ⟨1, 4⟩ ∧
    val (opNeg ⟨0, 5⟩) = (2 ^ 128 - val ⟨0, 5⟩) % 2 ^ 128 ∧
    val (opSubAssign ⟨0, 3⟩ ⟨1, 4⟩) = (val ⟨0, 3⟩ + 2 ^ 128 - val ⟨1, 4⟩) % 2 ^ 128 :=
  ⟨by decide, by decide, by decide,
    (C10_negate_and_subtract ⟨0, 5⟩ ⟨0, 3⟩ ⟨1, 4⟩ (by decide) (by decide) (by decide)).1,
    (C10_negate_and_subtract ⟨0, 5⟩ ⟨0, 3⟩ ⟨1, 4⟩ (by decide) (by decide) (by decide)).2.2.2.2.2.2.2⟩

/-! ## Comparison and shifts of `IntegerBase128` -/

theorem opLt_signed_spec (a b : IntegerBase128) (ha : WF a) (hb : WF b) :
    opLt true a b = true ↔ sval a < sval b := by
  simp only [opLt, hiLess, sval, toInt64, WF, W64, if_true] at *
  split_ifs <;> simp only [decide_eq_true_eq] <;> omega

theorem opEq_iff_eq (a b : IntegerBase128) : opEq a b = true ↔ a = b := by
  obtain ⟨ah, al⟩ := a
  obtain ⟨bh, bl⟩ := b
  simp [opEq]

theorem sval_inj {a b : IntegerBase128} (ha : WF a) (hb : WF b) (h : sval a = sval b) :
    a = b := by
  apply val_inj ha hb
  have h1 := sval_eq a
  have h2 := sval_eq b
  have v1 : val a = a.hi * W64 + a.lo := rfl
  have v2 : val b = b.hi * W64 + b.lo := rfl
  simp only [WF, W64] at *
  split_ifs at h1 h2 <;> omega

theorem opLt_iff_order (s : Bool) (a b : IntegerBase128) (ha : WF a) (hb : WF b) :
    opLt s a b = true ↔ (if s = true then sval a else (val a : Int))
      < (if s = true then sval b else (val b : Int)) := by
  cases s
  · simp only [Bool.false_eq_true, if_false]
    rw [opLt_unsigned_spec a b ha hb]
    exact Nat.cast_lt.symm
  · simp only [if_true]
    exact opLt_signed_spec a b ha hb

theorem order_key_inj (s : Bool) {a b : IntegerBase128} (ha : WF a) (hb : WF b)
    (h : (if s = true then sval a else (val a : Int))
      = (if s = true then sval b else (val b : Int))) : a = b := by
  cases s
  · simp only [Bool.false_eq_true, if_false] at h
    exact val_inj ha hb (by exact_mod_cast h)
  · simp only [if_true] at h
    exact sval_inj ha hb h

theorem opLt_irrefl (s : Bool) (a : IntegerBase128) (ha : WF a) : opLt s a a = false := by
  cases h : opLt s a a
  · rfl
  · exact absurd ((opLt_iff_order s a a ha ha).mp h) (lt_irrefl _)

/-- C11: with `val` the unsigned and `sval` the signed value of `(hi, lo)`, the unsigned
`a < b` holds iff `val a < val b`, the signed `a < b` iff `sval a < sval b`, and `a == b`
iff the values are equal; so `<` is a strict total order on each variant (irreflexive,
transitive, and exactly one of `a < b`, `a == b`, `b < a` holds). -/
theorem C11_comparison_is_value_order (a b c : IntegerBase128) (ha : WF a) (hb : WF b)
    (hc : WF c) :
    (opLt false a b = true ↔ val a < val b) ∧
    (opLt true a b = true ↔ sval a < sval b) ∧
    (opEq a b = true ↔ val a = val b) ∧
    (opEq a b = true ↔ sval a = sval b) ∧
    (∀ s : Bool,
      opLt s a a = false ∧
      (opLt s a b = true → opLt s b c = true → opLt s a c = true) ∧
      (opLt s a b = true ∨ opEq a b = true ∨ opLt s b a = true) ∧
      ¬ (opLt s a b = true ∧ opEq a b = true) ∧
      ¬ (opLt s a b = true ∧ opLt s b a = true) ∧
      ¬ (opEq a b = true ∧ opLt s b a = true)) := by
  refine ⟨opLt_unsigned_spec a b ha hb, opLt_signed_spec a b ha hb, ?_, ?_, ?_⟩
  · rw [opEq_iff_eq]
    exact ⟨fun h => by rw [h], val_inj ha hb⟩
  · rw [opEq_iff_eq]
    exact ⟨fun h => by rw [h], sval_inj ha hb⟩
  · intro s
    have hab := opLt_iff_order s a b ha hb
    have hba := opLt_iff_order s b a hb ha
    have hbc := opLt_iff_order s b c hb hc
    have hac := opLt_iff_order s a c ha hc
    have hirr : ∀ x : IntegerBase128, WF x → opLt s x x = false := opLt_irrefl s
    have heq := opEq_iff_eq a b
    have hinj := order_key_inj s ha hb
    generalize (if s = true then sval a else (val a : Int)) = ka at *
    generalize (if s = true then sval b else (val b : Int)) = kb at *
    generalize (if s = true then sval c else (val c : Int)) = kc at *
    refine ⟨?_, ?_, ?_, ?_, ?_, ?_⟩
    · exact hirr a ha
    · intro h1 h2
      exact hac.mpr (lt_trans (hab.mp h1) (hbc.mp h2))
    · rcases lt_trichotomy ka kb with h | h | h
      · exact Or.inl (hab.mpr h)
      · exact Or.inr (Or.inl (heq.mpr (hinj h)))
      · exact Or.inr (Or.inr (hba.mpr h))
    · rintro ⟨h1, h2⟩
      rw [heq.mp h2, hirr b hb] at h1
      cases h1
    · rintro ⟨h1, h2⟩
      exact lt_asymm (hab.mp h1) (hba.mp h2)
    · rintro ⟨h1, h2⟩
      rw [heq.mp h1, hirr b hb] at h2
      cases h2

/-- Witness of C11: `a = (hi=2^63, lo=0)`, `b = (hi=0, lo=1)`, `c = (hi=1, lo=0)`. -/
theorem C11_comparison_is_value_order_witness :
    WF ⟨9223372036854775808, 0⟩ ∧ WF ⟨0, 1⟩ ∧ WF ⟨1, 0⟩ ∧
    (opLt true ⟨9223372036854775808, 0⟩ ⟨0, 1⟩ = true
      ↔ sval ⟨9223372036854775808, 0⟩ < sval ⟨0, 1⟩) :=
  ⟨by decide, by decide, by decide,
    (C11_comparison_is_value_order ⟨9223372036854775808, 0⟩ ⟨0, 1⟩ ⟨1, 0⟩
      (by decide) (by decide) (by decide)).2.1⟩

/-- C12: for every 128-bit `x` and every shift amount `n`, `x <<= n` yields
`(x * 2^(n mod 128)) mod 2^128`; the code is the same for both variants, so the signed
value of the result is congruent to `sval x * 2^(n mod 128)` modulo `2^128`. -/
theorem C12_shift_left (x : IntegerBase128) (n : Nat) (hx : WF x) :
    WF (opShlAssign x n) ∧
    val (opShlAssign x n) = (val x * 2 ^ (n % 128)) % 2 ^ 128 ∧
    sval (opShlAssign x n) ≡ sval x * 2 ^ (n % 128) [ZMOD 2 ^ 128] := by
  have h := opShlAssign_spec hx n
  refine ⟨h.1, by rw [h.2]; norm_num, ?_⟩
  have e : (2 : Int) ^ 128 = 340282366920938463463374607431768211456 := by norm_num
  rw [e]
  apply (val_modEq_sval _).symm.trans
  rw [h.2]
  apply (cast_mod_modEq _).trans
  push_cast
  exact Int.ModEq.mul_right _ (val_modEq_sval x)

/-- Witness of C12: `x = (hi=3, lo=2^63+5)` shifted by `n = 200`. -/
theorem C12_shift_left_witness :
    WF ⟨3, 9223372036854775813⟩ ∧
    val (opShlAssign ⟨3, 9223372036854775813⟩ 200)
      = (val ⟨3, 9223372036854775813⟩ * 2 ^ (200 % 128)) % 2 ^ 128 :=
  ⟨by decide, (C12_shift_left ⟨3, 9223372036854775813⟩ 200 (by decide)).2.1⟩

theorem opShrAssign_nonneg_eq (x : IntegerBase128) (n : Nat)
    (h : hiNegative true x.hi = false) : opShrAssign true x n = opShrAssign false x n := by
  have h' : ¬ 9223372036854775808 ≤ x.hi := by simpa [hiNegative] using h
  simp [opShrAssign, hiShiftRight, hiNegative, h']

/-- The unsigned quotient by `2^k` leaves the top `k` bits clear. -/
theorem shr_val_lt {x : IntegerBase128} (hx : WF x) {k : Nat} (hk : k ≤ 128) :
    val x / 2 ^ k < 2 ^ (128 - k) := by
  apply Nat.div_lt_of_lt_mul
  rw [← pow_add, Nat.add_sub_cancel' hk]
  have := val_lt hx
  simpa [W128] using this

/-- The arithmetic right shift of a negative value is the logical one with the vacated
bits set. -/
theorem opShrAssign_negative_spec {x : IntegerBase128} (hx : WF x)
    (hneg : hiNegative true x.hi = true) (n : Nat) :
    WF (opShrAssign true x n) ∧
      val (opShrAssign true x n) + 2 ^ (128 - n % 128) = val x / 2 ^ (n % 128) + W128 := by
  have hu := opShrAssign_unsigned_spec hx n
  have hn : n % 128 < 128 := Nat.mod_lt _ (by decide)
  have hlt := shr_val_lt hx (le_of_lt hn)
  rw [← hu.2] at hlt ⊢
  obtain ⟨huw, -⟩ := hu
  have hge : 9223372036854775808 ≤ x.hi := by simpa [hiNegative] using hneg
  revert huw hlt
  simp only [opShrAssign, and_127, hiShiftRight, hiNegative, hge, decide_True, Bool.and_self,
    Bool.and_true, if_true, Bool.false_and, Bool.false_eq_true, if_false,
    Nat.shiftRight_eq_div_pow]
  generalize n % 128 = r at *
  by_cases h0 : r = 0
  · subst h0
    intro _ huw
    simp only [if_true]
    exact ⟨hx, by norm_num⟩
  · simp only [h0, if_false]
    by_cases h63 : r > 63
    · simp only [h63, if_true]
      intro hlt huw
      have e : 64 - (r - 64) = 128 - r := by omega
      rw [e]
      have hp : (2 : Nat) ^ (128 - r) ≤ W64 := by
        rw [show W64 = 2 ^ 64 by norm_num]
        exact Nat.pow_le_pow_right (by decide) (by omega)
      have hv : ∀ l : Nat, val ⟨0, l⟩ = l := fun l => by simp [val]
      rw [hv] at hlt
      generalize x.hi / 2 ^ (r - 64) = q at *
      generalize (2 : Nat) ^ (128 - r) = p at *
      simp only [WF, val, W64, W128] at *
      omega
    · simp only [h63, if_false]
      intro hlt huw
      have hpp : (2 : Nat) ^ (128 - r) = 2 ^ (64 - r) * W64 := by
        rw [show W64 = 2 ^ 64 by norm_num, ← pow_add]; congr 1; omega
      have hp : (2 : Nat) ^ (64 - r) ≤ W64 := by
        rw [show W64 = 2 ^ 64 by norm_num]
        exact Nat.pow_le_pow_right (by decide) (by omega)
      rw [hpp] at hlt ⊢
      generalize x.hi / 2 ^ r = q at *
      generalize (x.lo / 2 ^ r ||| x.hi <<< (64 - r) % W64) = l at *
      generalize (2 : Nat) ^ (64 - r) = p at *
      simp only [WF, val, W64, W128] at *
      have : q < p := by
        by_contra hc
        have : p * 18446744073709551616 ≤ q * 18446744073709551616 :=
          Nat.mul_le_mul_right _ (by omega)
        omega
      have e : (q + (18446744073709551616 - p)) * 18446744073709551616
          = q * 18446744073709551616
            + (340282366920938463463374607431768211456 - p * 18446744073709551616) := by
        have : p * 18446744073709551616 ≤ 340282366920938463463374607431768211456 := by
          have := Nat.mul_le_mul_right 18446744073709551616 hp
          omega
        zify [hp, this]
        ring
      constructor
      · omega
      · rw [e]; omega

theorem testBit_false_of_lt {v j i : Nat} (h : v < 2 ^ j) (hji : j ≤ i) : v.testBit i = false :=
  Nat.testBit_lt_two_pow (lt_of_lt_of_le h (Nat.pow_le_pow_right (by decide) hji))

/-- The signed right shift is the floor of the signed value by `2^k`. -/
theorem opShrAssign_signed_spec {x : IntegerBase128} (hx : WF x) (n : Nat) :
    WF (opShrAssign true x n) ∧ sval (opShrAssign true x n) = sval x / 2 ^ (n % 128) := by
  have hn : n % 128 < 128 := Nat.mod_lt _ (by decide)
  have hsx := sval_eq x
  have hvx : val x = x.hi * W64 + x.lo := rfl
  have hxw := hx
  simp only [WF, W64] at hxw
  cases hneg : hiNegative true x.hi
  · have hlt : x.hi < 9223372036854775808 := by simpa [hiNegative] using hneg
    rw [opShrAssign_nonneg_eq x n hneg]
    have hu := opShrAssign_unsigned_spec hx n
    refine ⟨hu.1, ?_⟩
    have hsr := sval_eq (opShrAssign false x n)
    have hvr : val (opShrAssign false x n)
        = (opShrAssign false x n).hi * W64 + (opShrAssign false x n).lo := rfl
    have hle : val x / 2 ^ (n % 128) ≤ val x := Nat.div_le_self _ _
    have huw := hu.1
    simp only [WF, W64] at huw hvr hvx
    rw [if_pos hlt] at hsx
    rw [hsr, if_pos (by omega), hsx, hu.2]
    push_cast
    rfl
  · have hge : 9223372036854775808 ≤ x.hi := by simpa [hiNegative] using hneg
    obtain ⟨hw, hv⟩ := opShrAssign_negative_spec hx hneg n
    refine ⟨hw, ?_⟩
    have hsr := sval_eq (opShrAssign true x n)
    have hvr : val (opShrAssign true x n)
        = (opShrAssign true x n).hi * W64 + (opShrAssign true x n).lo := rfl
    have hpp : (2 : Nat) ^ (128 - n % 128) * 2 ^ (n % 128) = W128 := by
      rw [← pow_add, Nat.sub_add_cancel (le_of_lt hn)]; norm_num
    have hp127 : (2 : Nat) ^ (127 - n % 128) * 2 ^ (n % 128) = 2 ^ 127 := by
      rw [← pow_add, Nat.sub_add_cancel (by omega)]
    have hq : 2 ^ (127 - n % 128) ≤ val x / 2 ^ (n % 128) := by
      rw [Nat.le_div_iff_mul_le (Nat.pow_pos (by decide)), hp127]
      simp only [W64] at hvx
      norm_num
      omega
    have hhalf : (2 : Nat) ^ (128 - n % 128) = 2 * 2 ^ (127 - n % 128) := by
      rw [← pow_succ']; congr 1; omega
    have hle127 : (2 : Nat) ^ (127 - n % 128) ≤ 2 ^ 127 :=
      Nat.pow_le_pow_right (by decide) (by omega)
    have hdiv : ((val x : Int) - 340282366920938463463374607431768211456) / 2 ^ (n % 128)
        = (val x : Int) / 2 ^ (n % 128) - (2 : Int) ^ (128 - n % 128) := by
      have e : ((val x : Int) - 340282366920938463463374607431768211456)
          = (val x : Int) + (-((2 : Int) ^ (128 - n % 128))) * 2 ^ (n % 128) := by
        have : ((2 : Int) ^ (128 - n % 128)) * 2 ^ (n % 128)
            = 340282366920938463463374607431768211456 := by exact_mod_cast hpp
        rw [neg_mul, this]; ring
      rw [e, Int.add_mul_ediv_right _ _ (by positivity)]
      ring
    rw [if_neg (by omega)] at hsx
    rw [hsx, hdiv, hsr]
    have hcast : ((val x / 2 ^ (n % 128) : Nat) : Int) = (val x : Int) / 2 ^ (n % 128) := by
      push_cast; rfl
    rw [← hcast]
    have hpc : ((2 ^ (128 - n % 128) : Nat) : Int) = (2 : Int) ^ (128 - n % 128) := by
      push_cast; rfl
    rw [← hpc]
    generalize val x / 2 ^ (n % 128) = q at *
    generalize (2 : Nat) ^ (128 - n % 128) = p at *
    generalize (2 : Nat) ^ (127 - n % 128) = p' at *
    have hwf := hw
    simp only [WF, W64, W128] at hwf hvr hv
    norm_num at hle127
    split_ifs <;> omega

/-- C13: with `k = n mod 128`, the unsigned `x >>= n` yields `floor(val x / 2^k)` with the
top `k` bits clear, and the signed `x >>= n` yields the two's-complement representation
of `floor(sval x / 2^k)`, the top `k` bits of the result all equal to the original sign
bit. -/
theorem C13_shift_right (x : IntegerBase128) (n : Nat) (hx : WF x) :
    WF (opShrAssign false x n) ∧
    val (opShrAssign false x n) = val x / 2 ^ (n % 128) ∧
    WF (opShrAssign true x n) ∧
    sval (opShrAssign true x n) = sval x / 2 ^ (n % 128) ∧
    (∀ i, 128 - n % 128 ≤ i → i < 128 → (val (opShrAssign false x n)).testBit i = false) ∧
    (∀ i, 128 - n % 128 ≤ i → i < 128 →
      (val (opShrAssign true x n)).testBit i = hiNegative true x.hi) := by
  have hn : n % 128 < 128 := Nat.mod_lt _ (by decide)
  have hu := opShrAssign_unsigned_spec hx n
  have hs := opShrAssign_signed_spec hx n
  have hlt := shr_val_lt hx (le_of_lt hn)
  refine ⟨hu.1, hu.2, hs.1, hs.2, ?_, ?_⟩
  · intro i hi _
    rw [hu.2]
    exact testBit_false_of_lt hlt hi
  · intro i hi hi128
    cases hneg : hiNegative true x.hi
    · rw [opShrAssign_nonneg_eq x n hneg, hu.2]
      exact testBit_false_of_lt hlt hi
    · obtain ⟨-, hv⟩ := opShrAssign_negative_spec hx hneg n
      have hy : 2 ^ (128 - n % 128) - 1 - val x / 2 ^ (n % 128) < 2 ^ (128 - n % 128) := by
        have : 0 < 2 ^ (128 - n % 128) := Nat.pow_pos (by decide)
        omega
      have hy128 : 2 ^ (128 - n % 128) - 1 - val x / 2 ^ (n % 128) < 2 ^ 128 :=
        lt_of_lt_of_le hy (Nat.pow_le_pow_right (by decide) (by omega))
      have hform : val (opShrAssign true x n)
          = 2 ^ 128 - (2 ^ (128 - n % 128) - 1 - val x / 2 ^ (n % 128) + 1) := by
        have hle : (2 : Nat) ^ (128 - n % 128) ≤ 2 ^ 128 :=
          Nat.pow_le_pow_right (by decide) (by omega)
        simp only [W128] at hv
        norm_num at hle ⊢
        omega
      rw [hform, Nat.testBit_two_pow_sub_succ hy128, testBit_false_of_lt hy hi]
      simp [hi128]

/-- Witness of C13: `x = (hi=2^63+1, lo=7)`, a negative signed value, shifted by `n = 70`. -/
theorem C13_shift_right_witness :
    WF ⟨9223372036854775809, 7⟩ ∧
    sval (opShrAssign true ⟨9223372036854775809, 7⟩ 70)
      = sval ⟨9223372036854775809, 7⟩ / 2 ^ (70 % 128) :=
  ⟨by decide, (C13_shift_right ⟨9223372036854775809, 7⟩ 70 (by decide)).2.2.2.1⟩

/-- C14: for every unsigned `x` and `0 ≤ n < 128`, `(x << n) >> n` is `x mod 2^(128-n)`;
and for `n mod 128 = 0`, `x << n == x` and `x >> n == x` for both variants. -/
theorem C14_shift_round_trip (x : IntegerBase128) (n : Nat) (hx : WF x) :
    (n < 128 →
      val (opShrAssign false (opShlAssign x n) n) = val x % 2 ^ (128 - n)) ∧
    (n % 128 = 0 →
      opShlAssign x n = x ∧ opShrAssign false x n = x ∧ opShrAssign true x n = x) := by
  constructor
  · intro hn
    have h1 := opShlAssign_spec hx n
    have h2 := opShrAssign_unsigned_spec h1.1 n
    rw [h2.2, h1.2, Nat.mod_eq_of_lt hn]
    have hpp : W128 = 2 ^ (128 - n) * 2 ^ n := by
      rw [← pow_add, Nat.sub_add_cancel (le_of_lt hn)]; norm_num
    rw [hpp, Nat.mul_mod_mul_right, Nat.mul_div_cancel _ (Nat.pow_pos (by decide))]
  · intro h0
    have e : n &&& (128 - 1) = 0 := by rw [and_127]; exact h0
    simp only [opShlAssign, opShrAssign, e, if_true, and_self]

/-- Witness of C14: `x = (hi=2^63+1, lo=7)` and `n = 5`. -/
theorem C14_shift_round_trip_witness :
    WF ⟨9223372036854775809, 7⟩ ∧ 5 < 128 ∧
    val (opShrAssign false (opShlAssign ⟨9223372036854775809, 7⟩ 5) 5)
      = val ⟨9223372036854775809, 7⟩ % 2 ^ (128 - 5) :=
  ⟨by decide, by decide,
    (C14_shift_round_trip ⟨9223372036854775809, 7⟩ 5 (by decide)).1 (by decide)⟩

/-! ## Abstract values -/

open ArchAbstractValue (InWord truncated zeroSized construct constructExact ofSizedValue
  resize isConcrete isNondeterministic asConcrete opAnd opOr opXor opShl opShr consistentWith)

theorem testBit_bitMask (w n i : Nat) :
    (bitMask w n).testBit i = decide (i < n ∧ i < w) := by
  unfold bitMask
  rw [Nat.testBit_two_pow_sub_one]
  simp [lt_min_iff]

theorem eq_zero_iff_testBit (v : Nat) : v = 0 ↔ ∀ i, v.testBit i = false := by
  constructor
  · intro h i; rw [h]; exact Nat.zero_testBit i
  · intro h
    apply Nat.eq_of_testBit_eq
    intro i; rw [h i, Nat.zero_testBit]

theorem eq_iff_testBit (u v : Nat) : u = v ↔ ∀ i, u.testBit i = v.testBit i :=
  ⟨fun h i => by rw [h], Nat.eq_of_testBit_eq⟩

/-- The consistency relation, bit by bit. -/
theorem consistentWith_iff (x : Nat) (a : ArchAbstractValue) :
    consistentWith x a ↔ ∀ i,
      (a.zeroBits.testBit i = true → a.oneBits.testBit i = false → x.testBit i = false) ∧
      (a.oneBits.testBit i = true → a.zeroBits.testBit i = false → x.testBit i = true) := by
  unfold consistentWith
  rw [eq_zero_iff_testBit, eq_iff_testBit, ← forall_and]
  apply forall_congr'
  intro i
  simp only [Nat.testBit_and, Nat.testBit_xor]
  cases a.zeroBits.testBit i <;> cases a.oneBits.testBit i <;> cases x.testBit i <;> simp

theorem isNondeterministic_false_iff (a : ArchAbstractValue) :
    isNondeterministic a = false ↔
      ∀ i, ¬ (a.zeroBits.testBit i = true ∧ a.oneBits.testBit i = true) := by
  unfold isNondeterministic
  simp only [ne_eq, decide_not, Bool.not_eq_false', decide_eq_true_eq]
  rw [eq_zero_iff_testBit]
  apply forall_congr'
  intro i
  simp only [Nat.testBit_and]
  cases a.zeroBits.testBit i <;> cases a.oneBits.testBit i <;> simp

theorem truncated_iff (w : Nat) (a : ArchAbstractValue) :
    truncated w a ↔ ∀ i,
      (a.zeroBits.testBit i = true → i < a.size ∧ i < w) ∧
      (a.oneBits.testBit i = true → i < a.size ∧ i < w) := by
  unfold truncated bitTruncate
  rw [eq_iff_testBit, eq_iff_testBit, ← forall_and]
  apply forall_congr'
  intro i
  simp only [Nat.testBit_and, testBit_bitMask]
  cases a.zeroBits.testBit i <;> cases a.oneBits.testBit i <;> simp


theorem lt_two_pow_testBit {x s : Nat} (hx : x < 2 ^ s) {i : Nat} (hi : s ≤ i) :
    x.testBit i = false := testBit_false_of_lt hx hi

/-- C15: soundness of the ternary operators.  With `x` consistent with `X` when `x` has `0`
where only the zero-bit of `X` is set and `1` where only its one-bit is set: for all
sizes `s` (within the width of the masks), all `s`-bit `x`, `y` and all `X`, `Y` of size
`s` with no position having both bits set, if `x` is consistent with `X` and `y` with `Y`
then `x & y` is consistent with `X & Y`, `x | y` with `X | Y`, `x ^ y` with `X ^ Y`, and
the 1-bit value `(x == y ? 1 : 0)` with `X == Y`. -/
theorem C15_ternary_operators_sound (w s x y : Nat) (X Y : ArchAbstractValue) (hs : s ≤ w)
    (hx : x < 2 ^ s) (hy : y < 2 ^ s) (hXs : X.size = s) (hYs : Y.size = s)
    (hXn : isNondeterministic X = false) (hYn : isNondeterministic Y = false)
    (hcx : consistentWith x X) (hcy : consistentWith y Y) :
    (consistentWith (x &&& y) (opAnd X Y) ∧ (opAnd X Y).size = s ∧ x &&& y < 2 ^ s) ∧
    (consistentWith (x ||| y) (opOr X Y) ∧ (opOr X Y).size = s ∧ x ||| y < 2 ^ s) ∧
    (consistentWith (x ^^^ y) (opXor X Y) ∧ (opXor X Y).size = s ∧ x ^^^ y < 2 ^ s) ∧
    (consistentWith (if x = y then 1 else 0) (ArchAbstractValue.opEq w X Y) ∧
      (ArchAbstractValue.opEq w X Y).size = 1) := by
  rw [consistentWith_iff] at hcx hcy
  rw [isNondeterministic_false_iff] at hXn hYn
  refine ⟨⟨?_, hXs, Nat.and_lt_two_pow x hy⟩, ⟨?_, hXs, Nat.or_lt_two_pow hx hy⟩,
    ⟨?_, hXs, Nat.xor_lt_two_pow hx hy⟩, ?_, rfl⟩
  · rw [consistentWith_iff]
    intro i
    have h1 := hcx i; have h2 := hcy i; have h3 := hXn i; have h4 := hYn i
    simp only [opAnd, constructExact, Nat.testBit_and, Nat.testBit_or]
    revert h1 h2 h3 h4
    cases X.zeroBits.testBit i <;> cases X.oneBits.testBit i <;>
      cases Y.zeroBits.testBit i <;> cases Y.oneBits.testBit i <;>
      cases x.testBit i <;> cases y.testBit i <;> simp
  · rw [consistentWith_iff]
    intro i
    have h1 := hcx i; have h2 := hcy i; have h3 := hXn i; have h4 := hYn i
    simp only [opOr, constructExact, Nat.testBit_and, Nat.testBit_or]
    revert h1 h2 h3 h4
    cases X.zeroBits.testBit i <;> cases X.oneBits.testBit i <;>
      cases Y.zeroBits.testBit i <;> cases Y.oneBits.testBit i <;>
      cases x.testBit i <;> cases y.testBit i <;> simp
  · rw [consistentWith_iff]
    intro i
    have h1 := hcx i; have h2 := hcy i; have h3 := hXn i; have h4 := hYn i
    simp only [opXor, constructExact, Nat.testBit_and, Nat.testBit_or, Nat.testBit_xor]
    revert h1 h2 h3 h4
    cases X.zeroBits.testBit i <;> cases X.oneBits.testBit i <;>
      cases Y.zeroBits.testBit i <;> cases Y.oneBits.testBit i <;>
      cases x.testBit i <;> cases y.testBit i <;> simp
  · -- the comparison
    have hzero : (X.zeroBits &&& Y.oneBits ≠ 0 ∨ X.oneBits &&& Y.zeroBits ≠ 0) → x ≠ y := by
      intro h hxy
      subst hxy
      rcases h with h | h
      · obtain ⟨i, hi⟩ := Nat.ne_zero_implies_bit_true h
        have h1 := hcx i; have h2 := hcy i; have h3 := hXn i; have h4 := hYn i
        rw [Nat.testBit_and] at hi
        revert h1 h2 h3 h4 hi
        cases X.zeroBits.testBit i <;> cases X.oneBits.testBit i <;>
          cases Y.zeroBits.testBit i <;> cases Y.oneBits.testBit i <;>
          cases x.testBit i <;> simp
      · obtain ⟨i, hi⟩ := Nat.ne_zero_implies_bit_true h
        have h1 := hcx i; have h2 := hcy i; have h3 := hXn i; have h4 := hYn i
        rw [Nat.testBit_and] at hi
        revert h1 h2 h3 h4 hi
        cases X.zeroBits.testBit i <;> cases X.oneBits.testBit i <;>
          cases Y.zeroBits.testBit i <;> cases Y.oneBits.testBit i <;>
          cases x.testBit i <;> simp
    have hone : (X.zeroBits &&& Y.zeroBits) ||| (X.oneBits &&& Y.oneBits) = bitMask w X.size
        → x = y := by
      intro h
      rw [eq_iff_testBit] at h
      apply Nat.eq_of_testBit_eq
      intro i
      by_cases hi : i < s
      · have h0 := h i
        have h1 := hcx i; have h2 := hcy i; have h3 := hXn i; have h4 := hYn i
        have hd : decide (i < X.size ∧ i < w) = true := by
          rw [hXs]; simp only [decide_eq_true_eq]; omega
        rw [testBit_bitMask, hd, Nat.testBit_or, Nat.testBit_and, Nat.testBit_and] at h0
        revert h0 h1 h2 h3 h4
        cases X.zeroBits.testBit i <;> cases X.oneBits.testBit i <;>
          cases Y.zeroBits.testBit i <;> cases Y.oneBits.testBit i <;>
          cases x.testBit i <;> cases y.testBit i <;> simp
      · rw [lt_two_pow_testBit hx (by omega), lt_two_pow_testBit hy (by omega)]
    unfold ArchAbstractValue.opEq constructExact
    by_cases hz : X.zeroBits &&& Y.oneBits ≠ 0 ∨ X.oneBits &&& Y.zeroBits ≠ 0
    · have hne := hzero hz
      rw [if_pos hz, if_neg hne]
      split_ifs <;> decide
    · rw [if_neg hz]
      by_cases ho : (X.zeroBits &&& Y.zeroBits) ||| (X.oneBits &&& Y.oneBits)
          = bitMask w X.size
      · rw [if_pos ho, if_pos (hone ho)]
        decide
      · rw [if_neg ho]
        split_ifs <;> decide

/-- Witness of C15: 8-bit values, `X` with a concrete high nibble and an unknown low one,
`Y` concrete. -/
theorem C15_ternary_operators_sound_witness :
    8 ≤ 128 ∧ 0xA5 < 2 ^ 8 ∧ 0x3C < 2 ^ 8 ∧
    isNondeterministic ⟨8, 0x50, 0xA0⟩ = false ∧ isNondeterministic ⟨8, 0xC3, 0x3C⟩ = false ∧
    consistentWith 0xA5 ⟨8, 0x50, 0xA0⟩ ∧ consistentWith 0x3C ⟨8, 0xC3, 0x3C⟩ ∧
    consistentWith (0xA5 &&& 0x3C) (opAnd ⟨8, 0x50, 0xA0⟩ ⟨8, 0xC3, 0x3C⟩) :=
  ⟨by decide, by decide, by decide, by decide, by decide, by decide, by decide,
    (C15_ternary_operators_sound 128 8 0xA5 0x3C ⟨8, 0x50, 0xA0⟩ ⟨8, 0xC3, 0x3C⟩
      (by decide) (by decide) (by decide) rfl rfl (by decide) (by decide) (by decide)
      (by decide)).1.1⟩


/-- The zero mask of `a == b` is set iff some position is concrete in both operands with
different bits. -/
theorem opEq_zero_flag {a b : ArchAbstractValue} (hna : isNondeterministic a = false)
    (hnb : isNondeterministic b = false) :
    (a.zeroBits &&& b.oneBits ≠ 0 ∨ a.oneBits &&& b.zeroBits ≠ 0) ↔
      ∃ i, a.zeroBits.testBit i ≠ a.oneBits.testBit i ∧
        b.zeroBits.testBit i ≠ b.oneBits.testBit i ∧
        a.oneBits.testBit i ≠ b.oneBits.testBit i := by
  rw [isNondeterministic_false_iff] at hna hnb
  constructor
  · rintro (h | h)
    · obtain ⟨i, hi⟩ := Nat.ne_zero_implies_bit_true h
      refine ⟨i, ?_⟩
      have h3 := hna i; have h4 := hnb i
      rw [Nat.testBit_and] at hi
      revert h3 h4 hi
      cases a.zeroBits.testBit i <;> cases a.oneBits.testBit i <;>
        cases b.zeroBits.testBit i <;> cases b.oneBits.testBit i <;> simp
    · obtain ⟨i, hi⟩ := Nat.ne_zero_implies_bit_true h
      refine ⟨i, ?_⟩
      have h3 := hna i; have h4 := hnb i
      rw [Nat.testBit_and] at hi
      revert h3 h4 hi
      cases a.zeroBits.testBit i <;> cases a.oneBits.testBit i <;>
        cases b.zeroBits.testBit i <;> cases b.oneBits.testBit i <;> simp
  · rintro ⟨i, h1, h2, h3⟩
    by_cases hb1 : b.oneBits.testBit i = true
    · left
      intro hc
      have := congrArg (fun v => v.testBit i) hc
      simp only [Nat.testBit_and, Nat.zero_testBit] at this
      revert h1 h2 h3 hb1 this
      cases a.zeroBits.testBit i <;> cases a.oneBits.testBit i <;>
        cases b.zeroBits.testBit i <;> cases b.oneBits.testBit i <;> simp
    · right
      intro hc
      have := congrArg (fun v => v.testBit i) hc
      simp only [Nat.testBit_and, Nat.zero_testBit] at this
      revert h1 h2 h3 hb1 this
      cases a.zeroBits.testBit i <;> cases a.oneBits.testBit i <;>
        cases b.zeroBits.testBit i <;> cases b.oneBits.testBit i <;> simp

/-- The one mask of `a == b` is set iff every position below the size is concrete in both
operands with equal bits. -/
theorem opEq_one_flag {w : Nat} {a b : ArchAbstractValue} (hs : a.size ≤ w)
    (hta : truncated w a)
    (hna : isNondeterministic a = false) (hnb : isNondeterministic b = false) :
    (a.zeroBits &&& b.zeroBits) ||| (a.oneBits &&& b.oneBits) = bitMask w a.size ↔
      ∀ i, i < a.size → a.zeroBits.testBit i ≠ a.oneBits.testBit i ∧
        b.zeroBits.testBit i ≠ b.oneBits.testBit i ∧
        a.oneBits.testBit i = b.oneBits.testBit i := by
  rw [isNondeterministic_false_iff] at hna hnb
  rw [truncated_iff] at hta
  rw [eq_iff_testBit]
  constructor
  · intro h i hi
    have h0 := h i
    have h3 := hna i; have h4 := hnb i
    have hd : decide (i < a.size ∧ i < w) = true := by
      simp only [decide_eq_true_eq]; omega
    rw [testBit_bitMask, hd, Nat.testBit_or, Nat.testBit_and, Nat.testBit_and] at h0
    revert h0 h3 h4
    cases a.zeroBits.testBit i <;> cases a.oneBits.testBit i <;>
      cases b.zeroBits.testBit i <;> cases b.oneBits.testBit i <;> simp
  · intro h i
    rw [testBit_bitMask, Nat.testBit_or, Nat.testBit_and, Nat.testBit_and]
    have h3 := hna i; have h4 := hnb i
    by_cases hi : i < a.size
    · have hd : decide (i < a.size ∧ i < w) = true := by
        simp only [decide_eq_true_eq]; omega
      have h0 := h i hi
      rw [hd]
      revert h0 h3 h4
      cases a.zeroBits.testBit i <;> cases a.oneBits.testBit i <;>
        cases b.zeroBits.testBit i <;> cases b.oneBits.testBit i <;> simp
    · have hd : decide (i < a.size ∧ i < w) = false := by
        simp only [decide_eq_false_iff_not]; omega
      have ha := hta i
      rw [hd]
      revert ha
      cases a.zeroBits.testBit i <;> cases a.oneBits.testBit i <;> simp <;> omega

/-- C16: for all abstract `a`, `b` of equal size (within the width of the masks) with
truncated masks and no position having both bits set, `a == b` is a value of size 1 that
is concrete-0 iff some position is concrete in both with different bits, concrete-1 iff
every position in `[0, size)` is concrete in both with equal bits, and unknown (neither
mask bit set) in every other case. -/
theorem C16_equality_result (w : Nat) (a b : ArchAbstractValue) (hs : a.size ≤ w)
    (_hsz : a.size = b.size) (hta : truncated w a) (_htb : truncated w b)
    (hna : isNondeterministic a = false) (hnb : isNondeterministic b = false) :
    (ArchAbstractValue.opEq w a b).size = 1 ∧
    (((ArchAbstractValue.opEq w a b).zeroBits = 1 ∧ (ArchAbstractValue.opEq w a b).oneBits = 0)
      ↔ ∃ i, a.zeroBits.testBit i ≠ a.oneBits.testBit i ∧
          b.zeroBits.testBit i ≠ b.oneBits.testBit i ∧
          a.oneBits.testBit i ≠ b.oneBits.testBit i) ∧
    (((ArchAbstractValue.opEq w a b).zeroBits = 0 ∧ (ArchAbstractValue.opEq w a b).oneBits = 1)
      ↔ ∀ i, i < a.size → a.zeroBits.testBit i ≠ a.oneBits.testBit i ∧
          b.zeroBits.testBit i ≠ b.oneBits.testBit i ∧
          a.oneBits.testBit i = b.oneBits.testBit i) ∧
    ((¬ ∃ i, a.zeroBits.testBit i ≠ a.oneBits.testBit i ∧
          b.zeroBits.testBit i ≠ b.oneBits.testBit i ∧
          a.oneBits.testBit i ≠ b.oneBits.testBit i) →
      (¬ ∀ i, i < a.size → a.zeroBits.testBit i ≠ a.oneBits.testBit i ∧
          b.zeroBits.testBit i ≠ b.oneBits.testBit i ∧
          a.oneBits.testBit i = b.oneBits.testBit i) →
      (ArchAbstractValue.opEq w a b).zeroBits = 0 ∧
        (ArchAbstractValue.opEq w a b).oneBits = 0) := by
  have hz := opEq_zero_flag hna hnb
  have ho := opEq_one_flag hs hta hna hnb
  have hexcl : (∃ i, a.zeroBits.testBit i ≠ a.oneBits.testBit i ∧
          b.zeroBits.testBit i ≠ b.oneBits.testBit i ∧
          a.oneBits.testBit i ≠ b.oneBits.testBit i) →
      ¬ ∀ i, i < a.size → a.zeroBits.testBit i ≠ a.oneBits.testBit i ∧
          b.zeroBits.testBit i ≠ b.oneBits.testBit i ∧
          a.oneBits.testBit i = b.oneBits.testBit i := by
    rintro ⟨i, h1, h2, h3⟩ hall
    have hi : i < a.size := by
      have ha := (truncated_iff w a).mp hta i
      revert h1 ha
      cases a.zeroBits.testBit i <;> cases a.oneBits.testBit i <;> simp <;> omega
    exact h3 (hall i hi).2.2
  unfold ArchAbstractValue.opEq constructExact
  simp only
  rw [← hz, ← ho] at *
  by_cases h1 : a.zeroBits &&& b.oneBits ≠ 0 ∨ a.oneBits &&& b.zeroBits ≠ 0
  · have h2 := hexcl h1
    simp [h1, h2]
  · by_cases h2 : (a.zeroBits &&& b.zeroBits) ||| (a.oneBits &&& b.oneBits)
        = bitMask w a.size
    · simp [h1, h2]
    · simp [h1, h2]

/-- Witness of C16: two 4-bit values that differ in a concrete bit. -/
theorem C16_equality_result_witness :
    4 ≤ 128 ∧ truncated 128 ⟨4, 0x5, 0xA⟩ ∧ truncated 128 ⟨4, 0x6, 0x8⟩ ∧
    isNondeterministic ⟨4, 0x5, 0xA⟩ = false ∧ isNondeterministic ⟨4, 0x6, 0x8⟩ = false ∧
    (ArchAbstractValue.opEq 128 ⟨4, 0x5, 0xA⟩ ⟨4, 0x6, 0x8⟩).size = 1 :=
  ⟨by decide, by decide, by decide, by decide, by decide,
    (C16_equality_result 128 ⟨4, 0x5, 0xA⟩ ⟨4, 0x6, 0x8⟩ (by decide) rfl (by decide)
      (by decide) (by decide) (by decide)).1⟩


/-- The mask of the `n` low bits, for `n` within the width of the masks. -/
theorem bitMask_of_le {w n : Nat} (h : n ≤ w) : bitMask w n = 2 ^ n - 1 := by
  unfold bitMask; rw [Nat.min_eq_left h]

/-- The shift by an amount that is not concrete builds the value whose two masks are
the mask of the size. -/
theorem construct_all_ones (w s : Nat) :
    construct w s (2 ^ w - 1) (2 ^ w - 1) = ⟨s, bitMask w s, bitMask w s⟩ := by
  have h : bitTruncate w (2 ^ w - 1) s = bitMask w s := by
    apply Nat.eq_of_testBit_eq
    intro i
    unfold bitTruncate
    rw [Nat.testBit_and, testBit_bitMask, Nat.testBit_two_pow_sub_one]
    by_cases h1 : i < w <;> by_cases h2 : i < s <;> simp [h1, h2]
  simp only [construct, h]

/-- The mask of a positive size in a word of positive width is not zero. -/
theorem bitMask_ne_zero {w s : Nat} (hw : 0 < w) (hs : 0 < s) : bitMask w s ≠ 0 := by
  intro h
  have := congrArg (fun v => v.testBit 0) h
  simp only [testBit_bitMask, Nat.zero_testBit, decide_eq_false_iff_not] at this
  exact this ⟨hs, hw⟩

/-- Counterexample of C17 as stated: with an 8-bit shift amount whose four high bits
are not resolved (so it is not concrete), the shifts of an 8-bit value have both masks
equal to `0xFF`, and the result is nondeterministic. -/
theorem C17_unknown_shift_counterexample :
    isConcrete 128 ⟨8, 0x0E, 0x01⟩ = false ∧
    opShl 128 ⟨8, 0x0F, 0xF0⟩ ⟨8, 0x0E, 0x01⟩ = ⟨8, 0xFF, 0xFF⟩ ∧
    opShr 128 ⟨8, 0x0F, 0xF0⟩ ⟨8, 0x0E, 0x01⟩ = ⟨8, 0xFF, 0xFF⟩ ∧
    (opShl 128 ⟨8, 0x0F, 0xF0⟩ ⟨8, 0x0E, 0x01⟩).zeroBits ≠ 0 ∧
    (opShl 128 ⟨8, 0x0F, 0xF0⟩ ⟨8, 0x0E, 0x01⟩).oneBits ≠ 0 ∧
    isNondeterministic (opShl 128 ⟨8, 0x0F, 0xF0⟩ ⟨8, 0x0E, 0x01⟩) = true ∧
    isNondeterministic (opShr 128 ⟨8, 0x0F, 0xF0⟩ ⟨8, 0x0E, 0x01⟩) = true := by
  decide

/-- C17 (amended): for every abstract `a` and every shift amount `b` that is not
concrete, in a word of positive width, `a << b` and `a >> b` are the value of size
`a.size()` whose zero mask and one mask both have every bit of `[0, size)` set; that
result is not concrete, and it is nondeterministic iff the size is positive. -/
theorem C17_unknown_shift_sets_both_masks (w : Nat) (a b : ArchAbstractValue)
    (hw : 0 < w) (hb : isConcrete w b = false) :
    opShl w a b = ⟨a.size, bitMask w a.size, bitMask w a.size⟩ ∧
    opShr w a b = ⟨a.size, bitMask w a.size, bitMask w a.size⟩ ∧
    (opShl w a b).size = a.size ∧ (opShr w a b).size = a.size ∧
    isConcrete w (opShl w a b) = false ∧ isConcrete w (opShr w a b) = false ∧
    (isNondeterministic (opShl w a b) = true ↔ 0 < a.size) ∧
    (isNondeterministic (opShr w a b) = true ↔ 0 < a.size) := by
  have hl : opShl w a b = ⟨a.size, bitMask w a.size, bitMask w a.size⟩ := by
    unfold opShl; rw [if_neg (by simp [hb])]; exact construct_all_ones w a.size
  have hr : opShr w a b = ⟨a.size, bitMask w a.size, bitMask w a.size⟩ := by
    unfold opShr; rw [if_neg (by simp [hb])]; exact construct_all_ones w a.size
  have hc : isConcrete w ⟨a.size, bitMask w a.size, bitMask w a.size⟩ = false := by
    unfold isConcrete
    by_cases hs : 0 < a.size
    · have := bitMask_ne_zero hw hs
      simp [Nat.xor_self, Ne.symm this]
    · simp [hs]
  have hn : isNondeterministic ⟨a.size, bitMask w a.size, bitMask w a.size⟩ = true
      ↔ 0 < a.size := by
    unfold isNondeterministic
    simp only [Nat.and_self, decide_eq_true_eq]
    constructor
    · intro h
      by_contra h0
      have : a.size = 0 := by omega
      apply h
      rw [this]; simp [bitMask]
    · exact bitMask_ne_zero hw
  rw [hl, hr]
  exact ⟨rfl, rfl, rfl, rfl, hc, hc, hn, hn⟩

/-- Witness of C17 (amended): an 8-bit value shifted by an amount that is not concrete. -/
theorem C17_unknown_shift_sets_both_masks_witness :
    0 < 128 ∧ isConcrete 128 ⟨8, 0x0E, 0x01⟩ = false ∧
    opShl 128 ⟨8, 0x0F, 0xF0⟩ ⟨8, 0x0E, 0x01⟩ = ⟨8, bitMask 128 8, bitMask 128 8⟩ :=
  ⟨by decide, by decide,
    (C17_unknown_shift_sets_both_masks 128 ⟨8, 0x0F, 0xF0⟩ ⟨8, 0x0E, 0x01⟩ (by decide)
      (by decide)).1⟩


/-- Bits of the truncation of a word. -/
theorem testBit_bitTruncate (w x n i : Nat) :
    (bitTruncate w x n).testBit i = (x.testBit i && decide (i < n ∧ i < w)) := by
  unfold bitTruncate; rw [Nat.testBit_and, testBit_bitMask]

/-- Bits of the zero-filling left shift of a word. -/
theorem testBit_shiftLeft_word (w x n i : Nat) :
    (shiftLeft w x n).testBit i = (decide (i < w) && decide (n ≤ i) && x.testBit (i - n)) := by
  unfold shiftLeft
  split_ifs with h
  · rw [Nat.testBit_mod_two_pow, Nat.testBit_shiftLeft]
    simp only [ge_iff_le, Bool.and_assoc]
  · rw [Nat.zero_testBit]
    by_cases h1 : i < w
    · have h2 : ¬ n ≤ i := by omega
      simp [h2]
    · simp [h1]

/-- Bits of the zero-filling right shift of a word. -/
theorem testBit_shiftRight_word (w x n i : Nat) :
    (shiftRight w x n).testBit i = (decide (n < w) && x.testBit (n + i)) := by
  unfold shiftRight
  split_ifs with h
  · rw [Nat.testBit_shiftRight]; simp [h]
  · simp [h]

/-- The masks of a concrete value whose one mask is a value of its size: below the
size the zero mask is the complement of the one mask, and it has no bit above. -/
theorem concrete_zeroBits_testBit {w : Nat} {a : ArchAbstractValue} (hs : a.size ≤ w)
    (hc : isConcrete w a = true) (hv : a.oneBits < 2 ^ a.size) (i : Nat) :
    a.zeroBits.testBit i = (decide (i < a.size) && !a.oneBits.testBit i) := by
  unfold isConcrete at hc
  simp only [Bool.and_eq_true, decide_eq_true_eq] at hc
  have h := congrArg (fun v => v.testBit i) hc.2
  simp only [Nat.testBit_xor, testBit_bitMask] at h
  by_cases hi : i < a.size
  · have hd : decide (i < a.size ∧ i < w) = true := by
      simp only [decide_eq_true_eq]; omega
    rw [hd] at h
    revert h
    cases a.zeroBits.testBit i <;> cases a.oneBits.testBit i <;> simp [hi]
  · have hd : decide (i < a.size ∧ i < w) = false := by
      simp only [decide_eq_false_iff_not]; omega
    have ho : a.oneBits.testBit i = false :=
      testBit_false_of_lt hv (by omega)
    rw [hd, ho] at h
    revert h
    cases a.zeroBits.testBit i <;> simp [hi]

/-- Concreteness, bit by bit. -/
theorem isConcrete_iff_testBit (w : Nat) (a : ArchAbstractValue) :
    isConcrete w a = true ↔
      0 < a.size ∧ ∀ i, (a.zeroBits.testBit i ^^ a.oneBits.testBit i)
        = decide (i < a.size ∧ i < w) := by
  unfold isConcrete
  simp only [Bool.and_eq_true, decide_eq_true_eq, gt_iff_lt]
  rw [eq_iff_testBit]
  simp only [Nat.testBit_xor, testBit_bitMask]

/-- The left shift of a concrete value by a concrete amount within the size. -/
theorem opShl_concrete_spec {w s v n : Nat} {a b : ArchAbstractValue} (hs : s ≤ w)
    (has : a.size = s) (hac : isConcrete w a = true) (hav : a.oneBits = v) (hv : v < 2 ^ s)
    (hbc : isConcrete w b = true) (hbn : b.oneBits = n) :
    (opShl w a b).size = s ∧ isConcrete w (opShl w a b) = true ∧
    (opShl w a b).oneBits = (v * 2 ^ n) % 2 ^ s ∧
    ∀ i, i < n → i < s →
      (opShl w a b).zeroBits.testBit i = true ∧ (opShl w a b).oneBits.testBit i = false := by
  subst has hav hbn
  have hz := concrete_zeroBits_testBit hs hac hv
  have hpos : 0 < a.size := ((isConcrete_iff_testBit w a).mp hac).1
  have hsh : opShl w a b = construct w a.size
      (shiftLeft w a.zeroBits b.oneBits ||| bitMask w b.oneBits)
      (shiftLeft w a.oneBits b.oneBits) := by
    unfold opShl; rw [if_pos hbc]
  have hzb : ∀ i, (opShl w a b).zeroBits.testBit i
      = (decide (i < a.size) && (decide (i < b.oneBits) || !a.oneBits.testBit (i - b.oneBits))) := by
    intro i
    rw [hsh]
    simp only [construct, testBit_bitTruncate, Nat.testBit_or, testBit_shiftLeft_word,
      testBit_bitMask, hz]
    by_cases h1 : i < a.size
    · have h2 : i < w := by omega
      have h3 : i - b.oneBits < a.size := by omega
      by_cases h4 : i < b.oneBits
      · have h5 : ¬ b.oneBits ≤ i := by omega
        simp [h1, h2, h4, h5]
      · have h5 : b.oneBits ≤ i := by omega
        simp [h1, h2, h3, h4, h5]
    · simp [h1]
  have hob : ∀ i, (opShl w a b).oneBits.testBit i
      = (decide (i < a.size) && (!decide (i < b.oneBits) && a.oneBits.testBit (i - b.oneBits))) := by
    intro i
    rw [hsh]
    simp only [construct, testBit_bitTruncate, testBit_shiftLeft_word]
    by_cases h1 : i < a.size
    · have h2 : i < w := by omega
      by_cases h4 : i < b.oneBits
      · have h5 : ¬ b.oneBits ≤ i := by omega
        simp [h1, h2, h4, h5]
      · have h5 : b.oneBits ≤ i := by omega
        simp [h1, h2, h4, h5]
    · simp [h1]
  refine ⟨by rw [hsh]; rfl, ?_, ?_, ?_⟩
  · rw [isConcrete_iff_testBit]
    refine ⟨by rw [hsh]; exact hpos, ?_⟩
    intro i
    rw [hzb, hob]
    have hsz : (opShl w a b).size = a.size := by rw [hsh]; rfl
    rw [hsz]
    by_cases h1 : i < a.size
    · have h2 : i < w := by omega
      by_cases h4 : i < b.oneBits
      · simp [h1, h2, h4]
      · cases a.oneBits.testBit (i - b.oneBits) <;> simp [h1, h2, h4]
    · simp [h1]
  · apply Nat.eq_of_testBit_eq
    intro i
    rw [hob, Nat.testBit_mod_two_pow, ← Nat.shiftLeft_eq, Nat.testBit_shiftLeft]
    by_cases h4 : i < b.oneBits
    · have h5 : ¬ b.oneBits ≤ i := by omega
      simp [h4, h5]
    · have h5 : b.oneBits ≤ i := by omega
      simp [h4, h5]
  · intro i hi h1
    rw [hzb, hob]
    simp [hi, h1]


/-- The right shift of a concrete value by a concrete amount within the size. -/
theorem opShr_concrete_spec {w s v n : Nat} {a b : ArchAbstractValue} (hs : s ≤ w)
    (has : a.size = s) (hac : isConcrete w a = true) (hav : a.oneBits = v) (hv : v < 2 ^ s)
    (hbc : isConcrete w b = true) (hbn : b.oneBits = n) (hn : n ≤ s) :
    (opShr w a b).size = s ∧ isConcrete w (opShr w a b) = true ∧
    (opShr w a b).oneBits = v / 2 ^ n ∧
    ∀ i, s - n ≤ i → i < s →
      (opShr w a b).zeroBits.testBit i = true ∧ (opShr w a b).oneBits.testBit i = false := by
  subst has hav hbn
  have hz := concrete_zeroBits_testBit hs hac hv
  have hpos : 0 < a.size := ((isConcrete_iff_testBit w a).mp hac).1
  have hsh : opShr w a b = construct w a.size
      (shiftRight w a.zeroBits b.oneBits
        ||| shiftLeft w (bitMask w b.oneBits) (a.size - b.oneBits))
      (shiftRight w a.oneBits b.oneBits) := by
    unfold opShr; rw [if_pos hbc]
  have hhigh : ∀ i, a.size ≤ b.oneBits + i → a.oneBits.testBit (b.oneBits + i) = false :=
    fun i hi => testBit_false_of_lt hv hi
  have hzb : ∀ i, (opShr w a b).zeroBits.testBit i
      = (decide (i < a.size) && !a.oneBits.testBit (b.oneBits + i)) := by
    intro i
    rw [hsh]
    simp only [construct, testBit_bitTruncate, Nat.testBit_or, testBit_shiftLeft_word,
      testBit_shiftRight_word, testBit_bitMask, hz]
    by_cases h1 : i < a.size
    · have h2 : i < w := by omega
      by_cases h4 : b.oneBits + i < a.size
      · have h5 : b.oneBits < w := by omega
        have h6 : ¬ a.size - b.oneBits ≤ i := by omega
        simp [h1, h2, h4, h5, h6]
      · have h6 : a.size - b.oneBits ≤ i := by omega
        have h7 : i - (a.size - b.oneBits) < b.oneBits := by omega
        have h8 : i - (a.size - b.oneBits) < w := by omega
        have h9 := hhigh i (by omega)
        simp [h1, h2, h4, h6, h7, h8, h9]
    · simp [h1]
  have hob : ∀ i, (opShr w a b).oneBits.testBit i = a.oneBits.testBit (b.oneBits + i) := by
    intro i
    rw [hsh]
    simp only [construct, testBit_bitTruncate, testBit_shiftRight_word]
    by_cases h4 : b.oneBits + i < a.size
    · have h1 : i < a.size := by omega
      have h2 : i < w := by omega
      have h5 : b.oneBits < w := by omega
      simp [h1, h2, h5]
    · have h9 := hhigh i (by omega)
      simp [h9]
  have hsz : (opShr w a b).size = a.size := by rw [hsh]; rfl
  refine ⟨hsz, ?_, ?_, ?_⟩
  · rw [isConcrete_iff_testBit]
    refine ⟨by rw [hsz]; exact hpos, ?_⟩
    intro i
    rw [hzb, hob, hsz]
    by_cases h1 : i < a.size
    · have h2 : i < w := by omega
      cases a.oneBits.testBit (b.oneBits + i) <;> simp [h1, h2]
    · have h9 := hhigh i (by omega)
      simp [h1, h9]
  · apply Nat.eq_of_testBit_eq
    intro i
    rw [hob, ← Nat.shiftRight_eq_div_pow, Nat.testBit_shiftRight]
  · intro i hi h1
    rw [hzb, hob]
    have h9 := hhigh i (by omega)
    simp [h1, h9]

/-- C18: for every concrete abstract `a` of size `s` (within the width of the masks)
whose value `v` is an `s`-bit value, and every concrete shift amount `b` with value `n`
where `n <= s`: `a << b` is concrete of size `s` with value `(v * 2^n) mod 2^s` and its
low `n` bits are concrete-0, and `a >> b` is concrete of size `s` with value
`floor(v / 2^n)` and its high `n` bits are concrete-0. -/
theorem C18_concrete_shift (w s v n : Nat) (a b : ArchAbstractValue) (hs : s ≤ w)
    (has : a.size = s) (hac : isConcrete w a = true) (hav : a.oneBits = v) (hv : v < 2 ^ s)
    (hbc : isConcrete w b = true) (hbn : b.oneBits = n) (hn : n ≤ s) :
    (isConcrete w (opShl w a b) = true ∧
      asConcrete w (opShl w a b) = some ⟨s, (v * 2 ^ n) % 2 ^ s⟩ ∧
      ∀ i, i < n → (opShl w a b).zeroBits.testBit i = true ∧
        (opShl w a b).oneBits.testBit i = false) ∧
    (isConcrete w (opShr w a b) = true ∧
      asConcrete w (opShr w a b) = some ⟨s, v / 2 ^ n⟩ ∧
      ∀ i, s - n ≤ i → i < s → (opShr w a b).zeroBits.testBit i = true ∧
        (opShr w a b).oneBits.testBit i = false) := by
  obtain ⟨l1, l2, l3, l4⟩ := opShl_concrete_spec hs has hac hav hv hbc hbn
  obtain ⟨r1, r2, r3, r4⟩ := opShr_concrete_spec hs has hac hav hv hbc hbn hn
  refine ⟨⟨l2, ?_, fun i hi => l4 i hi (by omega)⟩, r2, ?_, r4⟩
  · unfold asConcrete; rw [if_pos l2, l1, l3]
  · unfold asConcrete; rw [if_pos r2, r1, r3]

/-- Witness of C18: the 8-bit value `0xB5` shifted by the concrete 8-bit amount 3. -/
theorem C18_concrete_shift_witness :
    8 ≤ 128 ∧ isConcrete 128 ⟨8, 0x4A, 0xB5⟩ = true ∧ 0xB5 < 2 ^ 8 ∧
    isConcrete 128 ⟨8, 0xFC, 0x03⟩ = true ∧ 3 ≤ 8 ∧
    asConcrete 128 (opShl 128 ⟨8, 0x4A, 0xB5⟩ ⟨8, 0xFC, 0x03⟩) = some ⟨8, 0xA8⟩ ∧
    asConcrete 128 (opShr 128 ⟨8, 0x4A, 0xB5⟩ ⟨8, 0xFC, 0x03⟩) = some ⟨8, 0x16⟩ :=
  ⟨by decide, by decide, by decide, by decide, by decide,
    (C18_concrete_shift 128 8 0xB5 3 ⟨8, 0x4A, 0xB5⟩ ⟨8, 0xFC, 0x03⟩ (by decide) rfl
      (by decide) rfl (by decide) (by decide) rfl (by decide)).1.2.1,
    (C18_concrete_shift 128 8 0xB5 3 ⟨8, 0x4A, 0xB5⟩ ⟨8, 0xFC, 0x03⟩ (by decide) rfl
      (by decide) rfl (by decide) (by decide) rfl (by decide)).2.2.1⟩


/-- A value with truncated masks is concrete iff its size is positive and every
position below the size has exactly one of its two bits set. -/
theorem isConcrete_iff_resolved {w : Nat} {X : ArchAbstractValue} (hX : X.size ≤ w)
    (ht : truncated w X) :
    isConcrete w X = true ↔
      0 < X.size ∧ ∀ i, i < X.size → X.zeroBits.testBit i ≠ X.oneBits.testBit i := by
  rw [isConcrete_iff_testBit]
  rw [truncated_iff] at ht
  constructor
  · rintro ⟨h0, h⟩
    refine ⟨h0, fun i hi => ?_⟩
    have hd : decide (i < X.size ∧ i < w) = true := by
      simp only [decide_eq_true_eq]; omega
    have h1 := h i
    rw [hd] at h1
    revert h1
    cases X.zeroBits.testBit i <;> cases X.oneBits.testBit i <;> simp
  · rintro ⟨h0, h⟩
    refine ⟨h0, fun i => ?_⟩
    by_cases hi : i < X.size
    · have hd : decide (i < X.size ∧ i < w) = true := by
        simp only [decide_eq_true_eq]; omega
      have h1 := h i hi
      rw [hd]
      revert h1
      cases X.zeroBits.testBit i <;> cases X.oneBits.testBit i <;> simp
    · have hd : decide (i < X.size ∧ i < w) = false := by
        simp only [decide_eq_false_iff_not]; omega
      have h1 := ht i
      rw [hd]
      revert h1
      cases X.zeroBits.testBit i <;> cases X.oneBits.testBit i <;> simp <;> omega

/-- The one mask of a value with truncated masks is a value of its size. -/
theorem oneBits_lt_of_truncated {w : Nat} {X : ArchAbstractValue} (ht : truncated w X) :
    X.oneBits < 2 ^ X.size := by
  rw [truncated_iff] at ht
  apply Nat.lt_pow_two_of_testBit
  intro i hi
  by_contra h
  have := ((ht i).2 (by simpa using h)).1
  omega

/-- C19: for every abstract `X` with truncated masks (of a size within the width of the
masks): `isConcrete(X)` holds iff the size is positive and every position in `[0, size)`
has exactly one of its zero-bit and one-bit set; in that case `asConcrete(X)` is defined,
has size `X.size()`, and its value, the one mask of `X`, is the unique `size`-bit value
consistent with the masks of `X`.  Conversely, for every `s > 0` (within the width) and
`v < 2^s`, the abstract value constructed from the sized value `(s, v)` is concrete, is
not nondeterministic, and `asConcrete` returns `(s, v)`. -/
theorem C19_concrete_values (w s v : Nat) (X : ArchAbstractValue) (hX : X.size ≤ w)
    (ht : truncated w X) (hs0 : 0 < s) (hs : s ≤ w) (hv : v < 2 ^ s) :
    (isConcrete w X = true ↔
      0 < X.size ∧ ∀ i, i < X.size → X.zeroBits.testBit i ≠ X.oneBits.testBit i) ∧
    (isConcrete w X = true →
      asConcrete w X = some ⟨X.size, X.oneBits⟩ ∧ X.oneBits < 2 ^ X.size ∧
      consistentWith X.oneBits X ∧
      ∀ x, x < 2 ^ X.size → consistentWith x X → x = X.oneBits) ∧
    (isConcrete w (ofSizedValue w ⟨s, v⟩) = true ∧
      isNondeterministic (ofSizedValue w ⟨s, v⟩) = false ∧
      asConcrete w (ofSizedValue w ⟨s, v⟩) = some ⟨s, v⟩) := by
  refine ⟨isConcrete_iff_resolved hX ht, ?_, ?_⟩
  · intro hc
    have hlt := oneBits_lt_of_truncated ht
    have hres := ((isConcrete_iff_resolved hX ht).mp hc).2
    refine ⟨by unfold asConcrete; rw [if_pos hc], hlt, ?_, ?_⟩
    · rw [consistentWith_iff]
      intro i
      cases X.zeroBits.testBit i <;> cases X.oneBits.testBit i <;> simp
    · intro x hx hcx
      rw [consistentWith_iff] at hcx
      apply Nat.eq_of_testBit_eq
      intro i
      by_cases hi : i < X.size
      · have h1 := hres i hi
        have h2 := hcx i
        revert h1 h2
        cases X.zeroBits.testBit i <;> cases X.oneBits.testBit i <;>
          cases x.testBit i <;> simp
      · rw [testBit_false_of_lt hx (by omega), testBit_false_of_lt hlt (by omega)]
  · have hc : isConcrete w (ofSizedValue w ⟨s, v⟩) = true := by
      rw [isConcrete_iff_testBit]
      refine ⟨hs0, fun i => ?_⟩
      simp only [ofSizedValue, Nat.testBit_xor, testBit_bitMask]
      cases v.testBit i <;> simp
    refine ⟨hc, ?_, by unfold asConcrete; rw [if_pos hc]; rfl⟩
    rw [isNondeterministic_false_iff]
    intro i
    simp only [ofSizedValue, Nat.testBit_xor, testBit_bitMask]
    by_cases hi : i < s
    · have hd : decide (i < s ∧ i < w) = true := by
        simp only [decide_eq_true_eq]; omega
      rw [hd]
      cases v.testBit i <;> simp
    · rw [testBit_false_of_lt hv (by omega)]
      simp

/-- Witness of C19: the concrete 8-bit value `0xB5`. -/
theorem C19_concrete_values_witness :
    8 ≤ 128 ∧ truncated 128 ⟨8, 0x4A, 0xB5⟩ ∧ 0 < 8 ∧ 0xB5 < 2 ^ 8 ∧
    isConcrete 128 ⟨8, 0x4A, 0xB5⟩ = true ∧
    asConcrete 128 (ofSizedValue 128 ⟨8, 0xB5⟩) = some ⟨8, 0xB5⟩ :=
  ⟨by decide, by decide, by decide, by decide, by decide,
    (C19_concrete_values 128 8 0xB5 ⟨8, 0x4A, 0xB5⟩ (by decide) (by decide) (by decide)
      (by decide) (by decide)).2.2.2.2⟩


/-- Truncating to `n` bits and then to `m <= n` bits is truncating to `m` bits. -/
theorem bitTruncate_bitTruncate (w x : Nat) {m n : Nat} (h : m ≤ n) :
    bitTruncate w (bitTruncate w x n) m = bitTruncate w x m := by
  apply Nat.eq_of_testBit_eq
  intro i
  simp only [testBit_bitTruncate]
  by_cases h1 : i < m ∧ i < w
  · have h2 : i < n ∧ i < w := ⟨by omega, h1.2⟩
    simp [h1, h2]
  · simp [h1]

/-- Truncating is taking the residue modulo a power of two. -/
theorem bitTruncate_eq_mod (w x n : Nat) : bitTruncate w x n = x % 2 ^ min n w := by
  unfold bitTruncate bitMask
  exact Nat.and_pow_two_sub_one_eq_mod x (min n w)

/-- Truncated masks are not changed by a truncation to at least their size. -/
theorem bitTruncate_of_truncated {w : Nat} {X : ArchAbstractValue} (ht : truncated w X)
    {m : Nat} (h : X.size ≤ m) :
    bitTruncate w X.zeroBits m = X.zeroBits ∧ bitTruncate w X.oneBits m = X.oneBits := by
  rw [truncated_iff] at ht
  constructor
  · apply Nat.eq_of_testBit_eq
    intro i
    rw [testBit_bitTruncate]
    have h1 := (ht i).1
    by_cases hb : X.zeroBits.testBit i = true
    · have := h1 hb
      have hd : decide (i < m ∧ i < w) = true := by
        simp only [decide_eq_true_eq]; omega
      rw [hd, Bool.and_true]
    · simp only [Bool.not_eq_true] at hb
      rw [hb, Bool.false_and]
  · apply Nat.eq_of_testBit_eq
    intro i
    rw [testBit_bitTruncate]
    have h1 := (ht i).2
    by_cases hb : X.oneBits.testBit i = true
    · have := h1 hb
      have hd : decide (i < m ∧ i < w) = true := by
        simp only [decide_eq_true_eq]; omega
      rw [hd, Bool.and_true]
    · simp only [Bool.not_eq_true] at hb
      rw [hb, Bool.false_and]

/-- The member `resize`, for every value: the size, the masks in both cases, and the
composition of two calls when the masks are truncated or the second size is below the
size of the value. -/
theorem resize_spec (w n m : Nat) (X : ArchAbstractValue) :
    (resize w X n).size = n ∧
    (n < X.size →
      (resize w X n).zeroBits = bitTruncate w X.zeroBits n ∧
      (resize w X n).oneBits = bitTruncate w X.oneBits n ∧
      (resize w X n).zeroBits = X.zeroBits % 2 ^ min n w ∧
      (resize w X n).oneBits = X.oneBits % 2 ^ min n w) ∧
    (X.size ≤ n →
      (resize w X n).zeroBits = X.zeroBits ∧ (resize w X n).oneBits = X.oneBits) ∧
    resize w X X.size = X ∧
    (m ≤ n → truncated w X ∨ m < X.size →
      resize w (resize w X n) m = resize w X m) := by
  refine ⟨?_, ?_, ?_, ?_, ?_⟩
  · unfold resize; split_ifs <;> rfl
  · intro h
    unfold resize
    rw [if_pos h]
    exact ⟨rfl, rfl, bitTruncate_eq_mod w _ n, bitTruncate_eq_mod w _ n⟩
  · intro h
    unfold resize
    rw [if_neg (by omega)]
    exact ⟨rfl, rfl⟩
  · unfold resize
    rw [if_neg (lt_irrefl _)]
  · intro hmn hX
    by_cases h1 : n < X.size
    · have h2 : m < X.size := by omega
      have e1 : resize w X n = ⟨n, bitTruncate w X.zeroBits n, bitTruncate w X.oneBits n⟩ := by
        unfold resize; rw [if_pos h1]
      have e2 : resize w X m = ⟨m, bitTruncate w X.zeroBits m, bitTruncate w X.oneBits m⟩ := by
        unfold resize; rw [if_pos h2]
      rw [e1, e2]
      by_cases h3 : m < n
      · unfold resize
        rw [if_pos h3, bitTruncate_bitTruncate w _ hmn, bitTruncate_bitTruncate w _ hmn]
      · have h4 : m = n := by omega
        subst h4
        unfold resize
        rw [if_neg (lt_irrefl _)]
    · have e1 : resize w X n = ⟨n, X.zeroBits, X.oneBits⟩ := by
        unfold resize; rw [if_neg h1]
      rw [e1]
      by_cases h2 : m < X.size
      · have h3 : m < n := by omega
        unfold resize
        rw [if_pos h3, if_pos h2]
      · have ht : truncated w X := by
          rcases hX with h | h
          · exact h
          · exact absurd h h2
        have e2 : resize w X m = ⟨m, X.zeroBits, X.oneBits⟩ := by
          unfold resize; rw [if_neg h2]
        rw [e2]
        by_cases h3 : m < n
        · obtain ⟨t1, t2⟩ := bitTruncate_of_truncated ht (show X.size ≤ m by omega)
          unfold resize
          rw [if_pos h3]
          simp only [t1, t2]
        · unfold resize
          rw [if_neg h3]

/-- Truncating a mask of a value with truncated masks is taking its residue modulo
`2^n`. -/
theorem bitTruncate_eq_mod_of_truncated {w : Nat} {X : ArchAbstractValue}
    (ht : truncated w X) (n : Nat) :
    bitTruncate w X.zeroBits n = X.zeroBits % 2 ^ n ∧
    bitTruncate w X.oneBits n = X.oneBits % 2 ^ n := by
  rw [truncated_iff] at ht
  constructor
  · apply Nat.eq_of_testBit_eq
    intro i
    rw [testBit_bitTruncate, Nat.testBit_mod_two_pow]
    have h := (ht i).1
    revert h
    cases X.zeroBits.testBit i <;> by_cases h1 : i < n <;> by_cases h2 : i < w <;>
      simp [h1, h2]
  · apply Nat.eq_of_testBit_eq
    intro i
    rw [testBit_bitTruncate, Nat.testBit_mod_two_pow]
    have h := (ht i).2
    revert h
    cases X.oneBits.testBit i <;> by_cases h1 : i < n <;> by_cases h2 : i < w <;>
      simp [h1, h2]

/-- C20: for every abstract `X` (its masks in the truncated form that the class keeps)
and every `n`, after `X.resize(n)` the size is `n`; if `n` is below the old size, each
mask is the old mask restricted to its low `n` bits; if `n` is at least the old size,
both masks are unchanged; `resize(size())` is the identity; and `resize(n)` followed by
`resize(m)` with `m <= n` equals `resize(m)`. -/
theorem C20_resize (w n m : Nat) (X : ArchAbstractValue) (ht : truncated w X)
    (hmn : m ≤ n) :
    (resize w X n).size = n ∧
    (n < X.size →
      (resize w X n).zeroBits = X.zeroBits % 2 ^ n ∧
      (resize w X n).oneBits = X.oneBits % 2 ^ n ∧
      ∀ i, (resize w X n).zeroBits.testBit i = (decide (i < n) && X.zeroBits.testBit i) ∧
        (resize w X n).oneBits.testBit i = (decide (i < n) && X.oneBits.testBit i)) ∧
    (X.size ≤ n →
      (resize w X n).zeroBits = X.zeroBits ∧ (resize w X n).oneBits = X.oneBits) ∧
    resize w X X.size = X ∧
    resize w (resize w X n) m = resize w X m := by
  obtain ⟨h1, h2, h3, h4, h5⟩ := resize_spec w n m X
  obtain ⟨e1, e2⟩ := bitTruncate_eq_mod_of_truncated ht n
  refine ⟨h1, ?_, h3, h4, h5 hmn (Or.inl ht)⟩
  intro hlt
  obtain ⟨z1, o1, -, -⟩ := h2 hlt
  refine ⟨by rw [z1, e1], by rw [o1, e2], fun i => ?_⟩
  rw [z1, o1, e1, e2, Nat.testBit_mod_two_pow, Nat.testBit_mod_two_pow]
  exact ⟨rfl, rfl⟩

/-- Witness of C20: an 8-bit value with truncated masks resized to 12 and then to 4
bits. -/
theorem C20_resize_witness :
    truncated 128 ⟨8, 0x4A, 0xB5⟩ ∧ (4 : Nat) ≤ 12 ∧
    resize 128 (resize 128 ⟨8, 0x4A, 0xB5⟩ 12) 4 = resize 128 ⟨8, 0x4A, 0xB5⟩ 4 :=
  ⟨by decide, by decide,
    (C20_resize 128 12 4 ⟨8, 0x4A, 0xB5⟩ (by decide) (by decide)).2.2.2.2⟩



/-! ## Bit length and the assertions of the division helpers -/

/-- A value between two consecutive powers of two has the bit length of the upper one. -/
theorem size_of_bounds {v k : Nat} (h1 : 2 ^ k ≤ v) (h2 : v < 2 ^ (k + 1)) :
    Nat.size v = k + 1 := by
  have a : Nat.size v ≤ k + 1 := Nat.size_le.mpr h2
  have b : k < Nat.size v := Nat.lt_size.mpr h1
  omega

/-- C28: for every non-zero unsigned 32-bit or 64-bit value `v`, `ilog2(v)` is the index
of the highest set bit, `2^ilog2(v) <= v < 2^(ilog2(v)+1)`; `ilog2(0)` is the all-ones
`unsigned int`; and `1 + ilog2(v)`, in `unsigned int` arithmetic, is the bit length of
`v` for every `v` including 0. -/
theorem C28_ilog2_highest_set_bit (v : Nat) :
    (v ≠ 0 → v < W32 →
      2 ^ ilog2_u32 v ≤ v ∧ v < 2 ^ (ilog2_u32 v + 1) ∧ ilog2_u32 v = Nat.log 2 v ∧
      v.testBit (ilog2_u32 v) = true ∧ ∀ i, ilog2_u32 v < i → v.testBit i = false) ∧
    (v ≠ 0 → v < W64 →
      2 ^ ilog2_u64 v ≤ v ∧ v < 2 ^ (ilog2_u64 v + 1) ∧ ilog2_u64 v = Nat.log 2 v ∧
      v.testBit (ilog2_u64 v) = true ∧ ∀ i, ilog2_u64 v < i → v.testBit i = false) ∧
    ilog2_u32 0 = 2 ^ 32 - 1 ∧ ilog2_u64 0 = 2 ^ 32 - 1 ∧
    (v < W32 → (1 + ilog2_u32 v) % W32 = Nat.size v) ∧
    (v < W64 → (1 + ilog2_u64 v) % W32 = Nat.size v) := by
  have key : ∀ k : Nat, 2 ^ k ≤ v → v < 2 ^ (k + 1) →
      k = Nat.log 2 v ∧ v.testBit k = true ∧ ∀ i, k < i → v.testBit i = false := by
    intro k h1 h2
    have hv : v ≠ 0 := by
      have : 0 < 2 ^ k := Nat.pow_pos (by decide)
      omega
    refine ⟨((Nat.log_eq_iff (Or.inr ⟨by decide, hv⟩)).mpr ⟨h1, h2⟩).symm, ?_, ?_⟩
    · rw [Nat.testBit_to_div_mod]
      have hq : v / 2 ^ k = 1 := by
        have hp : 0 < 2 ^ k := Nat.pow_pos (by decide)
        have l1 : 1 ≤ v / 2 ^ k := (Nat.le_div_iff_mul_le hp).mpr (by omega)
        have l2 : v / 2 ^ k < 2 := (Nat.div_lt_iff_lt_mul hp).mpr (by rw [pow_succ] at h2; omega)
        omega
      rw [hq]
      decide
    · intro i hi
      exact testBit_false_of_lt h2 hi
  refine ⟨?_, ?_, by decide, by decide, ?_, ?_⟩
  · intro h0 hv
    obtain ⟨l1, l2, -⟩ := ilog2_u32_spec h0 hv
    obtain ⟨k1, k2, k3⟩ := key _ l1 l2
    exact ⟨l1, l2, k1, k2, k3⟩
  · intro h0 hv
    obtain ⟨l1, l2, -⟩ := ilog2_u64_spec h0 hv
    obtain ⟨k1, k2, k3⟩ := key _ l1 l2
    exact ⟨l1, l2, k1, k2, k3⟩
  · intro hv
    by_cases h0 : v = 0
    · subst h0; rw [Nat.size_zero]; decide
    · obtain ⟨l1, l2, l3⟩ := ilog2_u32_spec h0 hv
      rw [size_of_bounds l1 l2]
      simp only [W32]
      omega
  · intro hv
    by_cases h0 : v = 0
    · subst h0; rw [Nat.size_zero]; decide
    · obtain ⟨l1, l2, l3⟩ := ilog2_u64_spec h0 hv
      rw [size_of_bounds l1 l2]
      simp only [W32]
      omega

/-- Witness of C28: the bit length of `0x00F0` as a 32-bit and of `2^40 + 1` as a 64-bit
value. -/
theorem C28_ilog2_highest_set_bit_witness :
    (240 : Nat) ≠ 0 ∧ 240 < W32 ∧ 2 ^ ilog2_u32 240 ≤ 240 ∧ ilog2_u32 240 = 7 ∧
    (1 + ilog2_u64 1099511627777) % W32 = Nat.size 1099511627777 :=
  ⟨by decide, by decide,
    ((C28_ilog2_highest_set_bit 240).1 (by decide) (by decide)).1, by decide,
    (C28_ilog2_highest_set_bit 1099511627777).2.2.2.2.2 (by decide)⟩


/-- The overload of `impl_divide` for a 32-bit divisor, in terms of its locals. -/
theorem impl_divide_u32_locals (a : IntegerBase128) (d : Nat) (hhi : a.hi ≠ 0) :
    impl_divide_u32 a d =
      opAddAssign
        (if (M_sum a d).hi ≠ 0 then
          opAddAssign ⟨if a.hi ≥ d then a.hi / d else 0, (hi_rem a d * base_quot d) % W64⟩
            (ofUnsigned (base_quot d))
        else ⟨if a.hi ≥ d then a.hi / d else 0, (hi_rem a d * base_quot d) % W64⟩)
        (ofUnsigned
          ((if (M_sum a d).hi ≠ 0 then ((M_sum a d).lo + base_rem d) % W64
            else (M_sum a d).lo) / d)) := by
  unfold impl_divide_u32
  rw [if_neg hhi]
  simp only [M_sum, hi_rem, base_quot, base_rem]
  split_ifs <;> rfl

/-- The overload of `impl_divide` for a 64-bit divisor, in terms of its locals. -/
theorem impl_divide_locals (a : IntegerBase128) (d : Nat) (hhi : a.hi ≠ 0)
    (hd : d >>> 32 ≠ 0) :
    impl_divide a d =
      opShrAssign false (impl_multiply_high_part a (reciprocal (divisor_normalized d)))
        (31 + initial_shift d) := by
  unfold impl_divide
  rw [if_neg hhi, if_neg hd]
  rfl

/-- The bounds on the locals of `impl_divide` for a 32-bit divisor. -/
theorem divide_u32_locals_bounds (a : IntegerBase128) {d : Nat} (hd1 : 1 ≤ d)
    (hd : d < W32) :
    base_rem d < d ∧ hi_rem a d < d ∧ base_rem d * hi_rem a d ≤ (W32 - 2) * (W32 - 2) ∧
    hi_rem a d * base_quot d < W64 := by
  obtain ⟨hbr, hbq, hbase⟩ := base_quot_spec hd1 hd
  change base_rem d < d at hbr
  change base_quot d < W64 at hbq
  change (base_quot d * d + base_rem d = W64 ∨ (d = 1 ∧ base_quot d = 0 ∧ base_rem d = 0))
    at hbase
  have hhr : hi_rem a d < d := by
    unfold hi_rem
    simp only
    split_ifs with h
    · exact Nat.mod_lt _ hd1
    · omega
  refine ⟨hbr, hhr, ?_, ?_⟩
  · apply Nat.mul_le_mul <;> simp only [W32] at * <;> omega
  · rcases hbase with h | ⟨-, h, -⟩
    · have h1 : (hi_rem a d + 1) * base_quot d ≤ d * base_quot d :=
        Nat.mul_le_mul_right _ hhr
      rw [Nat.add_mul, Nat.one_mul, Nat.mul_comm d] at h1
      by_cases h0 : base_quot d = 0
      · rw [h0]; simp [W64]
      · omega
    · rw [h]; simp [W64]

/-- C27: the assertions inside the division helpers never fail.  For every dividend
with `hi != 0` and every divisor `1 <= d < 2^32`, in `impl_divide(dividend, uint32_t)`
the products `base_rem * hi_rem` and `hi_rem * base_quot` and, where it is computed, the
sum `M.lo + base_rem` do not overflow 64 bits, and `M = base_rem * hi_rem + dividend.lo`
has `M.hi <= 1`; and for every divisor `2^32 <= d < 2^64`, `divisor_normalized_hi32` is
at least `2^31` and below `2^32`. -/
theorem C27_division_assertions_hold (dividend : IntegerBase128) (d : Nat)
    (hw : WF dividend) (_hhi : dividend.hi ≠ 0) :
    (1 ≤ d → d < W32 →
      base_rem d * hi_rem dividend d < W64 ∧
      hi_rem dividend d * base_quot d < W64 ∧
      val (M_sum dividend d) = base_rem d * hi_rem dividend d + dividend.lo ∧
      (M_sum dividend d).hi ≤ 1 ∧
      ((M_sum dividend d).hi ≠ 0 → (M_sum dividend d).lo + base_rem d < W64)) ∧
    (W32 ≤ d → d < W64 →
      2 ^ 31 ≤ divisor_normalized_hi32 d ∧ divisor_normalized_hi32 d < 2 ^ 32) := by
  constructor
  · intro hd1 hd
    obtain ⟨hbr, hhr, hprod, hq⟩ := divide_u32_locals_bounds dividend hd1 hd
    have hplt : base_rem d * hi_rem dividend d < W64 := by
      refine lt_of_le_of_lt hprod ?_
      simp [W32, W64]
    have hM0 : WF (⟨0, (base_rem d * hi_rem dividend d) % W64⟩ : IntegerBase128) :=
      ⟨by simp [W64], Nat.mod_lt _ (by simp [W64])⟩
    have hlo : WF (ofUnsigned dividend.lo) := ⟨by simp [ofUnsigned, W64], hw.2⟩
    obtain ⟨hMw, hMv⟩ := opAddAssign_spec hM0 hlo
    have hMs : M_sum dividend d
        = opAddAssign ⟨0, (base_rem d * hi_rem dividend d) % W64⟩ (ofUnsigned dividend.lo) :=
      rfl
    rw [← hMs] at hMw hMv
    have hval : val (M_sum dividend d) = base_rem d * hi_rem dividend d + dividend.lo := by
      rw [hMv]
      simp only [val, ofUnsigned, Nat.zero_mul, Nat.zero_add, Nat.mod_eq_of_lt hplt]
      apply Nat.mod_eq_of_lt
      have := hw.2
      simp only [W64, W128] at *
      omega
    have hlo2 := hw.2
    refine ⟨hplt, hq, hval, ?_, ?_⟩
    · simp only [val] at hval
      simp only [W32, W64] at *
      omega
    · intro hne
      simp only [val] at hval
      have hMlo := hMw.2
      simp only [W32, W64] at *
      omega
  · intro h32 hd
    obtain ⟨-, -, -, h63, hlt⟩ := divisor_normalized_spec h32 hd
    change 9223372036854775808 ≤ divisor_normalized d at h63
    change divisor_normalized d < W64 at hlt
    unfold divisor_normalized_hi32
    rw [shr32]
    simp only [W32, W64] at *
    constructor
    · norm_num; omega
    · norm_num; omega

/-- Witness of C27: the dividend `(hi=5, lo=2^64-1)` with the divisors `3` and `2^32+1`. -/
theorem C27_division_assertions_hold_witness :
    WF ⟨5, 18446744073709551615⟩ ∧ (1 : Nat) ≤ 3 ∧ 3 < W32 ∧
    (M_sum ⟨5, 18446744073709551615⟩ 3).hi ≤ 1 ∧
    2 ^ 31 ≤ divisor_normalized_hi32 4294967297 :=
  ⟨by decide, by decide, by decide,
    ((C27_division_assertions_hold ⟨5, 18446744073709551615⟩ 3 (by decide) (by decide)).1
      (by decide) (by decide)).2.2.2.1,
    ((C27_division_assertions_hold ⟨5, 18446744073709551615⟩ 4294967297 (by decide)
      (by decide)).2 (by decide) (by decide)).1⟩


/-! ## The generic bit container and the dataflow value of a term -/

/-- Combining a list with itself word by word, for an idempotent operation. -/
theorem zipWith_self_idem (f : Nat → Nat → Nat) (hf : ∀ x, f x x = x) (l : List Nat) :
    List.zipWith f l l = l := by
  induction l with
  | nil => rfl
  | cons x t ih => simp [List.zipWith, hf, ih]

/-- C23 (what the code does): `operator~` of `BitStorage` returns a copy of its operand,
not the complement; so `x & ~x` and `x | ~x` are `x`, and for the default-constructed
128-bit value (two zero words) `~x` and `x | ~x` are all zero where the complement has
all words all-ones. -/
theorem C23_complement_returns_copy (x : BitStorage) :
    BitStorage.opNot x = x ∧
    BitStorage.opAndAssign x (BitStorage.opNot x) = x ∧
    BitStorage.opOrAssign x (BitStorage.opNot x) = x ∧
    BitStorage.opNot (BitStorage.zero 2) = ⟨[0, 0]⟩ ∧
    BitStorage.opNot (BitStorage.zero 2) ≠ ⟨[2 ^ 64 - 1, 2 ^ 64 - 1]⟩ ∧
    BitStorage.opOrAssign (BitStorage.zero 2) (BitStorage.opNot (BitStorage.zero 2))
      ≠ ⟨[2 ^ 64 - 1, 2 ^ 64 - 1]⟩ := by
  refine ⟨rfl, ?_, ?_, by decide, by decide, by decide⟩
  · simp only [BitStorage.opAndAssign, BitStorage.opNot]
    rw [zipWith_self_idem _ Nat.and_self]
  · simp only [BitStorage.opOrAssign, BitStorage.opNot]
    rw [zipWith_self_idem _ Nat.or_self]

/-- The size stored by a term is the same after any sequence of `setAbstractValue`. -/
theorem setAbstractValue_foldl_size (w : Nat) (vs : List ArchAbstractValue) :
    ∀ self : ArchValue,
      (vs.foldl (ArchValue.setAbstractValue w) self).abstractValue.size
        = self.abstractValue.size := by
  induction vs with
  | nil => intro self; rfl
  | cons v t ih =>
    intro self
    rw [List.foldl_cons, ih]
    unfold ArchValue.setAbstractValue resize
    split_ifs <;> rfl

/-- C22: for a term whose stored value has size `t`, and for every abstract `v` of any
size (its masks in the truncated form that the class keeps), after `setAbstractValue(v)`
the stored value has size exactly `t` and its masks are the masks of `v` with every bit
at a position `>= t` cleared (unchanged when `v.size() <= t`); the member is total, so
no input is rejected, and the stored size is the same after any sequence of
`setAbstractValue` calls. -/
theorem C22_set_resizes_to_term_size (w t : Nat) (self : ArchValue) (v : ArchAbstractValue)
    (vs : List ArchAbstractValue) (ht : self.abstractValue.size = t) (hv : truncated w v) :
    (ArchValue.setAbstractValue w self v).abstractValue.size = t ∧
    (ArchValue.setAbstractValue w self v).abstractValue.zeroBits = v.zeroBits % 2 ^ t ∧
    (ArchValue.setAbstractValue w self v).abstractValue.oneBits = v.oneBits % 2 ^ t ∧
    (∀ i,
      (ArchValue.setAbstractValue w self v).abstractValue.zeroBits.testBit i
        = (decide (i < t) && v.zeroBits.testBit i) ∧
      (ArchValue.setAbstractValue w self v).abstractValue.oneBits.testBit i
        = (decide (i < t) && v.oneBits.testBit i)) ∧
    (v.size ≤ t →
      (ArchValue.setAbstractValue w self v).abstractValue.zeroBits = v.zeroBits ∧
      (ArchValue.setAbstractValue w self v).abstractValue.oneBits = v.oneBits) ∧
    (vs.foldl (ArchValue.setAbstractValue w) self).abstractValue.size = t := by
  subst ht
  obtain ⟨e1, e2⟩ := bitTruncate_eq_mod_of_truncated hv self.abstractValue.size
  have hz : (ArchValue.setAbstractValue w self v).abstractValue.zeroBits
        = v.zeroBits % 2 ^ self.abstractValue.size ∧
      (ArchValue.setAbstractValue w self v).abstractValue.oneBits
        = v.oneBits % 2 ^ self.abstractValue.size := by
    by_cases hlt : self.abstractValue.size < v.size
    · unfold ArchValue.setAbstractValue resize
      rw [if_pos hlt]
      exact ⟨e1, e2⟩
    · obtain ⟨t1, t2⟩ :=
        bitTruncate_of_truncated hv (show v.size ≤ self.abstractValue.size by omega)
      unfold ArchValue.setAbstractValue resize
      rw [if_neg hlt]
      dsimp only
      rw [← e1, ← e2, t1, t2]
      exact ⟨rfl, rfl⟩
  refine ⟨?_, hz.1, hz.2, ?_, ?_, setAbstractValue_foldl_size w vs self⟩
  · unfold ArchValue.setAbstractValue resize
    split_ifs <;> rfl
  · intro i
    rw [hz.1, hz.2, Nat.testBit_mod_two_pow, Nat.testBit_mod_two_pow]
    exact ⟨rfl, rfl⟩
  · intro h
    unfold ArchValue.setAbstractValue resize
    rw [if_neg (by omega)]
    exact ⟨rfl, rfl⟩

/-- Witness of C22: a term of size 4 given an 8-bit value, whose high four bits are
cleared. -/
theorem C22_set_resizes_to_term_size_witness :
    truncated 128 ⟨8, 0x4A, 0xB5⟩ ∧
    (ArchValue.setAbstractValue 128 ⟨⟨4, 0, 0⟩⟩ ⟨8, 0x4A, 0xB5⟩).abstractValue.size = 4 ∧
    (ArchValue.setAbstractValue 128 ⟨⟨4, 0, 0⟩⟩ ⟨8, 0x4A, 0xB5⟩).abstractValue.zeroBits
      = 0x4A % 2 ^ 4 :=
  ⟨by decide,
    (C22_set_resizes_to_term_size 128 4 ⟨⟨4, 0, 0⟩⟩ ⟨8, 0x4A, 0xB5⟩ [] rfl (by decide)).1,
    (C22_set_resizes_to_term_size 128 4 ⟨⟨4, 0, 0⟩⟩ ⟨8, 0x4A, 0xB5⟩ [] rfl
      (by decide)).2.1⟩

/-- C24: for every abstract `X`, `X & X` has the size and the masks of `X`, and `X ^ U`,
with `U` the value of the same size whose two masks are zero, again has both masks zero
at that size; the example `X = (8, 0x0F, 0xF0)` is concrete with value `0xF0`. -/
theorem C24_and_idempotent_xor_unknown (X : ArchAbstractValue) :
    opAnd X X = X ∧
    opXor X ⟨X.size, 0, 0⟩ = ⟨X.size, 0, 0⟩ ∧
    isConcrete 128 ⟨8, 0x0F, 0xF0⟩ = true ∧
    asConcrete 128 ⟨8, 0x0F, 0xF0⟩ = some ⟨8, 0xF0⟩ ∧
    truncated 128 ⟨8, 0x0F, 0xF0⟩ ∧
    opAnd ⟨8, 0x0F, 0xF0⟩ ⟨8, 0x0F, 0xF0⟩ = ⟨8, 0x0F, 0xF0⟩ ∧
    opXor ⟨8, 0x0F, 0xF0⟩ ⟨8, 0, 0⟩ = ⟨8, 0, 0⟩ ∧
    isConcrete 128 (opXor ⟨8, 0x0F, 0xF0⟩ ⟨8, 0, 0⟩) = false := by
  refine ⟨?_, ?_, by decide, by decide, by decide, by decide, by decide, by decide⟩
  · simp [opAnd, constructExact]
  · simp [opXor, constructExact]


/-! ## Extension of abstract values -/

open ArchAbstractValue (shift project zeroExtend signExtend)

/-- Bits of the mask of the positions added by an extension from `s` to `n` bits. -/
theorem testBit_extendMask (w s n i : Nat) :
    (shiftLeft w (bitMask w (n - s)) s).testBit i = decide (s ≤ i ∧ i < n ∧ i < w) := by
  rw [testBit_shiftLeft_word, testBit_bitMask]
  by_cases h1 : i < w <;> by_cases h2 : s ≤ i <;> by_cases h3 : i < n <;>
    simp [h1, h2, h3] <;> omega

/-- The test of the sign bit in `signExtend`, for a mask without bits at or above the
size. -/
theorem sign_test_iff {w s z : Nat} (hz : ∀ i, z.testBit i = true → i < s ∧ i < w) :
    z &&& shiftLeft w 1 (s - 1) ≠ 0 ↔ z.testBit (s - 1) = true := by
  constructor
  · intro h
    obtain ⟨i, hi⟩ := Nat.ne_zero_implies_bit_true h
    rw [Nat.testBit_and, testBit_shiftLeft_word] at hi
    simp only [Bool.and_eq_true, decide_eq_true_eq] at hi
    obtain ⟨h1, ⟨-, h3⟩, h4⟩ := hi
    have h5 : i - (s - 1) = 0 := by
      by_contra hne
      have : (1 : Nat).testBit (i - (s - 1)) = false :=
        testBit_false_of_lt (show 1 < 2 ^ 1 by decide) (by omega)
      rw [this] at h4
      exact Bool.noConfusion h4
    have h6 : i = s - 1 := by omega
    rw [← h6]; exact h1
  · intro h hc
    have hw := (hz _ h).2
    have := congrArg (fun v => v.testBit (s - 1)) hc
    simp only [Nat.testBit_and, testBit_shiftLeft_word, h, Nat.zero_testBit,
      Nat.sub_self, le_refl, hw, decide_True, Bool.true_and] at this
    exact Bool.noConfusion this

/-- Bits of the zero mask after `zeroExtend`. -/
theorem zeroExtend_zeroBits_testBit (w n i : Nat) (X : ArchAbstractValue) :
    (zeroExtend w X n).zeroBits.testBit i
      = (X.zeroBits.testBit i || decide (X.size ≤ i ∧ i < n ∧ i < w)) := by
  simp only [zeroExtend, Nat.testBit_or, testBit_extendMask]

/-- Bits of the masks after `signExtend` of a value with truncated masks. -/
theorem signExtend_testBit {w : Nat} {X : ArchAbstractValue} (ht : truncated w X)
    (n i : Nat) :
    (signExtend w X n).zeroBits.testBit i
      = (X.zeroBits.testBit i ||
          (X.zeroBits.testBit (X.size - 1) && decide (X.size ≤ i ∧ i < n ∧ i < w))) ∧
    (signExtend w X n).oneBits.testBit i
      = (X.oneBits.testBit i ||
          (X.oneBits.testBit (X.size - 1) && decide (X.size ≤ i ∧ i < n ∧ i < w))) := by
  rw [truncated_iff] at ht
  have hz := sign_test_iff (fun i => (ht i).1)
  have ho := sign_test_iff (fun i => (ht i).2)
  unfold signExtend
  simp only
  constructor
  · by_cases h : X.zeroBits.testBit (X.size - 1) = true
    · rw [if_pos (hz.mpr h), Nat.testBit_or, testBit_extendMask, h, Bool.true_and]
    · rw [if_neg (fun hc => h (hz.mp hc))]
      simp only [Bool.not_eq_true] at h
      rw [h, Bool.false_and, Bool.or_false]
  · by_cases h : X.oneBits.testBit (X.size - 1) = true
    · rw [if_pos (ho.mpr h), Nat.testBit_or, testBit_extendMask, h, Bool.true_and]
    · rw [if_neg (fun hc => h (ho.mp hc))]
      simp only [Bool.not_eq_true] at h
      rw [h, Bool.false_and, Bool.or_false]


/-- The mask of the positions added by an extension from `s` to `n <= w` bits, as a
number. -/
theorem extendMask_eq {w s n : Nat} (hsn : s < n) (hnw : n ≤ w) :
    shiftLeft w (bitMask w (n - s)) s = (2 ^ (n - s) - 1) * 2 ^ s ∧
    (2 ^ (n - s) - 1) * 2 ^ s = 2 ^ n - 2 ^ s := by
  have e : (2 ^ (n - s) - 1) * 2 ^ s = 2 ^ n - 2 ^ s := by
    rw [Nat.sub_mul, ← pow_add, Nat.sub_add_cancel (le_of_lt hsn), Nat.one_mul]
  refine ⟨?_, e⟩
  unfold shiftLeft
  rw [if_pos (by omega), bitMask_of_le (by omega), Nat.shiftLeft_eq, e]
  apply Nat.mod_eq_of_lt
  have h1 : 2 ^ n ≤ 2 ^ w := Nat.pow_le_pow_right (by decide) hnw
  exact lt_of_lt_of_le (Nat.sub_lt (Nat.pow_pos (by decide)) (Nat.pow_pos (by decide))) h1

/-- C21: for every abstract `X` of size `s` with truncated masks and every `n > s`
within the supported width: `zeroExtend(n)` gives size `n`, leaves the low `s` positions
and the one mask unchanged, and makes every position in `[s, n)` concrete-0;
`signExtend(n)` (with `s > 0`) gives size `n`, leaves the low `s` positions unchanged,
and gives every position in `[s, n)` the zero-bit and the one-bit of position `s-1`.
Hence a concrete value `v` extends to the concrete value `v`, respectively to the
concrete value `v + (2^n - 2^s)` when bit `s-1` of `v` is set and `v` otherwise. -/
theorem C21_extend (w s n : Nat) (X : ArchAbstractValue) (hXs : X.size = s)
    (ht : truncated w X) (hsn : s < n) (hnw : n ≤ w) :
    ((zeroExtend w X n).size = n ∧ (zeroExtend w X n).oneBits = X.oneBits ∧
      (∀ i, i < s → (zeroExtend w X n).zeroBits.testBit i = X.zeroBits.testBit i) ∧
      (∀ i, s ≤ i → i < n → (zeroExtend w X n).zeroBits.testBit i = true ∧
        (zeroExtend w X n).oneBits.testBit i = false)) ∧
    (0 < s →
      (signExtend w X n).size = n ∧
      (∀ i, i < s → (signExtend w X n).zeroBits.testBit i = X.zeroBits.testBit i ∧
        (signExtend w X n).oneBits.testBit i = X.oneBits.testBit i) ∧
      (∀ i, s ≤ i → i < n →
        (signExtend w X n).zeroBits.testBit i = X.zeroBits.testBit (s - 1) ∧
        (signExtend w X n).oneBits.testBit i = X.oneBits.testBit (s - 1))) ∧
    (isConcrete w X = true →
      isConcrete w (zeroExtend w X n) = true ∧
      asConcrete w (zeroExtend w X n) = some ⟨n, X.oneBits⟩ ∧
      isConcrete w (signExtend w X n) = true ∧
      asConcrete w (signExtend w X n)
        = some ⟨n, if X.oneBits.testBit (s - 1) = true then X.oneBits + (2 ^ n - 2 ^ s)
            else X.oneBits⟩) := by
  subst hXs
  have htr := (truncated_iff w X).mp ht
  have hzhigh : ∀ i, X.size ≤ i → X.zeroBits.testBit i = false := by
    intro i hi
    cases h : X.zeroBits.testBit i
    · rfl
    · have := ((htr i).1 h).1; omega
  have hohigh : ∀ i, X.size ≤ i → X.oneBits.testBit i = false := by
    intro i hi
    cases h : X.oneBits.testBit i
    · rfl
    · have := ((htr i).2 h).1; omega
  have hsz : (signExtend w X n).size = n := rfl
  refine ⟨⟨rfl, rfl, ?_, ?_⟩, ?_, ?_⟩
  · intro i hi
    rw [zeroExtend_zeroBits_testBit]
    have : ¬ (X.size ≤ i ∧ i < n ∧ i < w) := by omega
    simp [this]
  · intro i h1 h2
    rw [zeroExtend_zeroBits_testBit]
    have : X.size ≤ i ∧ i < n ∧ i < w := ⟨h1, h2, by omega⟩
    exact ⟨by simp [this], hohigh i h1⟩
  · intro _
    refine ⟨rfl, ?_, ?_⟩
    · intro i hi
      obtain ⟨e1, e2⟩ := signExtend_testBit ht n i
      have : ¬ (X.size ≤ i ∧ i < n ∧ i < w) := by omega
      rw [e1, e2]
      simp [this]
    · intro i h1 h2
      obtain ⟨e1, e2⟩ := signExtend_testBit ht n i
      have : X.size ≤ i ∧ i < n ∧ i < w := ⟨h1, h2, by omega⟩
      rw [e1, e2, hzhigh i h1, hohigh i h1]
      simp [this]
  · intro hc
    obtain ⟨hpos, hx⟩ := (isConcrete_iff_testBit w X).mp hc
    have hn0 : 0 < n := by omega
    have hcz : isConcrete w (zeroExtend w X n) = true := by
      rw [isConcrete_iff_testBit]
      refine ⟨hn0, fun i => ?_⟩
      rw [zeroExtend_zeroBits_testBit]
      show (_ ^^ X.oneBits.testBit i) = decide (i < n ∧ i < w)
      have h1 := hx i
      by_cases hi : i < X.size
      · have a1 : ¬ X.size ≤ i := by omega
        have a2 : i < n ∧ i < w := by omega
        have a3 : i < X.size ∧ i < w := by omega
        simpa [a1, a2, a3] using h1
      · rw [hzhigh i (by omega), hohigh i (by omega)]
        by_cases h2 : i < n
        · have a1 : X.size ≤ i ∧ i < n ∧ i < w := by omega
          have a2 : i < n ∧ i < w := by omega
          simp [a1, a2]
        · have a1 : ¬ (X.size ≤ i ∧ i < n ∧ i < w) := by omega
          have a2 : ¬ (i < n ∧ i < w) := by omega
          simp [a1, a2]
    have hcs : isConcrete w (signExtend w X n) = true := by
      rw [isConcrete_iff_testBit]
      refine ⟨hn0, fun i => ?_⟩
      obtain ⟨e1, e2⟩ := signExtend_testBit ht n i
      rw [e1, e2, hsz]
      have h1 := hx i
      by_cases hi : i < X.size
      · have a1 : ¬ X.size ≤ i := by omega
        have a2 : i < n ∧ i < w := by omega
        have a3 : i < X.size ∧ i < w := by omega
        simpa [a1, a2, a3] using h1
      · rw [hzhigh i (by omega), hohigh i (by omega)]
        have hsign := hx (X.size - 1)
        have a3 : X.size - 1 < X.size ∧ X.size - 1 < w := by omega
        by_cases h2 : i < n
        · have a1 : X.size ≤ i ∧ i < n ∧ i < w := by omega
          have a2 : i < n ∧ i < w := by omega
          simpa [a1, a2, a3] using hsign
        · have a1 : ¬ (X.size ≤ i ∧ i < n ∧ i < w) := by omega
          have a2 : ¬ (i < n ∧ i < w) := by omega
          simp [a1, a2]
    refine ⟨hcz, by unfold asConcrete; rw [if_pos hcz]; rfl, hcs, ?_⟩
    unfold asConcrete
    rw [if_pos hcs]
    have hval : (signExtend w X n).oneBits
        = if X.oneBits.testBit (X.size - 1) = true then X.oneBits + (2 ^ n - 2 ^ X.size)
          else X.oneBits := by
      have ho := sign_test_iff (fun i => (htr i).2)
      unfold signExtend
      simp only
      by_cases h : X.oneBits.testBit (X.size - 1) = true
      · rw [if_pos (ho.mpr h), if_pos h]
        obtain ⟨m1, m2⟩ := extendMask_eq hsn hnw
        rw [m1, Nat.lor_comm, or_eq_add_of_lt _ (oneBits_lt_of_truncated ht), m2, Nat.add_comm]
      · rw [if_neg (fun hc => h (ho.mp hc)), if_neg h]
    rw [hsz, hval]

/-- Witness of C21: the 4-bit value `0b1010` extended to 8 bits. -/
theorem C21_extend_witness :
    truncated 128 ⟨4, 0x5, 0xA⟩ ∧ (4 : Nat) < 8 ∧ 8 ≤ 128 ∧
    isConcrete 128 ⟨4, 0x5, 0xA⟩ = true ∧
    asConcrete 128 (zeroExtend 128 ⟨4, 0x5, 0xA⟩ 8) = some ⟨8, 0x0A⟩ ∧
    asConcrete 128 (signExtend 128 ⟨4, 0x5, 0xA⟩ 8) = some ⟨8, 0xFA⟩ :=
  ⟨by decide, by decide, by decide, by decide,
    ((C21_extend 128 4 8 ⟨4, 0x5, 0xA⟩ rfl (by decide) (by decide) (by decide)).2.2
      (by decide)).2.1,
    ((C21_extend 128 4 8 ⟨4, 0x5, 0xA⟩ rfl (by decide) (by decide) (by decide)).2.2
      (by decide)).2.2.2⟩


/-! ## The invariants of abstract values -/

/-- The truncating constructor builds truncated masks. -/
theorem truncated_construct (w s z o : Nat) : truncated w (construct w s z o) := by
  rw [truncated_iff]
  intro i
  simp only [construct, testBit_bitTruncate, Bool.and_eq_true, decide_eq_true_eq]
  exact ⟨fun h => h.2, fun h => h.2⟩

/-- Bits of the shift of a word by a signed amount. -/
theorem testBit_bitShift (w z : Nat) (nbits : Int) (i : Nat) :
    (bitShift w z nbits).testBit i =
      if 0 ≤ nbits then (decide (i < w) && decide (nbits.toNat ≤ i) && z.testBit (i - nbits.toNat))
      else (decide ((-nbits).toNat < w) && z.testBit ((-nbits).toNat + i)) := by
  unfold bitShift
  split_ifs
  · rw [testBit_shiftLeft_word]
  · rw [testBit_shiftRight_word]

/-- The member `shift` keeps the masks truncated. -/
theorem truncated_shift {w : Nat} {a : ArchAbstractValue} (hta : truncated w a)
    (nbits : Int) : truncated w (shift w a nbits) := by
  rw [truncated_iff] at hta ⊢
  intro i
  simp only [shift, testBit_bitShift]
  by_cases hn : 0 ≤ nbits
  · simp only [if_pos hn, Bool.and_eq_true, decide_eq_true_eq]
    constructor
    · rintro ⟨⟨h1, h2⟩, h3⟩
      have := (hta _).1 h3
      exact ⟨by omega, h1⟩
    · rintro ⟨⟨h1, h2⟩, h3⟩
      have := (hta _).2 h3
      exact ⟨by omega, h1⟩
  · simp only [if_neg hn, Bool.and_eq_true, decide_eq_true_eq]
    constructor
    · rintro ⟨h1, h3⟩
      have := (hta _).1 h3
      exact ⟨by omega, by omega⟩
    · rintro ⟨h1, h3⟩
      have := (hta _).2 h3
      exact ⟨by omega, by omega⟩

/-- The extensions keep the masks truncated. -/
theorem truncated_extend {w : Nat} {a : ArchAbstractValue} (hta : truncated w a) {m : Nat}
    (hm : a.size < m) : truncated w (zeroExtend w a m) ∧ truncated w (signExtend w a m) := by
  have h := (truncated_iff w a).mp hta
  constructor
  · rw [truncated_iff]
    intro i
    rw [zeroExtend_zeroBits_testBit]
    show (_ → i < m ∧ i < w) ∧ (a.oneBits.testBit i = true → i < m ∧ i < w)
    simp only [Bool.or_eq_true, decide_eq_true_eq]
    constructor
    · rintro (h1 | h1)
      · have := (h i).1 h1; omega
      · omega
    · intro h1
      have := (h i).2 h1; omega
  · rw [truncated_iff]
    intro i
    obtain ⟨e1, e2⟩ := signExtend_testBit hta m i
    rw [e1, e2]
    show (_ → i < m ∧ i < w) ∧ (_ → i < m ∧ i < w)
    simp only [Bool.or_eq_true, Bool.and_eq_true, decide_eq_true_eq]
    constructor
    · rintro (h1 | ⟨-, h1⟩)
      · have := (h i).1 h1; omega
      · omega
    · rintro (h1 | ⟨-, h1⟩)
      · have := (h i).2 h1; omega
      · omega

/-- C25: the truncated form is an invariant.  If the masks of every input have no bit
at a position at or above its size (and binary operands have equal sizes), so do the
masks of the result of each of `&`, `|`, `^`, `~`, `<<`, `>>`, `==`, `resize`,
`project`, `zeroExtend`, `signExtend` (to a larger size) and `shift`; for `&`, `|`, `^`
and `==` this says that the two mask assertions of the exact constructor hold, and the
truncating constructor, which builds the other results, yields truncated masks from any
arguments. -/
theorem C25_truncated_form_preserved (w : Nat) (a b : ArchAbstractValue) (n m mask : Nat)
    (nbits : Int) (hw : 0 < w) (hta : truncated w a) (htb : truncated w b)
    (hsz : a.size = b.size) :
    truncated w (opAnd a b) ∧ truncated w (opOr a b) ∧ truncated w (opXor a b) ∧
    truncated w (ArchAbstractValue.opNot w a) ∧
    truncated w (opShl w a b) ∧ truncated w (opShr w a b) ∧
    truncated w (ArchAbstractValue.opEq w a b) ∧
    truncated w (resize w a n) ∧ truncated w (project a mask) ∧
    (a.size < m → truncated w (zeroExtend w a m) ∧ truncated w (signExtend w a m)) ∧
    truncated w (shift w a nbits) ∧
    (∀ s z o, truncated w (construct w s z o)) := by
  have ha := (truncated_iff w a).mp hta
  have hb := (truncated_iff w b).mp htb
  refine ⟨?_, ?_, ?_, truncated_construct _ _ _ _, ?_, ?_, ?_, ?_, ?_,
    fun hm => truncated_extend hta hm, truncated_shift hta nbits, truncated_construct w⟩
  · rw [truncated_iff]
    intro i
    have h1 := ha i; have h2 := hb i
    simp only [opAnd, constructExact, Nat.testBit_and, Nat.testBit_or]
    revert h1 h2
    cases a.zeroBits.testBit i <;> cases a.oneBits.testBit i <;>
      cases b.zeroBits.testBit i <;> cases b.oneBits.testBit i <;> simp <;> omega
  · rw [truncated_iff]
    intro i
    have h1 := ha i; have h2 := hb i
    simp only [opOr, constructExact, Nat.testBit_and, Nat.testBit_or]
    revert h1 h2
    cases a.zeroBits.testBit i <;> cases a.oneBits.testBit i <;>
      cases b.zeroBits.testBit i <;> cases b.oneBits.testBit i <;> simp <;> omega
  · rw [truncated_iff]
    intro i
    have h1 := ha i; have h2 := hb i
    simp only [opXor, constructExact, Nat.testBit_and, Nat.testBit_or]
    revert h1 h2
    cases a.zeroBits.testBit i <;> cases a.oneBits.testBit i <;>
      cases b.zeroBits.testBit i <;> cases b.oneBits.testBit i <;> simp <;> omega
  · unfold opShl
    split_ifs <;> exact truncated_construct _ _ _ _
  · unfold opShr
    split_ifs <;> exact truncated_construct _ _ _ _
  · have hflag : ∀ (c : Prop) [Decidable c] (i : Nat),
        (if c then 1 else 0 : Nat).testBit i = true → i < 1 ∧ i < w := by
      intro c _ i h
      by_cases hi : i = 0
      · omega
      · have : (if c then 1 else 0 : Nat).testBit i = false :=
          testBit_false_of_lt (show (if c then 1 else 0 : Nat) < 2 ^ 1 by split_ifs <;> decide)
            (by omega)
        rw [this] at h
        exact Bool.noConfusion h
    rw [truncated_iff]
    intro i
    exact ⟨hflag _ i, hflag _ i⟩
  · rw [truncated_iff]
    intro i
    have h1 := ha i
    unfold resize
    split_ifs with hlt
    · simp only [testBit_bitTruncate, Bool.and_eq_true, decide_eq_true_eq]
      exact ⟨fun h => h.2, fun h => h.2⟩
    · dsimp only
      exact ⟨fun h => by have := h1.1 h; constructor <;> omega,
        fun h => by have := h1.2 h; constructor <;> omega⟩
  · rw [truncated_iff]
    intro i
    have h1 := ha i
    simp only [project, Nat.testBit_and, Bool.and_eq_true]
    exact ⟨fun h => h1.1 h.1, fun h => h1.2 h.1⟩

/-- Witness of C25: two 8-bit values with truncated masks. -/
theorem C25_truncated_form_preserved_witness :
    0 < 128 ∧ truncated 128 ⟨8, 0x50, 0xA0⟩ ∧ truncated 128 ⟨8, 0xC3, 0x3C⟩ ∧
    truncated 128 (opXor ⟨8, 0x50, 0xA0⟩ ⟨8, 0xC3, 0x3C⟩) :=
  ⟨by decide, by decide, by decide,
    (C25_truncated_form_preserved 128 ⟨8, 0x50, 0xA0⟩ ⟨8, 0xC3, 0x3C⟩ 4 12 0x0F 3
      (by decide) (by decide) (by decide) rfl).2.2.1⟩


/-- The result of `a == b` on operands without contradictions, the first with truncated
masks, is not nondeterministic. -/
theorem opEq_not_nondeterministic {w : Nat} {a b : ArchAbstractValue} (hta : truncated w a)
    (hna : isNondeterministic a = false) (hnb : isNondeterministic b = false) :
    isNondeterministic (ArchAbstractValue.opEq w a b) = false := by
  have ha := (isNondeterministic_false_iff a).mp hna
  have hb := (isNondeterministic_false_iff b).mp hnb
  have ht := (truncated_iff w a).mp hta
  have hexcl : (a.zeroBits &&& b.oneBits ≠ 0 ∨ a.oneBits &&& b.zeroBits ≠ 0) →
      ¬ ((a.zeroBits &&& b.zeroBits) ||| (a.oneBits &&& b.oneBits) = bitMask w a.size) := by
    intro h1 h2
    have key : ∀ i, (a.zeroBits.testBit i = true ∧ b.oneBits.testBit i = true) ∨
        (a.oneBits.testBit i = true ∧ b.zeroBits.testBit i = true) → False := by
      intro i hi
      have hin : i < a.size ∧ i < w := by
        rcases hi with ⟨h, -⟩ | ⟨h, -⟩
        · exact (ht i).1 h
        · exact (ht i).2 h
      have h3 := congrArg (fun v => v.testBit i) h2
      simp only [Nat.testBit_or, Nat.testBit_and, testBit_bitMask, hin, and_self,
        decide_True] at h3
      have h4 := ha i; have h5 := hb i
      revert hi h3 h4 h5
      cases a.zeroBits.testBit i <;> cases a.oneBits.testBit i <;>
        cases b.zeroBits.testBit i <;> cases b.oneBits.testBit i <;> simp
    rcases h1 with h | h
    · obtain ⟨i, hi⟩ := Nat.ne_zero_implies_bit_true h
      rw [Nat.testBit_and, Bool.and_eq_true] at hi
      exact key i (Or.inl hi)
    · obtain ⟨i, hi⟩ := Nat.ne_zero_implies_bit_true h
      rw [Nat.testBit_and, Bool.and_eq_true] at hi
      exact key i (Or.inr hi)
  unfold isNondeterministic ArchAbstractValue.opEq constructExact
  simp only
  by_cases h1 : a.zeroBits &&& b.oneBits ≠ 0 ∨ a.oneBits &&& b.zeroBits ≠ 0
  · rw [if_pos h1, if_neg (hexcl h1)]
    decide
  · rw [if_neg h1]
    split_ifs <;> decide

/-- The shifts by a concrete amount keep a value free of contradictions; for the right
shift by more than the size, whatever word `m` the high part of the zero mask is. -/
theorem shift_not_nondeterministic {w : Nat} {a b : ArchAbstractValue}
    (hta : truncated w a) (hna : isNondeterministic a = false)
    (hbc : isConcrete w b = true) :
    isNondeterministic (opShl w a b) = false ∧ isNondeterministic (opShr w a b) = false ∧
    ∀ m, a.size < b.oneBits →
      isNondeterministic (construct w a.size (shiftRight w a.zeroBits b.oneBits ||| m)
        (shiftRight w a.oneBits b.oneBits)) = false := by
  have ha := (isNondeterministic_false_iff a).mp hna
  have ht := (truncated_iff w a).mp hta
  have hhigh : ∀ i, a.size ≤ i → a.oneBits.testBit i = false := by
    intro i hi
    cases h : a.oneBits.testBit i
    · rfl
    · have := ((ht i).2 h).1; omega
  refine ⟨?_, ?_, ?_⟩
  · rw [isNondeterministic_false_iff]
    intro i
    unfold opShl
    rw [if_pos hbc]
    simp only [construct, testBit_bitTruncate, Nat.testBit_or, testBit_shiftLeft_word,
      testBit_bitMask]
    have h1 := ha (i - b.oneBits)
    by_cases h2 : b.oneBits ≤ i
    · have h3 : ¬ i < b.oneBits := by omega
      revert h1
      cases a.zeroBits.testBit (i - b.oneBits) <;> cases a.oneBits.testBit (i - b.oneBits) <;>
        simp [h2, h3]
    · simp [h2]
  · rw [isNondeterministic_false_iff]
    intro i
    unfold opShr
    rw [if_pos hbc]
    simp only [construct, testBit_bitTruncate, Nat.testBit_or, testBit_shiftLeft_word,
      testBit_shiftRight_word, testBit_bitMask]
    have h1 := ha (b.oneBits + i)
    by_cases h2 : b.oneBits + i < a.size
    · have h3 : ¬ a.size - b.oneBits ≤ i := by omega
      revert h1
      cases a.zeroBits.testBit (b.oneBits + i) <;> cases a.oneBits.testBit (b.oneBits + i) <;>
        simp [h3]
    · rw [hhigh _ (by omega)]
      simp
  · intro m hlt
    rw [isNondeterministic_false_iff]
    intro i
    simp only [construct, testBit_bitTruncate, testBit_shiftRight_word]
    rw [hhigh _ (by omega)]
    simp

/-- C26: contradiction-freedom is preserved.  If `a` and `b` are truncated, of equal
size, and `isNondeterministic` is false for both, then `isNondeterministic` is false
for `a & b`, `a | b`, `a ^ b`, `~a`, `a == b`, for `a << b` and `a >> b` when `b` is
concrete, and for `a` after `resize`, `project`, `zeroExtend` and `signExtend`. -/
theorem C26_contradiction_freedom_preserved (w : Nat) (a b : ArchAbstractValue)
    (n mask : Nat) (hta : truncated w a) (_htb : truncated w b) (_hsz : a.size = b.size)
    (hna : isNondeterministic a = false) (hnb : isNondeterministic b = false) :
    isNondeterministic (opAnd a b) = false ∧ isNondeterministic (opOr a b) = false ∧
    isNondeterministic (opXor a b) = false ∧
    isNondeterministic (ArchAbstractValue.opNot w a) = false ∧
    isNondeterministic (ArchAbstractValue.opEq w a b) = false ∧
    (isConcrete w b = true →
      isNondeterministic (opShl w a b) = false ∧ isNondeterministic (opShr w a b) = false ∧
      ∀ m, a.size < b.oneBits →
        isNondeterministic (construct w a.size (shiftRight w a.zeroBits b.oneBits ||| m)
          (shiftRight w a.oneBits b.oneBits)) = false) ∧
    isNondeterministic (resize w a n) = false ∧
    isNondeterministic (project a mask) = false ∧
    isNondeterministic (zeroExtend w a n) = false ∧
    isNondeterministic (signExtend w a n) = false := by
  have ha := (isNondeterministic_false_iff a).mp hna
  have hb := (isNondeterministic_false_iff b).mp hnb
  have ht := (truncated_iff w a).mp hta
  refine ⟨?_, ?_, ?_, ?_, opEq_not_nondeterministic hta hna hnb,
    fun hbc => shift_not_nondeterministic hta hna hbc, ?_, ?_, ?_, ?_⟩
  · rw [isNondeterministic_false_iff]
    intro i
    have h1 := ha i; have h2 := hb i
    simp only [opAnd, constructExact, Nat.testBit_and, Nat.testBit_or]
    revert h1 h2
    cases a.zeroBits.testBit i <;> cases a.oneBits.testBit i <;>
      cases b.zeroBits.testBit i <;> cases b.oneBits.testBit i <;> simp
  · rw [isNondeterministic_false_iff]
    intro i
    have h1 := ha i; have h2 := hb i
    simp only [opOr, constructExact, Nat.testBit_and, Nat.testBit_or]
    revert h1 h2
    cases a.zeroBits.testBit i <;> cases a.oneBits.testBit i <;>
      cases b.zeroBits.testBit i <;> cases b.oneBits.testBit i <;> simp
  · rw [isNondeterministic_false_iff]
    intro i
    have h1 := ha i; have h2 := hb i
    simp only [opXor, constructExact, Nat.testBit_and, Nat.testBit_or]
    revert h1 h2
    cases a.zeroBits.testBit i <;> cases a.oneBits.testBit i <;>
      cases b.zeroBits.testBit i <;> cases b.oneBits.testBit i <;> simp
  · rw [isNondeterministic_false_iff]
    intro i
    have h1 := ha i
    simp only [ArchAbstractValue.opNot, construct, testBit_bitTruncate]
    revert h1
    cases a.zeroBits.testBit i <;> cases a.oneBits.testBit i <;> simp
  · rw [isNondeterministic_false_iff]
    intro i
    have h1 := ha i
    unfold resize
    split_ifs
    · simp only [testBit_bitTruncate]
      revert h1
      cases a.zeroBits.testBit i <;> cases a.oneBits.testBit i <;> simp
    · exact h1
  · rw [isNondeterministic_false_iff]
    intro i
    have h1 := ha i
    simp only [project, Nat.testBit_and]
    revert h1
    cases a.zeroBits.testBit i <;> cases a.oneBits.testBit i <;> simp
  · rw [isNondeterministic_false_iff]
    intro i
    have h1 := ha i
    have h2 := (ht i).2
    rw [zeroExtend_zeroBits_testBit]
    show ¬ (_ ∧ a.oneBits.testBit i = true)
    revert h1 h2
    cases a.zeroBits.testBit i <;> cases a.oneBits.testBit i <;> simp
    omega
  · rw [isNondeterministic_false_iff]
    intro i
    obtain ⟨e1, e2⟩ := signExtend_testBit hta n i
    rw [e1, e2]
    have h1 := ha i
    have h2 := ht i
    have h3 := ha (a.size - 1)
    revert h1 h2 h3
    cases a.zeroBits.testBit i <;> cases a.oneBits.testBit i <;>
      cases a.zeroBits.testBit (a.size - 1) <;> cases a.oneBits.testBit (a.size - 1) <;>
      simp <;> omega

/-- Witness of C26: two 8-bit values without contradictions. -/
theorem C26_contradiction_freedom_preserved_witness :
    truncated 128 ⟨8, 0x50, 0xA0⟩ ∧ truncated 128 ⟨8, 0xC3, 0x3C⟩ ∧
    isNondeterministic ⟨8, 0x50, 0xA0⟩ = false ∧ isNondeterministic ⟨8, 0xC3, 0x3C⟩ = false ∧
    isNondeterministic (opXor ⟨8, 0x50, 0xA0⟩ ⟨8, 0xC3, 0x3C⟩) = false :=
  ⟨by decide, by decide, by decide, by decide,
    (C26_contradiction_freedom_preserved 128 ⟨8, 0x50, 0xA0⟩ ⟨8, 0xC3, 0x3C⟩ 12 0x0F
      (by decide) (by decide) rfl (by decide) (by decide)).2.2.1⟩

end Snowman
